import Mathlib

/-!
# LeanStore: optimistic B+ tree and buffer manager

A shallow embedding of

* `tools/btree-implementations/btree-exceptions/BTree.hpp` (namespace `btree`), and
* `src/leanstore/storage/buffer-manager/BufferManager.cpp` (namespace `leanstore`),

executed by a single thread, followed by the properties proved about them.

Conventions of the embedding.

* A C array `T a[maxEntries]` is a function `Nat → T`: the slot contents, live or stale.
  Slots that the program never wrote hold `default`.
* `uint16_t count` and the `unsigned` indices of the binary search are natural numbers;
  every value they take is below `2^16`, so no operation on them wraps.
* A pointer to a node is the node itself: every node has exactly one live reference
  (the slot `children[i]`, `i ≤ count`, of its parent, or `root`), and an in-place update of
  a node is a replacement of that slot.
-/

namespace btree

/-! ## Arrays -/

/-- Effect of `memmove(a + pos + 1, a + pos, n * sizeof(T))` on the array `a`. -/
def memmoveUp {α : Type} (a : Nat → α) (pos n : Nat) : Nat → α :=
  fun j => if pos + 1 ≤ j ∧ j < pos + 1 + n then a (j - 1) else a j

/-- Effect of `memcpy(dst, src + start, n * sizeof(T))` on a freshly allocated array `dst`. -/
def memcpyFrom {α : Type} (junk : α) (src : Nat → α) (start n : Nat) : Nat → α :=
  fun j => if j < n then src (start + j) else junk

/-- Assignment `a[i] = x`. -/
def store {α : Type} (a : Nat → α) (i : Nat) (x : α) : Nat → α :=
  fun j => if j = i then x else a j

/-! ## Nodes -/

/-- A node: `BTreeLeaf<Key,Payload>` or `BTreeInner<Key>`, with its `count` and its arrays. -/
inductive Node (K V : Type) where
  | leaf (count : Nat) (keys : Nat → K) (payloads : Nat → V)
  | inner (count : Nat) (keys : Nat → K) (children : Nat → Node K V)

/-- The constants `BTreeLeaf::maxEntries` and `BTreeInner::maxEntries`, which the source
computes from `sizeof(Key)`, `sizeof(Payload)` and `sizeof(NodeBase*)`. -/
structure Capacity where
  leafMax : Nat
  innerMax : Nat

/-- Contents of a child slot that was never written. -/
def junkNode (K V : Type) [Inhabited K] [Inhabited V] : Node K V :=
  .leaf 0 (fun _ => default) (fun _ => default)

/-- Result of the binary search. -/
inductive Bound where
  /-- the value returned -/
  | index (i : Nat)
  /-- a range check failed: `return -1` in the leaf, `throw OptimisticLockException()` in the
  inner node -/
  | invalid
  /-- the iteration budget of the model ran out -/
  | unfinished
  deriving DecidableEq, Repr

/-- The `do { ... } while (lower < upper)` loop of `lowerBound`, one iteration per unit of
`fuel`. -/
def lowerBoundLoop {K : Type} [LinearOrder K] (keys : Nat → K) (k : K) :
    Nat → Nat → Nat → Bound
  | 0, _, _ => .unfinished
  | fuel + 1, lower, upper =>
    let mid := ((upper - lower) / 2) + lower
    if k < keys mid then
      if ¬ (mid ≤ upper) then .invalid
      else if lower < mid then lowerBoundLoop keys k fuel lower mid
      else .index lower
    else if keys mid < k then
      if ¬ (lower ≤ mid) then .invalid
      else if mid + 1 < upper then lowerBoundLoop keys k fuel (mid + 1) upper
      else .index (mid + 1)
    else .index mid

/-- The function `lowerBound(k)` of `BTreeLeaf` and of `BTreeInner` (same body up to the way a
failed range check is reported). The budget `count + 1` is never exhausted. -/
def lowerBound {K : Type} [LinearOrder K] (count : Nat) (keys : Nat → K) (k : K) : Bound :=
  lowerBoundLoop keys k (count + 1) 0 count

/-- Contents of a leaf after `BTreeLeaf::insert(k, p)`; `none` when `lowerBound` returned `-1`
(the code then indexes the arrays with `(unsigned)-1`). -/
def BTreeLeaf.insert {K V : Type} [LinearOrder K] (count : Nat) (keys : Nat → K)
    (payloads : Nat → V) (k : K) (p : V) : Option (Node K V) :=
  if count ≠ 0 then
    match lowerBound count keys k with
    | .index pos =>
      if pos < count ∧ keys pos = k then
        some (.leaf count keys (store payloads pos p))
      else
        some (.leaf (count + 1) (store (memmoveUp keys pos (count - pos)) pos k)
          (store (memmoveUp payloads pos (count - pos)) pos p))
    | _ => none
  else
    some (.leaf (count + 1) (store keys 0 k) (store payloads 0 p))

/-- The call `BTreeLeaf::split(sep)`: the leaf afterwards, `sep`, and the new leaf; `none` when
the left half is empty (`sep = keys[count - 1]` then reads `keys[-1]`). -/
def BTreeLeaf.split {K V : Type} [Inhabited K] [Inhabited V] (count : Nat) (keys : Nat → K)
    (payloads : Nat → V) : Option (Node K V × K × Node K V) :=
  let newCount := count - (count / 2)
  let count1 := count - newCount
  if count1 = 0 then none
  else
    some (.leaf count1 keys payloads, keys (count1 - 1),
      .leaf newCount (memcpyFrom default keys count1 newCount)
        (memcpyFrom default payloads count1 newCount))

/-- The call `BTreeInner::split(sep)`: the node afterwards, `sep`, and the new inner node;
`none` when `count < 2` (the `uint16_t` assignment `count = count - newInner->count - 1` then
wraps and `keys[count]` is outside the array). -/
def BTreeInner.split {K V : Type} [Inhabited K] [Inhabited V] (count : Nat) (keys : Nat → K)
    (children : Nat → Node K V) : Option (Node K V × K × Node K V) :=
  let newCount := count - (count / 2)
  if count < newCount + 1 then none
  else
    let count1 := count - newCount - 1
    some (.inner count1 keys children, keys count1,
      .inner newCount (memcpyFrom default keys (count1 + 1) (newCount + 1))
        (memcpyFrom (junkNode K V) children (count1 + 1) (newCount + 1)))

/-- Contents of an inner node after `BTreeInner::insert(k, child)`; `none` when its
`lowerBound` throws. -/
def BTreeInner.insert {K V : Type} [LinearOrder K] (count : Nat) (keys : Nat → K)
    (children : Nat → Node K V) (k : K) (child : Node K V) : Option (Node K V) :=
  match lowerBound count keys k with
  | .index pos =>
    let keys1 := store (memmoveUp keys pos (count - pos + 1)) pos k
    let children1 := store (memmoveUp children pos (count - pos + 1)) pos child
    -- std::swap(children[pos], children[pos + 1])
    let children2 := store (store children1 pos (children1 (pos + 1))) (pos + 1) (children1 pos)
    some (.inner (count + 1) keys1 children2)
  | _ => none

/-- The node built by `BTree::makeRoot(k, leftChild, rightChild)`. -/
def makeRoot {K V : Type} [Inhabited K] [Inhabited V] (k : K) (leftChild rightChild : Node K V) :
    Node K V :=
  .inner 1 (store (fun _ => default) 0 k)
    (store (store (fun _ => junkNode K V) 0 leftChild) 1 rightChild)

/-- What one pass of the `try` block of `BTree::insert` did below (and including) a node. -/
inductive Outcome (K V : Type) where
  /-- `leaf->insert(k, v); return;` was reached; the subtree afterwards -/
  | done (n : Node K V)
  /-- this node was split in place into `left` and the new node `right`; the caller
  publishes `(sep, right)` in the parent or calls `makeRoot`, then the pass restarts -/
  | split (left : Node K V) (sep : K) (right : Node K V)
  /-- an `OptimisticLockException` was thrown below; the subtree afterwards -/
  | restart (n : Node K V)
  /-- an array was indexed outside its bounds -/
  | fault
  /-- the iteration budget of a binary search ran out -/
  | unfinished

/-- One pass of the `try` block of `BTree::insert`, from the node `c_node` downwards. The
recursion follows the `while (c_node->type == PageType::BTreeInner)` loop; what the loop does
to `p_node` when `c_node` is split is done on return from the recursive call. -/
def insertDescend {K V : Type} [LinearOrder K] [Inhabited K] [Inhabited V] (cap : Capacity)
    (k : K) (v : V) : Node K V → Outcome K V
  | .leaf count keys payloads =>
    if count = cap.leafMax then
      match BTreeLeaf.split count keys payloads with
      | some (left, sep, right) => .split left sep right
      | none => .fault
    else
      match BTreeLeaf.insert count keys payloads k v with
      | some n => .done n
      | none => .fault
  | .inner count keys children =>
    if count + 1 = cap.innerMax then
      match BTreeInner.split count keys children with
      | some (left, sep, right) => .split left sep right
      | none => .fault
    else
      match lowerBound count keys k with
      | .index pos =>
        match insertDescend cap k v (children pos) with
        | .done c => .done (.inner count keys (store children pos c))
        | .split left sep right =>
          match BTreeInner.insert count keys (store children pos left) sep right with
          | some n => .restart n
          | none => .restart (.inner count keys (store children pos left))
        | .restart c => .restart (.inner count keys (store children pos c))
        | .fault => .fault
        | .unfinished => .unfinished
      | .invalid => .restart (.inner count keys children)
      | .unfinished => .unfinished

/-- The tree object: `root` and `restarts_counter` (`root_version` is only read and written by
the lock classes). -/
structure BTree (K V : Type) where
  root : Node K V
  restarts_counter : Nat

/-- The constructor `BTree()`. -/
def BTree.new (K V : Type) [Inhabited K] [Inhabited V] : BTree K V :=
  { root := .leaf 0 (fun _ => default) (fun _ => default), restarts_counter := 0 }

/-- The function `BTree::insert(k, v)`: `fuel` bounds the number of passes of `while (true)`;
`none` when the call has not returned within that many passes. -/
def BTree.insert {K V : Type} [LinearOrder K] [Inhabited K] [Inhabited V] (cap : Capacity) :
    Nat → BTree K V → K → V → Option (BTree K V)
  | 0, _, _, _ => none
  | fuel + 1, t, k, v =>
    match insertDescend cap k v t.root with
    | .done n => some { t with root := n }
    | .split left sep right =>
      BTree.insert cap fuel
        { root := makeRoot sep left right,
          restarts_counter := (t.restarts_counter + 1) % 2 ^ 64 } k v
    | .restart n =>
      BTree.insert cap fuel { root := n, restarts_counter := (t.restarts_counter + 1) % 2 ^ 64 } k v
    | .fault => none
    | .unfinished => none

/-- What one pass of the `try` block of `BTree::lookup` produced. -/
inductive Found (V : Type) where
  /-- `result = leaf->payloads[pos]; return true;` -/
  | found (result : V)
  /-- `return false;` -/
  | notFound
  /-- an `OptimisticLockException` was thrown -/
  | restart
  /-- an array was indexed outside its bounds -/
  | fault
  /-- the iteration budget of a binary search ran out -/
  | unfinished
  deriving DecidableEq, Repr

/-- One pass of the `try` block of `BTree::lookup`, from the node `c_node` downwards. -/
def lookupDescend {K V : Type} [LinearOrder K] (k : K) : Node K V → Found V
  | .leaf count keys payloads =>
    match lowerBound count keys k with
    | .index pos => if pos < count ∧ keys pos = k then .found (payloads pos) else .notFound
    | .invalid => .fault
    | .unfinished => .unfinished
  | .inner count keys children =>
    match lowerBound count keys k with
    | .index pos => lookupDescend k (children pos)
    | .invalid => .restart
    | .unfinished => .unfinished

/-- The function `BTree::lookup(k, result)`: the tree afterwards (a restart counts in
`restarts_counter`) and `some result` for `true`, `none` for `false`; `fuel` bounds the
number of passes of `while (true)`. -/
def BTree.lookup {K V : Type} [LinearOrder K] :
    Nat → BTree K V → K → Option (BTree K V × Option V)
  | 0, _, _ => none
  | fuel + 1, t, k =>
    match lookupDescend k t.root with
    | .found result => some (t, some result)
    | .notFound => some (t, none)
    | .restart =>
      BTree.lookup fuel { t with restarts_counter := (t.restarts_counter + 1) % 2 ^ 64 } k
    | .fault => none
    | .unfinished => none

/-- Trees produced from `BTree()` by calls of `insert` that returned. -/
inductive Reachable {K V : Type} [LinearOrder K] [Inhabited K] [Inhabited V] (cap : Capacity) :
    BTree K V → Prop where
  | new : Reachable cap (BTree.new K V)
  | insert {t t1 : BTree K V} (fuel : Nat) (k : K) (v : V) :
      Reachable cap t → BTree.insert cap fuel t k v = some t1 → Reachable cap t1

/-- A sequence of `insert` calls, each with the pass budget `fuel`. -/
def insertAll {K V : Type} [LinearOrder K] [Inhabited K] [Inhabited V] (cap : Capacity)
    (fuel : Nat) : List (K × V) → BTree K V → Option (BTree K V)
  | [], t => some t
  | (k, v) :: rest, t =>
    match BTree.insert cap fuel t k v with
    | some t1 => insertAll cap fuel rest t1
    | none => none

/-- Specification side of the map refinement: the value of the last `insert` of the sequence
whose key was `q`, if there is one. -/
def lastInserted {K V : Type} [DecidableEq K] (ops : List (K × V)) (q : K) : Option V :=
  match ops.reverse.find? (fun kv => kv.1 = q) with
  | some kv => some kv.2
  | none => none

end btree

namespace btree

/-! ## Invariants of the tree -/

/-- The keys `keys[0..count)` are strictly ascending. -/
def Ascending {K : Type} [LinearOrder K] (count : Nat) (keys : Nat → K) : Prop :=
  ∀ i j, i < j → j < count → keys i < keys j

/-- The search invariant of a subtree whose keys `q` are those with `lo < q ≤ hi`: the keys of
every node are strictly ascending and lie in the range of the node (strictly inside for an
inner node), and child `i` of an inner node has the range `keys[i-1] < q ≤ keys[i]`. An inner
node with `count = 0` (the left half of a split node with two or three keys) still has its
former `keys[0]`, the separator, in slot 0. -/
def Node.Search {K V : Type} [LinearOrder K] :
    WithBot K → WithTop K → Node K V → Prop
  | lo, hi, .leaf count keys _ =>
    Ascending count keys ∧ ∀ i, i < count → lo < (keys i : WithBot K) ∧ (keys i : WithTop K) ≤ hi
  | lo, hi, .inner count keys children =>
    Ascending count keys ∧
    (∀ i, i < count → lo < (keys i : WithBot K) ∧ (keys i : WithTop K) < hi) ∧
    (count = 0 → hi ≤ (keys 0 : WithTop K)) ∧
    ∀ i, i ≤ count →
      Node.Search (if i = 0 then lo else (keys (i - 1) : WithBot K))
        (if i = count then hi else (keys i : WithTop K)) (children i)

/-- The nodes on the path of `BTree::insert(k, ·)` from a node down to the leaf, each with the
answer to the test that makes `insert` split it: `count == maxEntries` for the leaf,
`count == maxEntries - 1` for an inner node. -/
def fullPath {K V : Type} [LinearOrder K] (cap : Capacity) (k : K) : Node K V → List Bool
  | .leaf count _ _ => [decide (count = cap.leafMax)]
  | .inner count keys children =>
    decide (count + 1 = cap.innerMax) ::
      match lowerBound count keys k with
      | .index pos => fullPath cap k (children pos)
      | _ => []

/-- Sum of the depths, counted from `d + 1`, of the nodes of a path that `insert` would
split. -/
def depthSum : Nat → List Bool → Nat
  | _, [] => 0
  | d, b :: rest => (if b then d + 1 else 0) + depthSum (d + 1) rest

/-- A bound on the number of passes of `BTree::insert` that end in a restart: each such pass
splits the first full node of the path, which can fill its parent. -/
def restartBound (path : List Bool) : Nat :=
  depthSum 0 path + (path.count true) ^ 2

/-- The `count` of the leaf that `insert(k, ·)` and `lookup(k)` reach from a node. -/
def pathLeafCount {K V : Type} [LinearOrder K] (k : K) : Node K V → Nat
  | .leaf count _ _ => count
  | .inner count keys children =>
    match lowerBound count keys k with
    | .index pos => pathLeafCount k (children pos)
    | _ => 0

/-- The outcome of a pass of `lookup` that returns `true` with `result`, or `false`. -/
def Found.ofOption {V : Type} : Option V → Found V
  | some result => .found result
  | none => .notFound

/-- The sum `f 0 + ... + f n`. -/
def sumTo (f : Nat → Nat) : Nat → Nat
  | 0 => f 0
  | n + 1 => sumTo f n + f (n + 1)

/-- Number of entries stored in the leaves of a subtree. -/
def Node.entries {K V : Type} : Node K V → Nat
  | .leaf count _ _ => count
  | .inner count _ children => sumTo (fun i => Node.entries (children i)) count

/-- The result of `lookup(q)` after a sequence of `insert` calls on a fresh tree, each call
and the lookup with the pass budget `fuel`. -/
def lookupAfter {K V : Type} [LinearOrder K] [Inhabited K] [Inhabited V] (cap : Capacity)
    (fuel : Nat) (ops : List (K × V)) (q : K) : Option (Option V) :=
  match insertAll cap fuel ops (BTree.new K V) with
  | some t => (BTree.lookup fuel t q).map Prod.snd
  | none => none

end btree

namespace leanstore

/-! ## Buffer manager

The state is the part of `BufferManager` that its member functions read and write. A frame
pointer `BufferFrame*` is the index of the frame in `bfs`; an iterator of
`cooling_fifo_queue` (a `std::list`) is the identity of the list node it designates, a number
that is never reused. The mutexes and the versioned locks only order the steps of different
threads; the steps below are the bodies of the critical sections, run one at a time. Whether
a guard operation (`recheck`, `ExclusiveGuard`) succeeds is an input of the step.
-/

/-- Modelled from the spec: the constant `PAGE_SIZE`, declared outside these sources, is 4 KiB. -/
def PAGE_SIZE : Nat := 4096

/-- The command-line flags read by the buffer manager (`uint32` each). -/
structure Flags where
  dram_pages : Nat
  ssd_pages : Nat
  cooling_threshold : Nat
  async_batch_size : Nat

/-- The flags are values of type `uint32`. -/
def Flags.inRange (fl : Flags) : Prop :=
  fl.dram_pages < 2 ^ 32 ∧ fl.ssd_pages < 2 ^ 32 ∧ fl.cooling_threshold < 2 ^ 32 ∧
    fl.async_batch_size < 2 ^ 32

instance (fl : Flags) : Decidable fl.inRange := by
  unfold Flags.inRange
  infer_instance

/-- Modelled from the spec: `Swip<BufferFrame>`, declared outside these sources, is either a
pointer to a resident frame or a page identifier. -/
inductive Swip where
  | swizzled (bf : Nat)
  | unswizzled (pid : Nat)
  deriving DecidableEq, Repr

/-- The method `Swip::isSwizzled`. -/
def Swip.isSwizzled : Swip → Bool
  | .swizzled _ => true
  | .unswizzled _ => false

/-- The enumeration `BufferFrame::State`. -/
inductive FrameState where
  | FREE
  | HOT
  | COLD
  deriving DecidableEq, Repr

/-- Modelled from the spec: `BufferFrame::Page`, declared outside these sources, is the page
image: its LSN, its data-structure identifier and the remaining bytes. -/
structure Page where
  LSN : Nat
  dt_id : Nat
  dt : List Nat
  deriving DecidableEq, Repr

/-- Modelled from the spec: `BufferFrame::Header`, declared outside these sources. -/
structure Header where
  pid : Nat
  lock : Nat
  state : FrameState
  isWB : Bool
  lastWrittenLSN : Nat
  deriving DecidableEq, Repr

/-- A buffer frame: header and page. -/
structure BufferFrame where
  header : Header
  page : Page
  deriving DecidableEq, Repr

/-- Modelled from the spec: a frame as `memset` and `new (bfs + bf_i) BufferFrame()` leave it:
residency state Free, every other field zero. -/
def BufferFrame.initial : BufferFrame :=
  { header := { pid := 0, lock := 0, state := .FREE, isWB := false, lastWrittenLSN := 0 },
    page := { LSN := 0, dt_id := 0, dt := [] } }

/-- Modelled from the spec: `BufferFrame::isDirty`, declared outside these sources; the frame
is not dirty when `lastWrittenLSN == page.LSN`. -/
def BufferFrame.isDirty (bf : BufferFrame) : Bool :=
  bf.header.lastWrittenLSN != bf.page.LSN

/-- The enumeration `CIOFrame::State`. -/
inductive CIOState where
  | NOT_LOADED
  | READING
  | COOLING
  deriving DecidableEq, Repr

/-- Modelled from the spec: `CIOFrame`, declared outside these sources: state, readers count
and iterator into the cooling FIFO (`none` while it was never assigned). -/
structure CIOFrame where
  state : CIOState
  readers_counter : Nat
  fifo_itr : Option Nat
  deriving DecidableEq, Repr

/-- A default-constructed `CIOFrame`. -/
def CIOFrame.initial : CIOFrame :=
  { state := .NOT_LOADED, readers_counter := 0, fifo_itr := none }

/-- The members of `BufferManager`, and the backing file. -/
structure BufferManager where
  /-- the frames -/
  bfs : Nat → BufferFrame
  /-- the queue of free frames, front first -/
  dram_free_bfs : List Nat
  /-- the atomic counter of free frames (64 bits) -/
  dram_free_bfs_counter : Nat
  /-- the queue of unassigned page identifiers, front first -/
  ssd_free_pages : List Nat
  /-- the cooling FIFO, oldest first: list node identity and frame -/
  cooling_fifo_queue : List (Nat × Nat)
  /-- identity of the next list node to be allocated -/
  next_itr : Nat
  /-- the table of CIO frames -/
  cooling_io_ht : Nat → Option CIOFrame
  /-- the page the file holds at offset `pid * PAGE_SIZE`, if the file extends that far -/
  ssd : Nat → Option Page
  swizzled_pages_counter : Nat
  unswizzled_pages_counter : Nat

/-- Assignment to one frame. -/
def setFrame (bfs : Nat → BufferFrame) (i : Nat) (x : BufferFrame) : Nat → BufferFrame :=
  fun j => if j = i then x else bfs j

/-- Assignment to one entry of the CIO table. -/
def putCIOFrame (ht : Nat → Option CIOFrame) (pid : Nat) (x : CIOFrame) : Nat → Option CIOFrame :=
  fun j => if j = pid then some x else ht j

/-- The entry `cooling_io_ht[pid]` (`operator[]` inserts a default entry when there is none). -/
def cioAt (ht : Nat → Option CIOFrame) (pid : Nat) : CIOFrame :=
  (ht pid).getD CIOFrame.initial

/-- The node an iterator designates, if it is still in the list. -/
def nodeAt (fifo : List (Nat × Nat)) (itr : Nat) : Option Nat :=
  (fifo.find? (fun n => n.1 = itr)).map (fun n => n.2)

/-- The call `cooling_fifo_queue.erase(itr)`. -/
def eraseNode (fifo : List (Nat × Nat)) (itr : Nat) : List (Nat × Nat) :=
  fifo.filter (fun n => n.1 ≠ itr)

/-- The size `ssd_total_size` handed to `ftruncate`: the product is stored in a `u32`. -/
def ssd_total_size (fl : Flags) : Nat :=
  (fl.ssd_pages * PAGE_SIZE) % 2 ^ 32

/-- The state the constructor `BufferManager()` builds; `disk` is the content of the file. -/
def BufferManager.init (fl : Flags) (disk : Nat → Page) : BufferManager :=
  { bfs := fun _ => BufferFrame.initial
    dram_free_bfs := List.range fl.dram_pages
    dram_free_bfs_counter := fl.dram_pages
    ssd_free_pages := List.range fl.ssd_pages
    cooling_fifo_queue := []
    next_itr := 0
    cooling_io_ht := fun pid => if pid < fl.ssd_pages then some CIOFrame.initial else none
    ssd := fun pid => if (pid + 1) * PAGE_SIZE ≤ ssd_total_size fl then some (disk pid) else none
    swizzled_pages_counter := 0
    unswizzled_pages_counter := 0 }

/-- The ways a member function stops before its end. -/
inductive Stop where
  /-- a `RestartException` leaves the function -/
  | restart
  /-- an `assert` fails: the process is aborted -/
  | assertion
  /-- a `check` fails: the process is aborted -/
  | check
  /-- an invalid iterator or pointer is dereferenced -/
  | undefined
  deriving DecidableEq, Repr

/-- How a call of a member function that returns a frame ends. -/
inductive Exit where
  | returned (bf : Nat)
  | stopped (why : Stop)
  deriving DecidableEq, Repr

/-- Whether control comes back to the caller, by a return or by an exception. -/
def Exit.reachesCaller : Exit → Bool
  | .returned _ => true
  | .stopped .restart => true
  | .stopped _ => false

/-- The function `BufferManager::allocatePage`. -/
def allocatePage (s : BufferManager) : BufferManager × Exit :=
  match s.ssd_free_pages, s.dram_free_bfs with
  | free_pid :: pids, free_bf :: frees =>
    let bf := s.bfs free_bf
    let bf1 : BufferFrame :=
      { bf with header := { bf.header with
          pid := free_pid, lock := 2, state := .HOT, lastWrittenLSN := bf.page.LSN } }
    ({ s with
        ssd_free_pages := pids
        bfs := setFrame s.bfs free_bf bf1
        dram_free_bfs := frees
        dram_free_bfs_counter := (s.dram_free_bfs_counter + (2 ^ 64 - 1)) % 2 ^ 64 },
      .returned free_bf)
  | _, _ => (s, .stopped .assertion)

/-- The function `BufferManager::resolveSwip(swip_guard, swip_value)`: the state and the swip
afterwards, and how the call ended. `guardValid` tells whether the operations on `swip_guard`
succeed. -/
def resolveSwip (s : BufferManager) (guardValid : Bool) (swip_value : Swip) :
    BufferManager × Swip × Exit :=
  match swip_value with
  | .swizzled bf =>
    if guardValid then (s, swip_value, .returned bf) else (s, swip_value, .stopped .restart)
  | .unswizzled pid =>
    if !guardValid then (s, swip_value, .stopped .restart)
    else
      match s.cooling_io_ht pid with
      | none => (s, swip_value, .stopped .undefined)
      | some cio_frame =>
        match cio_frame.state with
        | .NOT_LOADED =>
          let cf1 : CIOFrame :=
            { cio_frame with readers_counter := cio_frame.readers_counter + 1, state := .READING }
          let s1 := { s with cooling_io_ht := putCIOFrame s.cooling_io_ht pid cf1 }
          match s1.dram_free_bfs with
          | [] => (s1, swip_value, .stopped .assertion)
          | bf :: frees =>
            let s2 := { s1 with dram_free_bfs := frees }
            -- readPageSync(swip_value.asPageID(), bf.page)
            match s2.ssd pid with
            | none => (s2, swip_value, .stopped .check)
            | some page =>
              let frame := s2.bfs bf
              let frame1 : BufferFrame :=
                { header := { frame.header with lastWrittenLSN := page.LSN }, page := page }
              let cf2 : CIOFrame := { cf1 with state := .COOLING, fifo_itr := some s2.next_itr }
              ({ s2 with
                  bfs := setFrame s2.bfs bf frame1
                  cooling_fifo_queue := s2.cooling_fifo_queue ++ [(s2.next_itr, bf)]
                  next_itr := s2.next_itr + 1
                  cooling_io_ht := putCIOFrame s2.cooling_io_ht pid cf2 },
                swip_value, .stopped .restart)
        | .READING =>
          -- readers_counter++, wait on the mutex, readers_counter--
          (s, swip_value, .stopped .restart)
        | .COOLING =>
          match cio_frame.fifo_itr.bind (nodeAt s.cooling_fifo_queue) with
          | none => (s, swip_value, .stopped .undefined)
          | some bf =>
            let itr := cio_frame.fifo_itr.getD 0
            let frame := s.bfs bf
            ({ s with
                cooling_fifo_queue := eraseNode s.cooling_fifo_queue itr
                cooling_io_ht := putCIOFrame s.cooling_io_ht pid { cio_frame with state := .NOT_LOADED }
                bfs := setFrame s.bfs bf { frame with header := { frame.header with state := .HOT } }
                swizzled_pages_counter := s.swizzled_pages_counter + 1 },
              .swizzled bf, .returned bf)

/-- Modelled from the spec: an entry of the `AsyncWriteBuffer`, declared outside these
sources: the frame, a copy of its page, and the page LSN at copy time. -/
structure WriteEntry where
  bf : Nat
  page : Page
  lsn : Nat
  deriving DecidableEq, Repr

/-- Modelled from the spec: `AsyncWriteBuffer::add(bf)` takes a copy of the page bytes plus
the frame identity and the page LSN at copy time. -/
def AsyncWriteBuffer.add (wb : List WriteEntry) (bf : Nat) (frame : BufferFrame) :
    List WriteEntry :=
  wb ++ [{ bf := bf, page := frame.page, lsn := frame.page.LSN }]

/-- The local variables of the page provider thread. -/
structure Provider where
  r_buffer : Nat
  to_cooling_stage : Bool
  async_write_buffer : List WriteEntry

/-- The loop `while (bf_itr != cooling_fifo_queue.end())` of the page provider over the list
nodes still to visit (`next_bf_tr` is read as the iterator after `bf_itr`;
`n_to_process_bfs` is computed before the loop and not used by it). -/
def drainLoop (s : BufferManager) (wb : List WriteEntry) :
    List (Nat × Nat) → BufferManager × List WriteEntry
  | [] => (s, wb)
  | (itr, bf) :: rest =>
    let frame := s.bfs bf
    if frame.header.isWB = false then
      if !frame.isDirty then
        -- Reclaim buffer frame
        let cf := cioAt s.cooling_io_ht frame.header.pid
        drainLoop
          { s with
              cooling_fifo_queue := eraseNode s.cooling_fifo_queue itr
              cooling_io_ht := putCIOFrame s.cooling_io_ht frame.header.pid { cf with state := .NOT_LOADED }
              dram_free_bfs := s.dram_free_bfs ++ [bf]
              dram_free_bfs_counter := (s.dram_free_bfs_counter + 1) % 2 ^ 64 }
          wb rest
      else drainLoop s (AsyncWriteBuffer.add wb bf frame) rest
    else drainLoop s wb rest

/-- One pass of the body of the `while (true)` loop of the write-completion callback:
with the lock taken the two header fields are written, otherwise the `RestartException` is
caught. -/
def completionPass (s : BufferManager) (lockTaken : Bool) (written_bf written_lsn : Nat) :
    BufferManager :=
  if lockTaken then
    let frame := s.bfs written_bf
    let frame1 : BufferFrame :=
      { frame with header := { frame.header with lastWrittenLSN := written_lsn, isWB := false } }
    { s with bfs := setFrame s.bfs written_bf frame1 }
  else s

/-- What the environment supplies to one iteration of the page provider loop. -/
structure ProviderInput where
  /-- the frame `randomBufferFrame()` returns -/
  random : Nat
  /-- whether the guard operations of the iteration succeed -/
  guardsValid : Bool
  /-- the child swips of `r_buffer`, in the order `iterateChildrenSwips` presents them -/
  children : List Swip
  /-- the swip `findParent` returns for `r_buffer` -/
  parent : Swip
  /-- the write, if any, whose completion makes `submitIfNecessary` call the callback -/
  completed : Option WriteEntry

/-- How one iteration of the page provider loop ends. -/
inductive ProviderExit where
  /-- the iteration is over; the loop goes on -/
  | next
  /-- an `assert` failed -/
  | assertion
  /-- the completion callback was entered; it has no `return` or `break` -/
  | callback
  deriving DecidableEq, Repr

/-- The condition `dram_free_bfs_counter * 100.0 / FLAGS_dram_pages <= FLAGS_cooling_threshold`,
as a comparison of exact quotients (the rounding of the `double` operations is not part of the
model). -/
def coolingNeeded (fl : Flags) (s : BufferManager) : Bool :=
  decide (0 < fl.dram_pages ∧ s.dram_free_bfs_counter * 100 ≤ fl.cooling_threshold * fl.dram_pages)

/-- One iteration of the `while (bg_threads_keep_running)` loop of the page provider thread:
the state, the thread's variables and the parent swip afterwards, and how the iteration ended. -/
def providerStep (fl : Flags) (s : BufferManager) (p : Provider) (env : ProviderInput) :
    BufferManager × Provider × Swip × ProviderExit :=
  if p.to_cooling_stage then
    -- unswizzle pages (put in the cooling stage)
    if coolingNeeded fl s then
      if !env.guardsValid then (s, p, env.parent, .next)
      else
        let r := s.bfs p.r_buffer
        if r.header.state ≠ .HOT then (s, { p with r_buffer := env.random }, env.parent, .next)
        else
          match env.children.find? Swip.isSwizzled with
          | some (.swizzled child) => (s, { p with r_buffer := child }, env.parent, .next)
          | some (.unswizzled _) => (s, p, env.parent, .next)
          | none =>
            if env.parent ≠ .swizzled p.r_buffer then (s, p, env.parent, .assertion)
            else
              let cf := cioAt s.cooling_io_ht r.header.pid
              ({ s with
                  cooling_io_ht := putCIOFrame s.cooling_io_ht r.header.pid
                    { cf with state := .COOLING, fifo_itr := some s.next_itr }
                  cooling_fifo_queue := s.cooling_fifo_queue ++ [(s.next_itr, p.r_buffer)]
                  next_itr := s.next_itr + 1
                  bfs := setFrame s.bfs p.r_buffer { r with header := { r.header with state := .COLD } }
                  unswizzled_pages_counter := s.unswizzled_pages_counter + 1 },
                { p with r_buffer := env.random, to_cooling_stage := false },
                .unswizzled r.header.pid, .next)
    else (s, p, env.parent, .next)
  else
    -- AsyncWrite (for dirty) or remove (clean) the oldest (n) pages from fifo
    let (s1, wb1) := drainLoop s p.async_write_buffer s.cooling_fifo_queue
    match env.completed with
    | some w =>
      (completionPass s1 env.guardsValid w.bf w.lsn, { p with async_write_buffer := wb1 },
        env.parent, .callback)
    | none =>
      (s1, { p with async_write_buffer := wb1, to_cooling_stage := true }, env.parent, .next)

/-- States of the buffer manager reachable from the constructor by calls of `allocatePage` and
`resolveSwip`, iterations of the page provider, writes of the user to the pages of hot frames,
and writes of page images to the file. -/
inductive Reachable (fl : Flags) : BufferManager → Prop where
  | init (disk : Nat → Page) : fl.inRange → Reachable fl (BufferManager.init fl disk)
  | allocatePage {s : BufferManager} : Reachable fl s → Reachable fl (allocatePage s).1
  | resolveSwip {s : BufferManager} (guardValid : Bool) (swip_value : Swip) :
      Reachable fl s → Reachable fl (resolveSwip s guardValid swip_value).1
  | providerStep {s : BufferManager} (p : Provider) (env : ProviderInput) :
      Reachable fl s → Reachable fl (providerStep fl s p env).1
  | userWrite {s : BufferManager} (bf : Nat) (page : Page) :
      Reachable fl s → (s.bfs bf).header.state = .HOT →
      Reachable fl { s with bfs := setFrame s.bfs bf { header := (s.bfs bf).header, page := page } }
  | fileWrite {s : BufferManager} (pid : Nat) (page : Page) :
      Reachable fl s →
      Reachable fl { s with ssd := fun j => if j = pid then some page else s.ssd j }

/-- The frames returned by `n` successive calls of `allocatePage` (fewer when a call stops),
and the state afterwards. -/
def allocatePages : Nat → BufferManager → BufferManager × List Nat
  | 0, s => (s, [])
  | n + 1, s =>
    match allocatePage s with
    | (s1, .returned bf) => ((allocatePages n s1).1, bf :: (allocatePages n s1).2)
    | (s1, .stopped _) => (s1, [])

end leanstore

namespace leanstore

/-- Consistency of the containers of frames and page identifiers: no container holds an entry
twice, no frame is in both the free queue and the cooling FIFO, a hot frame is in neither,
the list nodes of the FIFO are distinct and older than the next node to be allocated,
and the counter of free frames is a 64-bit value. -/
structure Consistent (s : BufferManager) : Prop where
  free_nodup : s.dram_free_bfs.Nodup
  pids_nodup : s.ssd_free_pages.Nodup
  fifo_nodup : (s.cooling_fifo_queue.map Prod.snd).Nodup
  itr_nodup : (s.cooling_fifo_queue.map Prod.fst).Nodup
  itr_lt : ∀ n ∈ s.cooling_fifo_queue, n.1 < s.next_itr
  disjoint : ∀ f ∈ s.dram_free_bfs, f ∉ s.cooling_fifo_queue.map Prod.snd
  hot_out : ∀ f, (s.bfs f).header.state = .HOT →
    f ∉ s.dram_free_bfs ∧ f ∉ s.cooling_fifo_queue.map Prod.snd
  counter_lt : s.dram_free_bfs_counter < 2 ^ 64

end leanstore

namespace leanstore

/-! ## A run with two frames and two pages -/

/-- Flags of the run: two frames, two pages, the default cooling threshold and batch size. -/
def runFlags : Flags :=
  { dram_pages := 2, ssd_pages := 2, cooling_threshold := 90, async_batch_size := 10 }

/-- Flags of a buffer manager without frames and pages. -/
def emptyFlags : Flags :=
  { dram_pages := 0, ssd_pages := 0, cooling_threshold := 90, async_batch_size := 10 }

/-- A file of zero pages. -/
def zeroDisk : Nat → Page :=
  fun _ => { LSN := 0, dt_id := 0, dt := [] }

/-- The state after construction. -/
def run0 : BufferManager := BufferManager.init runFlags zeroDisk

/-- Then `allocatePage()` returns frame 0 with page 0 (the root of a data structure). -/
def run1 : BufferManager := (allocatePage run0).1

/-- Then `allocatePage()` returns frame 1 with page 1 (a child of the root). -/
def run2 : BufferManager := (allocatePage run1).1

/-- Then the page provider cools frame 1, which has no child; the swip of its parent becomes
`unswizzled 1`. -/
def run3 : BufferManager :=
  (providerStep runFlags run2
    { r_buffer := 1, to_cooling_stage := true, async_write_buffer := [] }
    { random := 0, guardsValid := true, children := [], parent := .swizzled 1,
      completed := none }).1

/-- Then the page provider drains the cooling FIFO. -/
def run4 : BufferManager :=
  (providerStep runFlags run3
    { r_buffer := 0, to_cooling_stage := false, async_write_buffer := [] }
    { random := 0, guardsValid := true, children := [], parent := .swizzled 0,
      completed := none }).1

/-- Then the page provider cools frame 0, whose only child swip is `unswizzled 1`; the root
swip becomes `unswizzled 0`. -/
def run5 : BufferManager :=
  (providerStep runFlags run4
    { r_buffer := 0, to_cooling_stage := true, async_write_buffer := [] }
    { random := 1, guardsValid := true, children := [.unswizzled 1], parent := .swizzled 0,
      completed := none }).1

/-- Then the page provider drains the cooling FIFO. -/
def run6 : BufferManager :=
  (providerStep runFlags run5
    { r_buffer := 1, to_cooling_stage := false, async_write_buffer := [] }
    { random := 0, guardsValid := true, children := [], parent := .swizzled 0,
      completed := none }).1

/-- Then a user thread resolves the root swip `unswizzled 0`: the page is read and the call
restarts. -/
def run7 : BufferManager := (resolveSwip run6 true (.unswizzled 0)).1

/-- A shorter run: the state after construction and one `allocatePage()`, which returns
frame 0 with page 0. -/
def short0 : BufferManager := run1

/-- After one `allocatePage()` the page provider cools frame 0; the root swip becomes
`unswizzled 0`. -/
def short1 : BufferManager :=
  (providerStep runFlags short0
    { r_buffer := 0, to_cooling_stage := true, async_write_buffer := [] }
    { random := 1, guardsValid := true, children := [], parent := .swizzled 0,
      completed := none }).1

/-- Then the page provider drains the cooling FIFO. -/
def short2 : BufferManager :=
  (providerStep runFlags short1
    { r_buffer := 1, to_cooling_stage := false, async_write_buffer := [] }
    { random := 0, guardsValid := true, children := [], parent := .swizzled 0,
      completed := none }).1

/-- Then a user thread resolves the root swip `unswizzled 0`. -/
def short3 : BufferManager := (resolveSwip short2 true (.unswizzled 0)).1

end leanstore

namespace leanstore

/-! ## The completion callback, and three more runs -/

/-- The write-completion callback handed to `submitIfNecessary` (the same lambda in the page
provider thread and in the checkpoint thread): the passes of its `while (true)` loop.
`lockTaken i` tells whether the guards of pass `i` are acquired. The body of the loop holds no
`return` and no `break`, so after every pass the loop goes on; the result is `none` when the
call has not returned within `fuel` passes. -/
def completionCallback (lockTaken : Nat → Bool) (written_bf written_lsn : Nat) :
    Nat → Nat → BufferManager → Option BufferManager
  | 0, _, _ => none
  | fuel + 1, pass, s =>
    completionCallback lockTaken written_bf written_lsn fuel (pass + 1)
      (completionPass s (lockTaken pass) written_bf written_lsn)

/-- The state after `n` passes of the loop of the completion callback. -/
def completionPasses (lockTaken : Nat → Bool) (written_bf written_lsn : Nat) :
    Nat → BufferManager → BufferManager
  | 0, s => s
  | n + 1, s =>
    completionPass (completionPasses lockTaken written_bf written_lsn n s) (lockTaken n)
      written_bf written_lsn

/-- A user thread that holds frame `bf` writes its page (new content, new LSN). -/
def userWrite (s : BufferManager) (bf : Nat) (page : Page) : BufferManager :=
  { s with bfs := setFrame s.bfs bf { header := (s.bfs bf).header, page := page } }

/-- Flags of the run with three frames and three pages. -/
def triFlags : Flags :=
  { dram_pages := 3, ssd_pages := 3, cooling_threshold := 90, async_batch_size := 10 }

/-- An iteration of the page provider in its cooling stage on frame `r`, with `r`'s child
swips and parent swip, all guards valid. -/
def coolStep (fl : Flags) (s : BufferManager) (r : Nat) (children : List Swip) :
    BufferManager :=
  (providerStep fl s { r_buffer := r, to_cooling_stage := true, async_write_buffer := [] }
    { random := 0, guardsValid := true, children := children, parent := .swizzled r,
      completed := none }).1

/-- An iteration of the page provider in its draining stage, with no write completed. -/
def drainStep (fl : Flags) (s : BufferManager) (wb : List WriteEntry) : BufferManager :=
  (providerStep fl s { r_buffer := 0, to_cooling_stage := false, async_write_buffer := wb }
    { random := 0, guardsValid := true, children := [], parent := .swizzled 0,
      completed := none }).1

/-- Three frames: `allocatePage()` three times (frame 0 / page 0 for a root, frames 1 and 2 /
pages 1 and 2 for its two children). -/
def tri3 : BufferManager :=
  (allocatePage (allocatePage (allocatePage (BufferManager.init triFlags zeroDisk)).1).1).1

/-- Then the page provider cools frame 1 and drains the FIFO, cools frame 2 and drains the
FIFO: the free queue is frame 1, frame 2. -/
def tri7 : BufferManager :=
  drainStep triFlags (coolStep triFlags (drainStep triFlags (coolStep triFlags tri3 1 []) []) 2 [])
    []

/-- Then a user thread resolves the swip of the second child, `unswizzled 2`: page 2 is read
into frame 1 and the call restarts. -/
def tri8 : BufferManager := (resolveSwip tri7 true (.unswizzled 2)).1

/-- Then, before the user thread retries, the page provider cools frame 0 (the root, whose
child swips are both unswizzled) and drains the FIFO. -/
def tri10 : BufferManager :=
  drainStep triFlags (coolStep triFlags tri8 0 [.unswizzled 1, .unswizzled 2]) []

/-- Flags of the run with four frames and two pages. -/
def quadFlags : Flags :=
  { dram_pages := 4, ssd_pages := 2, cooling_threshold := 90, async_batch_size := 10 }

/-- Four frames: `allocatePage()` twice (frame 0 / page 0 for a root, frame 1 / page 1 for its
child); the page provider cools frame 1 and drains the FIFO; a user thread resolves the swip
of the child, `unswizzled 1`: page 1 is read into frame 2, which was never allocated, and the
call restarts. -/
def quad5 : BufferManager :=
  (resolveSwip
    (drainStep quadFlags
      (coolStep quadFlags
        (allocatePage (allocatePage (BufferManager.init quadFlags zeroDisk)).1).1 1 []) [])
    true (.unswizzled 1)).1

/-- Then, before the user thread retries, the page provider cools frame 0 (the root). -/
def quad6 : BufferManager := coolStep quadFlags quad5 0 [.unswizzled 1]

/-- Flags of the run with a batch size of one. -/
def batchFlags : Flags :=
  { dram_pages := 2, ssd_pages := 2, cooling_threshold := 90, async_batch_size := 1 }

/-- Batch size one: `allocatePage()` twice (frame 0 / page 0 for a root, frame 1 / page 1 for
its child); the user writes the page of frame 1, whose LSN becomes 1; the page provider cools
frame 1. -/
def batch4 : BufferManager :=
  coolStep batchFlags
    (userWrite (allocatePage (allocatePage (BufferManager.init batchFlags zeroDisk)).1).1 1
      { LSN := 1, dt_id := 0, dt := [] })
    1 []

/-- Then the page provider drains the FIFO: frame 1 is dirty, it is handed to the write buffer
with LSN 1 and stays in the FIFO. -/
def batch5 : BufferManager := drainStep batchFlags batch4 []

/-- Then the page provider cools frame 0. The FIFO holds frame 1, then frame 0. -/
def batch6 : BufferManager := coolStep batchFlags batch5 0 [.unswizzled 1]

/-- Flags with `ssd_pages = 2^20`. -/
def wideFlags : Flags :=
  { dram_pages := 2, ssd_pages := 1048576, cooling_threshold := 90, async_batch_size := 10 }

end leanstore

namespace btree

/-! ## Sequences of live slots, stored keys, iteration counts -/

/-- The slots `a[0..n)` of an array, as a sequence. -/
def live {α : Type} (a : Nat → α) (n : Nat) : List α :=
  (List.range n).map a

/-- The key `q` is stored in the subtree: it is one of `keys[0..count)` of a node reached
through the children `children[0..count]`. -/
def Node.Stores {K V : Type} (q : K) : Node K V → Prop
  | .leaf count keys _ => ∃ i, i < count ∧ keys i = q
  | .inner count keys children =>
    (∃ i, i < count ∧ keys i = q) ∨ ∃ i, i ≤ count ∧ Node.Stores q (children i)

/-- The search invariant in the words of the specification: the keys `keys[0..count)` of every
node are strictly ascending, and every key stored in the subtree under `children[i]` of an
inner node is greater than `keys[i-1]` (if `i > 0`) and less than or equal to `keys[i]` (if
`i < count`). -/
def Node.Ordered {K V : Type} [LinearOrder K] : Node K V → Prop
  | .leaf count keys _ => Ascending count keys
  | .inner count keys children =>
    Ascending count keys ∧
    ∀ i, i ≤ count →
      Node.Ordered (children i) ∧
      ∀ q, Node.Stores q (children i) →
        (0 < i → keys (i - 1) < q) ∧ (i < count → q ≤ keys i)

/-- The tree after at most `n` passes of the `while (true)` loop of `BTree::insert(k, v)`:
a pass that ends in `return` is the last one, a pass that split a node (a leaf, an inner node
or the root, after `makeRoot`) or published a sibling is followed by the next. -/
def BTree.passes {K V : Type} [LinearOrder K] [Inhabited K] [Inhabited V] (cap : Capacity)
    (k : K) (v : V) : Nat → BTree K V → BTree K V
  | 0, t => t
  | n + 1, t =>
    match insertDescend cap k v t.root with
    | .done r => { t with root := r }
    | .split left sep right =>
      BTree.passes cap k v n
        { root := makeRoot sep left right,
          restarts_counter := (t.restarts_counter + 1) % 2 ^ 64 }
    | .restart r =>
      BTree.passes cap k v n
        { root := r, restarts_counter := (t.restarts_counter + 1) % 2 ^ 64 }
    | .fault => t
    | .unfinished => t

/-- The loop of `lowerBound` again, with the number of iterations it performed next to its
result. -/
def lowerBoundRun {K : Type} [LinearOrder K] (keys : Nat → K) (k : K) :
    Nat → Nat → Nat → Bound × Nat
  | 0, _, _ => (.unfinished, 0)
  | fuel + 1, lower, upper =>
    let mid := ((upper - lower) / 2) + lower
    if k < keys mid then
      if ¬ (mid ≤ upper) then (.invalid, 1)
      else if lower < mid then
        ((lowerBoundRun keys k fuel lower mid).1, (lowerBoundRun keys k fuel lower mid).2 + 1)
      else (.index lower, 1)
    else if keys mid < k then
      if ¬ (lower ≤ mid) then (.invalid, 1)
      else if mid + 1 < upper then
        ((lowerBoundRun keys k fuel (mid + 1) upper).1,
          (lowerBoundRun keys k fuel (mid + 1) upper).2 + 1)
      else (.index (mid + 1), 1)
    else (.index mid, 1)

/-- The tree after `insert(1, 10)`, ..., `insert(4, 40)` on `BTree()` with two entries per
leaf and three per inner node (the empty tree, should a call not return within four
passes). -/
def grown : BTree Nat Nat :=
  (insertAll { leafMax := 2, innerMax := 3 } 4 [(1, 10), (2, 20), (3, 30), (4, 40)]
    (BTree.new Nat Nat)).getD (BTree.new Nat Nat)

end btree

namespace leanstore

/-! ## The lock word -/

/-- Modelled from the spec: the exclusive-held bit of a versioned lock word, bit 0 of the
layout "bit 0 = exclusive-held, bits 1..N = shared-count, bits N+1..63 = version". -/
def lockExclusiveHeld (word : Nat) : Bool :=
  word % 2 = 1

/-- Modelled from the spec: the shared-count field of a versioned lock word, bits `1..N`. -/
def lockSharedCount (N word : Nat) : Nat :=
  (word / 2) % 2 ^ N

/-- Modelled from the spec: the version field of a versioned lock word, bits `N+1..63`. -/
def lockVersion (N word : Nat) : Nat :=
  (word % 2 ^ 64) / 2 ^ (N + 1)

/-! ## The child swips of a page

`resolveSwip` takes its swip by reference (`Swip<BufferFrame> &swip_value`), and the page
provider gets the child swips of a frame and the swip of its parent as references from the
callbacks of the registry. Such a reference designates a child swip inside the page of a
frame, or a swip outside the frames (the root pointer of a data structure). The functions
`resolveSwipAt` and `providerStepAt` are `resolveSwip` and `providerStep` with the assignments
through these references carried out.
-/

/-- Modelled from the spec: the `AsyncWriteBuffer`, declared outside these sources, writes the
page copy of an entry to the file, at the offset of a page identifier. -/
def fileWrite (s : BufferManager) (pid : Nat) (w : WriteEntry) : BufferManager :=
  { s with ssd := fun j => if j = pid then some w.page else s.ssd j }

end leanstore

namespace btree

/-! ## Slots read by the binary search, height, capacity, splits of a pass -/

/-- The indices `mid` at which the loop of `lowerBound` reads `keys[mid]`, in the order of the
iterations: the comparison `k < keys[mid]` comes before the range checks. -/
def lowerBoundReads {K : Type} [LinearOrder K] (keys : Nat → K) (k : K) :
    Nat → Nat → Nat → List Nat
  | 0, _, _ => []
  | fuel + 1, lower, upper =>
    let mid := ((upper - lower) / 2) + lower
    mid ::
      (if k < keys mid then
        if ¬ (mid ≤ upper) then []
        else if lower < mid then lowerBoundReads keys k fuel lower mid
        else []
      else if keys mid < k then
        if ¬ (lower ≤ mid) then []
        else if mid + 1 < upper then lowerBoundReads keys k fuel (mid + 1) upper
        else []
      else [])

/-- The number of inner nodes on the way from a node to its leftmost leaf. -/
def Node.height {K V : Type} : Node K V → Nat
  | .leaf _ _ _ => 0
  | .inner _ _ children => Node.height (children 0) + 1

/-- All leaves of the subtree are `h` levels below its top node. -/
def Node.Balanced {K V : Type} : Node K V → Nat → Prop
  | .leaf _ _ _, h => h = 0
  | .inner count _ children, h =>
    ∃ h1, h = h1 + 1 ∧ ∀ i, i ≤ count → Node.Balanced (children i) h1

/-- The number of passes of `BTree::insert(k, v)`, among the first `fuel`, that split the root
and call `makeRoot`. -/
def BTree.rootSplits {K V : Type} [LinearOrder K] [Inhabited K] [Inhabited V] (cap : Capacity) :
    Nat → BTree K V → K → V → Nat
  | 0, _, _, _ => 0
  | fuel + 1, t, k, v =>
    match insertDescend cap k v t.root with
    | .done _ => 0
    | .split left sep right =>
      BTree.rootSplits cap fuel
        { root := makeRoot sep left right,
          restarts_counter := (t.restarts_counter + 1) % 2 ^ 64 } k v + 1
    | .restart n =>
      BTree.rootSplits cap fuel
        { root := n, restarts_counter := (t.restarts_counter + 1) % 2 ^ 64 } k v
    | .fault => 0
    | .unfinished => 0

/-- The number of passes of `BTree::insert(k, v)`, among the first `fuel`, that end in the
`catch` block (`restarts_counter++`). -/
def BTree.restarts {K V : Type} [LinearOrder K] [Inhabited K] [Inhabited V] (cap : Capacity) :
    Nat → BTree K V → K → V → Nat
  | 0, _, _, _ => 0
  | fuel + 1, t, k, v =>
    match insertDescend cap k v t.root with
    | .done _ => 0
    | .split left sep right =>
      BTree.restarts cap fuel
        { root := makeRoot sep left right,
          restarts_counter := (t.restarts_counter + 1) % 2 ^ 64 } k v + 1
    | .restart n =>
      BTree.restarts cap fuel
        { root := n, restarts_counter := (t.restarts_counter + 1) % 2 ^ 64 } k v + 1
    | .fault => 0
    | .unfinished => 0

/-- The number of calls of `split` in one pass of the `try` block of `BTree::insert`, from the
node `c_node` downwards: the pass splits the first full node it meets and throws. -/
def insertSplits {K V : Type} [LinearOrder K] (cap : Capacity) (k : K) : Node K V → Nat
  | .leaf count _ _ => if count = cap.leafMax then 1 else 0
  | .inner count keys children =>
    if count + 1 = cap.innerMax then 1
    else
      match lowerBound count keys k with
      | .index pos => insertSplits cap k (children pos)
      | _ => 0

/-- Every leaf of the subtree has `count ≤ maxEntries` and every inner node has
`low ≤ count ≤ maxEntries - 1`. -/
def Node.Bounded {K V : Type} (cap : Capacity) (low : Nat) : Node K V → Prop
  | .leaf count _ _ => count ≤ cap.leafMax
  | .inner count _ children =>
    low ≤ count ∧ count + 1 ≤ cap.innerMax ∧ ∀ i, i ≤ count → Node.Bounded cap low (children i)

/-- No inner node of the subtree is full: every leaf has `count ≤ maxEntries` and every inner
node has `count ≤ maxEntries - 2`. -/
def Node.Roomy {K V : Type} (cap : Capacity) : Node K V → Prop
  | .leaf count _ _ => count ≤ cap.leafMax
  | .inner count _ children =>
    count + 2 ≤ cap.innerMax ∧ ∀ i, i ≤ count → Node.Roomy cap (children i)

/-- No inner node of the subtree is full, except possibly nodes on the path of `k`, which
hold at most `maxEntries - 1` keys. -/
def Node.Fits {K V : Type} [LinearOrder K] (cap : Capacity) (k : K) : Node K V → Prop
  | .leaf count _ _ => count ≤ cap.leafMax
  | .inner count keys children =>
    count + 1 ≤ cap.innerMax ∧
    ∀ i, i ≤ count →
      (lowerBound count keys k = .index i → Node.Fits cap k (children i)) ∧
      (lowerBound count keys k ≠ .index i → Node.Roomy cap (children i))

/-- Slots `a[pos .. pos + n)` read and `a[pos + 1 .. pos + 1 + n)` written by
`memmove(a + pos + 1, a + pos, n * sizeof(T))`. -/
def memmoveSlots (pos n : Nat) : List Nat :=
  (List.range n).map (fun j => pos + j) ++ (List.range n).map (fun j => pos + 1 + j)

/-- Slots `src[start .. start + n)` read and `dst[0 .. n)` written by
`memcpy(dst, src + start, n * sizeof(T))`. -/
def memcpySlots (start n : Nat) : List Nat :=
  (List.range n).map (fun j => start + j) ++ List.range n

/-- Indices at which `BTreeLeaf::insert(k, p)` reads or writes `keys` and `payloads`. -/
def BTreeLeaf.insertSlots {K : Type} [LinearOrder K] (count : Nat) (keys : Nat → K) (k : K) :
    List Nat :=
  if count ≠ 0 then
    lowerBoundReads keys k (count + 1) 0 count ++
      match lowerBound count keys k with
      | .index pos =>
        (if pos < count then [pos] else []) ++
          if pos < count ∧ keys pos = k then [pos]
          else memmoveSlots pos (count - pos) ++ [pos]
      | _ => []
  else [0]

/-- Indices at which `BTreeLeaf::split(sep)` reads `keys` and `payloads` and writes those of
the new leaf. -/
def BTreeLeaf.splitSlots (count : Nat) : List Nat :=
  let newCount := count - (count / 2)
  let count1 := count - newCount
  memcpySlots count1 newCount ++ [count1 - 1]

/-- Indices at which `BTreeInner::split(sep)` reads `keys` and `children` and writes those of
the new node. -/
def BTreeInner.splitSlots (count : Nat) : List Nat :=
  let newCount := count - (count / 2)
  let count1 := count - newCount - 1
  count1 :: memcpySlots (count1 + 1) (newCount + 1)

/-- Indices at which `BTreeInner::insert(k, child)` reads or writes `keys` and `children`. -/
def BTreeInner.insertSlots {K : Type} [LinearOrder K] (count : Nat) (keys : Nat → K) (k : K) :
    List Nat :=
  lowerBoundReads keys k (count + 1) 0 count ++
    match lowerBound count keys k with
    | .index pos => memmoveSlots pos (count - pos + 1) ++ [pos, pos + 1]
    | _ => []

/-- The array accesses of `BTreeLeaf::insert`, `BTreeLeaf::split`, `BTreeInner::insert`,
`BTreeInner::split` and `lowerBound` in one pass of the `try` block of `BTree::insert`, from
the node `c_node` downwards: each with the length `maxEntries` of the arrays of the node and
the index. -/
def insertDescendSlots {K V : Type} [LinearOrder K] [Inhabited K] [Inhabited V] (cap : Capacity)
    (k : K) (v : V) : Node K V → List (Nat × Nat)
  | .leaf count keys _ =>
    if count = cap.leafMax then (BTreeLeaf.splitSlots count).map (fun i => (cap.leafMax, i))
    else (BTreeLeaf.insertSlots count keys k).map (fun i => (cap.leafMax, i))
  | .inner count keys children =>
    if count + 1 = cap.innerMax then
      (BTreeInner.splitSlots count).map (fun i => (cap.innerMax, i))
    else
      (lowerBoundReads keys k (count + 1) 0 count).map (fun i => (cap.innerMax, i)) ++
        match lowerBound count keys k with
        | .index pos =>
          (cap.innerMax, pos) :: insertDescendSlots cap k v (children pos) ++
            match insertDescend cap k v (children pos) with
            | .split _ sep _ =>
              (BTreeInner.insertSlots count keys sep).map (fun i => (cap.innerMax, i))
            | _ => []
        | _ => []

/-- The tree after `insert(0, 0)`, ..., `insert(8, 8)` on `BTree()` with four entries per
leaf and four per inner node (the empty tree, should a call not return within three
passes). -/
def nine : BTree Nat Nat :=
  (insertAll { leafMax := 4, innerMax := 4 } 3
    [(0, 0), (1, 1), (2, 2), (3, 3), (4, 4), (5, 5), (6, 6), (7, 7), (8, 8)]
    (BTree.new Nat Nat)).getD (BTree.new Nat Nat)

/-- The tree after `insert(0, 0)`, ..., `insert(8, 8)` on `BTree()` with four entries per
leaf and five per inner node (the empty tree, should a call not return within three
passes). -/
def nineWide : BTree Nat Nat :=
  (insertAll { leafMax := 4, innerMax := 5 } 3
    [(0, 0), (1, 1), (2, 2), (3, 3), (4, 4), (5, 5), (6, 6), (7, 7), (8, 8)]
    (BTree.new Nat Nat)).getD (BTree.new Nat Nat)

/-- The `count` of the first child of a node, when both are inner nodes. -/
def firstChildCount {K V : Type} : Node K V → Option Nat
  | .inner _ _ children =>
    match children 0 with
    | .inner count _ _ => some count
    | .leaf _ _ _ => none
  | .leaf _ _ _ => none

end btree

namespace btree

/-! ## The binary search -/

theorem lowerBoundLoop_spec {K : Type} [LinearOrder K] (keys : Nat → K) (k : K) (count : Nat)
    (hasc : Ascending count keys) :
    ∀ fuel lower upper, lower < upper → upper ≤ count → upper - lower < fuel →
      (∀ j, j < lower → keys j < k) → (∀ j, upper ≤ j → j < count → k < keys j) →
      ∃ i, lowerBoundLoop keys k fuel lower upper = .index i ∧ i ≤ count ∧
        (∀ j, j < i → keys j < k) ∧ (i < count → k ≤ keys i) := by
  intro fuel
  induction fuel with
  | zero => intro lower upper _ _ h; omega
  | succ fuel ih =>
    intro lower upper hlu huc hfuel hlow hup
    have hmid1 : lower ≤ (upper - lower) / 2 + lower := by omega
    have hmid2 : (upper - lower) / 2 + lower < upper := by omega
    unfold lowerBoundLoop
    simp only
    by_cases h1 : k < keys ((upper - lower) / 2 + lower)
    · rw [if_pos h1, if_neg (by omega)]
      by_cases h2 : lower < (upper - lower) / 2 + lower
      · rw [if_pos h2]
        apply ih _ _ h2 (by omega) (by omega) hlow
        intro j hj hjc
        rcases Nat.eq_or_lt_of_le hj with he | hlt
        · rw [← he]; exact h1
        · exact lt_trans h1 (hasc _ _ hlt hjc)
      · rw [if_neg h2]
        have he : (upper - lower) / 2 + lower = lower := by omega
        rw [he] at h1
        exact ⟨lower, rfl, by omega, hlow, fun _ => le_of_lt h1⟩
    · rw [if_neg h1]
      by_cases h3 : keys ((upper - lower) / 2 + lower) < k
      · rw [if_pos h3, if_neg (by omega)]
        have hbelow : ∀ j, j < (upper - lower) / 2 + lower + 1 → keys j < k := by
          intro j hj
          rcases Nat.eq_or_lt_of_le (Nat.le_of_lt_succ hj) with he | hlt
          · rw [he]; exact h3
          · exact lt_trans (hasc _ _ hlt (by omega)) h3
        by_cases h4 : (upper - lower) / 2 + lower + 1 < upper
        · rw [if_pos h4]
          exact ih _ _ h4 huc (by omega) hbelow hup
        · rw [if_neg h4]
          refine ⟨_, rfl, by omega, hbelow, ?_⟩
          intro hc
          exact le_of_lt (hup _ (by omega) hc)
      · rw [if_neg h3]
        refine ⟨_, rfl, by omega, ?_, ?_⟩
        · intro j hj
          have := hasc _ _ hj (by omega)
          have he : keys ((upper - lower) / 2 + lower) = k :=
            le_antisymm (not_lt.1 h1) (not_lt.1 h3)
          rw [← he]; exact this
        · intro _
          exact not_lt.1 h3

/-- On a node with strictly ascending keys and `count ≥ 1`, `lowerBound(k)` returns the least
index `i ≤ count` with `i = count` or `k ≤ keys[i]`. -/
theorem lowerBound_spec {K : Type} [LinearOrder K] (count : Nat) (keys : Nat → K) (k : K)
    (hasc : Ascending count keys) (hc : 0 < count) :
    ∃ i, lowerBound count keys k = .index i ∧ i ≤ count ∧
      (∀ j, j < i → keys j < k) ∧ (i < count → k ≤ keys i) := by
  unfold lowerBound
  exact lowerBoundLoop_spec keys k count hasc _ 0 count hc (le_refl _) (by omega)
    (fun j hj => absurd hj (Nat.not_lt_zero _)) (fun j h1 h2 => absurd h2 (by omega))

theorem lowerBound_unique {K : Type} [LinearOrder K] (count : Nat) (keys : Nat → K) (k : K)
    (hasc : Ascending count keys) (hc : 0 < count) (i : Nat) (hi : i ≤ count)
    (hlow : ∀ j, j < i → keys j < k) (hup : i < count → k ≤ keys i) :
    lowerBound count keys k = .index i := by
  obtain ⟨i1, h1, h2, h3, h4⟩ := lowerBound_spec count keys k hasc hc
  rw [h1]
  congr 1
  rcases Nat.lt_trichotomy i1 i with hlt | heq | hgt
  · have := hlow i1 hlt
    have := h4 (by omega)
    exact absurd (lt_of_lt_of_le ‹keys i1 < k› this) (lt_irrefl _)
  · exact heq
  · have := h3 i hgt
    have := hup (by omega)
    exact absurd (lt_of_lt_of_le ‹keys i < k› this) (lt_irrefl _)

/-- On a node with `count = 0` the search reads `keys[0]` once. -/
theorem lowerBound_zero {K : Type} [LinearOrder K] (keys : Nat → K) (k : K) :
    lowerBound 0 keys k = if keys 0 < k then .index 1 else .index 0 := by
  unfold lowerBound lowerBoundLoop
  simp only [Nat.sub_self, Nat.zero_div, Nat.add_zero]
  by_cases h1 : k < keys 0
  · simp [h1, not_lt_of_lt h1]
  · by_cases h2 : keys 0 < k
    · simp [h1, h2]
    · simp [h1, h2]

/-- The iteration budget of `lowerBound` is never exhausted. -/
theorem lowerBoundLoop_finishes {K : Type} [LinearOrder K] (keys : Nat → K) (k : K) :
    ∀ fuel lower upper, upper - lower < fuel →
      lowerBoundLoop keys k fuel lower upper ≠ .unfinished := by
  intro fuel
  induction fuel with
  | zero => intro lower upper h; omega
  | succ fuel ih =>
    intro lower upper hfuel
    unfold lowerBoundLoop
    simp only
    split_ifs <;> first | exact ih _ _ (by omega) | simp

theorem lowerBound_finishes {K : Type} [LinearOrder K] (count : Nat) (keys : Nat → K) (k : K) :
    lowerBound count keys k ≠ .unfinished :=
  lowerBoundLoop_finishes keys k _ _ _ (by omega)

end btree

namespace btree

/-! ## Leaves -/

theorem insertAt_apply {α : Type} (a : Nat → α) (pos n : Nat) (x : α) (j : Nat) :
    store (memmoveUp a pos n) pos x j =
      if j = pos then x else if pos + 1 ≤ j ∧ j < pos + 1 + n then a (j - 1) else a j := rfl

theorem insertAt_lt {α : Type} (a : Nat → α) (pos n : Nat) (x : α) (j : Nat) (h : j < pos) :
    store (memmoveUp a pos n) pos x j = a j := by
  rw [insertAt_apply, if_neg (by omega), if_neg (by omega)]

theorem insertAt_eq {α : Type} (a : Nat → α) (pos n : Nat) (x : α) :
    store (memmoveUp a pos n) pos x pos = x := by
  rw [insertAt_apply, if_pos rfl]

theorem insertAt_gt {α : Type} (a : Nat → α) (pos n : Nat) (x : α) (j : Nat) (h1 : pos < j)
    (h2 : j ≤ pos + n) : store (memmoveUp a pos n) pos x j = a (j - 1) := by
  rw [insertAt_apply, if_neg (by omega), if_pos (by omega)]

/-- Keys stay strictly ascending when `k` is put at its place `pos`. -/
theorem ascending_insertAt {K : Type} [LinearOrder K] (count : Nat) (keys : Nat → K) (k : K)
    (pos n : Nat) (hasc : Ascending count keys) (hpos : pos ≤ count) (hn : count ≤ pos + n)
    (hlow : ∀ j, j < pos → keys j < k) (hup : pos < count → k < keys pos) :
    Ascending (count + 1) (store (memmoveUp keys pos n) pos k) := by
  intro i j hij hj
  rcases Nat.lt_trichotomy j pos with hjp | hjp | hjp
  · rw [insertAt_lt _ _ _ _ _ hjp, insertAt_lt _ _ _ _ _ (by omega)]
    exact hasc _ _ hij (by omega)
  · subst hjp
    rw [insertAt_eq, insertAt_lt _ _ _ _ _ hij]
    exact hlow _ hij
  · rw [insertAt_gt _ _ _ _ _ hjp (by omega)]
    rcases Nat.lt_trichotomy i pos with hip | hip | hip
    · rw [insertAt_lt _ _ _ _ _ hip]
      rcases Nat.eq_or_lt_of_le (show pos ≤ j - 1 by omega) with he | hlt
      · rw [← he]
        exact lt_trans (hlow _ hip) (hup (by omega))
      · exact hasc _ _ (by omega) (by omega)
    · subst hip
      rw [insertAt_eq]
      rcases Nat.eq_or_lt_of_le (show i ≤ j - 1 by omega) with he | hlt
      · rw [← he]
        exact hup (by omega)
      · exact lt_trans (hup (by omega)) (hasc _ _ hlt (by omega))
    · rw [insertAt_gt _ _ _ _ _ hip (by omega)]
      exact hasc _ _ (by omega) (by omega)

/-- A key stored in a leaf with ascending keys is found, with its payload. -/
theorem lookup_leaf_found {K V : Type} [LinearOrder K] (count : Nat) (keys : Nat → K)
    (payloads : Nat → V) (hasc : Ascending count keys) (i : Nat) (hi : i < count) :
    lookupDescend (keys i) (.leaf count keys payloads) = .found (payloads i) := by
  have h := lowerBound_unique count keys (keys i) hasc (by omega) i (by omega)
    (fun j hj => hasc _ _ hj hi) (fun _ => le_refl _)
  simp [lookupDescend, h, hi]

/-- A key stored nowhere in a leaf is not found. -/
theorem lookup_leaf_notFound {K V : Type} [LinearOrder K] (count : Nat) (keys : Nat → K)
    (payloads : Nat → V) (hasc : Ascending count keys) (q : K)
    (hq : ∀ i, i < count → keys i ≠ q) :
    lookupDescend q (.leaf count keys payloads) = .notFound := by
  rcases Nat.eq_zero_or_pos count with hc | hc
  · subst hc
    simp only [lookupDescend, lowerBound_zero]
    split_ifs <;> simp
  · obtain ⟨i, h1, _, _, _⟩ := lowerBound_spec count keys q hasc hc
    simp only [lookupDescend, h1]
    rw [if_neg]
    rintro ⟨h5, h6⟩
    exact hq i h5 h6

/-- The lookup in a leaf with ascending keys is decided by the stored keys. -/
theorem lookup_leaf_cases {K V : Type} [LinearOrder K] (count : Nat) (keys : Nat → K)
    (payloads : Nat → V) (hasc : Ascending count keys) (q : K) :
    (∃ i, i < count ∧ keys i = q ∧
        lookupDescend q (.leaf count keys payloads) = .found (payloads i)) ∨
      ((∀ i, i < count → keys i ≠ q) ∧
        lookupDescend q (.leaf count keys payloads) = .notFound) := by
  by_cases h : ∃ i, i < count ∧ keys i = q
  · obtain ⟨i, hi, he⟩ := h
    left
    refine ⟨i, hi, he, ?_⟩
    rw [← he]
    exact lookup_leaf_found count keys payloads hasc i hi
  · right
    have h1 : ∀ i, i < count → keys i ≠ q := fun i hi he => h ⟨i, hi, he⟩
    exact ⟨h1, lookup_leaf_notFound count keys payloads hasc q h1⟩

theorem ascending_injective {K : Type} [LinearOrder K] {count : Nat} {keys : Nat → K}
    (hasc : Ascending count keys) {i j : Nat} (hi : i < count) (hj : j < count)
    (h : keys i = keys j) : i = j := by
  rcases Nat.lt_trichotomy i j with hlt | heq | hgt
  · exact absurd h (ne_of_lt (hasc _ _ hlt hj))
  · exact heq
  · exact absurd h.symm (ne_of_lt (hasc _ _ hgt hi))

/-- The leaf after `BTreeLeaf::insert(k, v)`: it satisfies the search invariant, maps `k` to
`v` and every other key as before; `count` is unchanged when `k` was stored, and one more
otherwise. -/
theorem leaf_insert_spec {K V : Type} [LinearOrder K] (lo : WithBot K) (hi : WithTop K)
    (count : Nat) (keys : Nat → K) (payloads : Nat → V) (k : K) (v : V)
    (hs : Node.Search lo hi (.leaf count keys payloads))
    (hlo : lo < (k : WithBot K)) (hhi : (k : WithTop K) ≤ hi) :
    ∃ count1 keys1 payloads1,
      BTreeLeaf.insert count keys payloads k v = some (.leaf count1 keys1 payloads1) ∧
      Node.Search lo hi (.leaf count1 keys1 payloads1 : Node K V) ∧
      (∀ q, lookupDescend q (.leaf count1 keys1 payloads1) =
        if q = k then .found v else lookupDescend q (.leaf count keys payloads)) ∧
      ((∃ i, i < count ∧ keys i = k) → count1 = count) ∧
      ((∀ i, i < count → keys i ≠ k) → count1 = count + 1) := by
  obtain ⟨hasc, hb⟩ := hs
  rcases Nat.eq_zero_or_pos count with hc | hc
  · -- the empty leaf
    subst hc
    have hasc1 : Ascending 1 (store keys 0 k) := fun i j hij hj => by omega
    refine ⟨1, store keys 0 k, store payloads 0 v, by simp [BTreeLeaf.insert], ⟨hasc1, ?_⟩, ?_,
      ?_, fun _ => rfl⟩
    · intro i hi1
      have : i = 0 := by omega
      subst this
      simp only [store, if_pos]
      exact ⟨hlo, hhi⟩
    · intro q
      have hold := lookup_leaf_notFound 0 keys payloads hasc q (fun i hi1 => by omega)
      rcases lookup_leaf_cases 1 (store keys 0 k) (store payloads 0 v) hasc1 q with
        ⟨i, hi1, he, hf⟩ | ⟨hne, hf⟩
      · have : i = 0 := by omega
        subst this
        simp only [store, if_pos] at he hf
        rw [hf, if_pos he.symm]
      · have h0 := hne 0 (by omega)
        simp only [store, if_pos] at h0
        rw [hf, if_neg (fun h => h0 h.symm), hold]
    · rintro ⟨i, hi1, _⟩
      omega
  · obtain ⟨pos, h1, h2, h3, h4⟩ := lowerBound_spec count keys k hasc hc
    by_cases hhit : pos < count ∧ keys pos = k
    · -- overwrite payload
      refine ⟨count, keys, store payloads pos v, ?_, ⟨hasc, hb⟩, ?_, fun _ => rfl, ?_⟩
      · simp [BTreeLeaf.insert, h1, Nat.ne_of_gt hc, hhit]
      · intro q
        rcases lookup_leaf_cases count keys payloads hasc q with ⟨i, hi1, he, hf⟩ | ⟨hne, hf⟩
        · have hnew := lookup_leaf_found count keys (store payloads pos v) hasc i hi1
          rw [he] at hnew
          rw [hnew, hf]
          by_cases hqk : q = k
          · rw [if_pos hqk]
            have : i = pos := ascending_injective hasc hi1 hhit.1 (by rw [he, hhit.2, hqk])
            subst this
            simp [store]
          · rw [if_neg hqk]
            have : i ≠ pos := by
              intro hip
              subst hip
              exact hqk (he.symm.trans hhit.2)
            simp [store, this]
        · rw [lookup_leaf_notFound count keys (store payloads pos v) hasc q hne, hf,
            if_neg (fun hqk => hne pos hhit.1 (hhit.2.trans hqk.symm))]
      · intro hne
        exact absurd hhit.2 (hne pos hhit.1)
    · -- shift and insert
      have hup : pos < count → k < keys pos := by
        intro hp
        rcases lt_or_eq_of_le (h4 hp) with hlt | heq
        · exact hlt
        · exact absurd ⟨hp, heq.symm⟩ hhit
      have hasc1 := ascending_insertAt count keys k pos (count - pos) hasc h2 (by omega) h3 hup
      refine ⟨count + 1, store (memmoveUp keys pos (count - pos)) pos k,
        store (memmoveUp payloads pos (count - pos)) pos v, ?_, ⟨hasc1, ?_⟩, ?_, ?_, fun _ => rfl⟩
      · simp [BTreeLeaf.insert, h1, Nat.ne_of_gt hc, hhit]
      · intro i hi1
        rcases Nat.lt_trichotomy i pos with hip | hip | hip
        · rw [insertAt_lt _ _ _ _ _ hip]
          exact hb i (by omega)
        · subst hip
          rw [insertAt_eq]
          exact ⟨hlo, hhi⟩
        · rw [insertAt_gt _ _ _ _ _ hip (by omega)]
          exact hb (i - 1) (by omega)
      · intro q
        by_cases hqk : q = k
        · subst hqk
          rw [if_pos rfl]
          have := lookup_leaf_found (count + 1) _
            (store (memmoveUp payloads pos (count - pos)) pos v) hasc1 pos (by omega)
          rw [insertAt_eq, insertAt_eq] at this
          exact this
        · rw [if_neg hqk]
          rcases lookup_leaf_cases count keys payloads hasc q with ⟨i, hi1, he, hf⟩ | ⟨hne, hf⟩
          · rw [hf]
            by_cases hip : i < pos
            · have := lookup_leaf_found (count + 1) _
                (store (memmoveUp payloads pos (count - pos)) pos v) hasc1 i (by omega)
              rw [insertAt_lt _ _ _ _ _ hip, insertAt_lt _ _ _ _ _ hip, he] at this
              exact this
            · have := lookup_leaf_found (count + 1) _
                (store (memmoveUp payloads pos (count - pos)) pos v) hasc1 (i + 1) (by omega)
              rw [insertAt_gt _ _ _ _ _ (by omega) (by omega),
                insertAt_gt _ _ _ _ _ (by omega) (by omega), Nat.add_sub_cancel, he] at this
              exact this
          · rw [hf]
            apply lookup_leaf_notFound _ _ _ hasc1
            intro i hi1
            rcases Nat.lt_trichotomy i pos with hip | hip | hip
            · rw [insertAt_lt _ _ _ _ _ hip]
              exact hne i (by omega)
            · subst hip
              rw [insertAt_eq]
              exact fun h => hqk h.symm
            · rw [insertAt_gt _ _ _ _ _ hip (by omega)]
              exact hne (i - 1) (by omega)
      · rintro ⟨i, hi1, he⟩
        exfalso
        rcases Nat.lt_trichotomy i pos with hip | hip | hip
        · exact absurd he (ne_of_lt (h3 i hip))
        · subst hip
          exact hhit ⟨hi1, he⟩
        · have h5 := hup (by omega)
          have h6 := hasc _ _ hip hi1
          rw [he] at h6
          exact absurd (lt_trans h5 h6) (lt_irrefl _)

/-- The two leaves after `BTreeLeaf::split(sep)` of a leaf with at least two entries: the
lower `count / 2` entries stay, the others are in the new leaf, `sep` is the last key that
stays; both leaves satisfy the search invariant for their side of `sep` and map the keys of
their side as the leaf did. -/
theorem leaf_split_spec {K V : Type} [LinearOrder K] [Inhabited K] [Inhabited V]
    (lo : WithBot K) (hi : WithTop K) (count : Nat) (keys : Nat → K) (payloads : Nat → V)
    (hs : Node.Search lo hi (.leaf count keys payloads)) (hc : 2 ≤ count) :
    ∃ keys1 payloads1,
      BTreeLeaf.split count keys payloads =
        some (.leaf (count / 2) keys payloads, keys (count / 2 - 1),
          .leaf (count - count / 2) keys1 payloads1) ∧
      Node.Search lo (keys (count / 2 - 1) : WithTop K) (.leaf (count / 2) keys payloads) ∧
      Node.Search (keys (count / 2 - 1) : WithBot K) hi
        (.leaf (count - count / 2) keys1 payloads1 : Node K V) ∧
      lo < (keys (count / 2 - 1) : WithBot K) ∧ (keys (count / 2 - 1) : WithTop K) < hi ∧
      (∀ q, q ≤ keys (count / 2 - 1) →
        lookupDescend q (.leaf (count / 2) keys payloads) =
          lookupDescend q (.leaf count keys payloads)) ∧
      (∀ q, keys (count / 2 - 1) < q →
        lookupDescend q (.leaf (count - count / 2) keys1 payloads1) =
          lookupDescend q (.leaf count keys payloads)) := by
  obtain ⟨hasc, hb⟩ := hs
  have hc1 : count - (count - count / 2) = count / 2 := by omega
  have hascL : Ascending (count / 2) keys := fun i j hij hj => hasc i j hij (by omega)
  have hascR : Ascending (count - count / 2)
      (memcpyFrom default keys (count / 2) (count - count / 2)) := by
    intro i j hij hj
    simp only [memcpyFrom, if_pos hj, if_pos (show i < count - count / 2 by omega)]
    exact hasc _ _ (by omega) (by omega)
  refine ⟨memcpyFrom default keys (count / 2) (count - count / 2),
    memcpyFrom default payloads (count / 2) (count - count / 2), ?_, ⟨hascL, ?_⟩, ⟨hascR, ?_⟩,
    (hb _ (by omega)).1, ?_, ?_, ?_⟩
  · simp only [BTreeLeaf.split, hc1]
    rw [if_neg (by omega)]
  · intro i hi1
    refine ⟨(hb i (by omega)).1, ?_⟩
    rw [WithTop.coe_le_coe]
    rcases Nat.eq_or_lt_of_le (show i ≤ count / 2 - 1 by omega) with he | hlt
    · rw [he]
    · exact le_of_lt (hasc _ _ hlt (by omega))
  · intro i hi1
    simp only [memcpyFrom, if_pos hi1]
    refine ⟨?_, (hb _ (by omega)).2⟩
    rw [WithBot.coe_lt_coe]
    exact hasc _ _ (by omega) (by omega)
  · exact lt_of_lt_of_le (WithTop.coe_lt_coe.2 (hasc (count / 2 - 1) (count - 1) (by omega)
      (by omega))) (hb _ (by omega)).2
  · intro q hq
    rcases lookup_leaf_cases count keys payloads hasc q with ⟨i, hi1, he, hf⟩ | ⟨hne, hf⟩
    · rw [hf]
      have hil : i < count / 2 := by
        by_contra hcon
        have := hasc (count / 2 - 1) i (by omega) hi1
        rw [he] at this
        exact absurd (lt_of_lt_of_le this hq) (lt_irrefl _)
      have := lookup_leaf_found (count / 2) keys payloads hascL i hil
      rw [he] at this
      exact this
    · rw [hf]
      exact lookup_leaf_notFound _ _ _ hascL q (fun i hi1 => hne i (by omega))
  · intro q hq
    rcases lookup_leaf_cases count keys payloads hasc q with ⟨i, hi1, he, hf⟩ | ⟨hne, hf⟩
    · rw [hf]
      have hil : count / 2 ≤ i := by
        by_contra hcon
        have h5 : keys i ≤ keys (count / 2 - 1) := by
          rcases Nat.eq_or_lt_of_le (show i ≤ count / 2 - 1 by omega) with he1 | hlt
          · rw [he1]
          · exact le_of_lt (hasc _ _ hlt (by omega))
        rw [he] at h5
        exact absurd (lt_of_lt_of_le hq h5) (lt_irrefl _)
      have := lookup_leaf_found (count - count / 2) _
        (memcpyFrom default payloads (count / 2) (count - count / 2)) hascR (i - count / 2)
        (by omega)
      simp only [memcpyFrom, if_pos (show i - count / 2 < count - count / 2 by omega)] at this
      rw [show count / 2 + (i - count / 2) = i by omega, he] at this
      exact this
    · rw [hf]
      apply lookup_leaf_notFound _ _ _ hascR
      intro i hi1
      simp only [memcpyFrom, if_pos hi1]
      exact hne _ (by omega)

end btree

namespace btree

/-! ## Inner nodes -/

/-- The child an inner node sends a key of its range to, and the range of that child. -/
theorem route_spec {K V : Type} [LinearOrder K] (lo : WithBot K) (hi : WithTop K) (count : Nat)
    (keys : Nat → K) (children : Nat → Node K V)
    (hs : Node.Search lo hi (.inner count keys children)) (q : K)
    (hq1 : lo < (q : WithBot K)) (hq2 : (q : WithTop K) ≤ hi) :
    ∃ i, lowerBound count keys q = .index i ∧ i ≤ count ∧
      (if i = 0 then lo else (keys (i - 1) : WithBot K)) < (q : WithBot K) ∧
      (q : WithTop K) ≤ (if i = count then hi else (keys i : WithTop K)) ∧
      (∀ j, j < i → keys j < q) ∧ (i < count → q ≤ keys i) := by
  obtain ⟨hasc, hb, hstale, hch⟩ := hs
  rcases Nat.eq_zero_or_pos count with hc | hc
  · subst hc
    have h0 := le_trans hq2 (hstale rfl)
    rw [WithTop.coe_le_coe] at h0
    refine ⟨0, ?_, le_refl _, ?_, ?_, fun j hj => absurd hj (Nat.not_lt_zero _),
      fun h => absurd h (Nat.lt_irrefl _)⟩
    · rw [lowerBound_zero, if_neg (not_lt.2 h0)]
    · rw [if_pos rfl]; exact hq1
    · rw [if_pos rfl]; exact hq2
  · obtain ⟨i, h1, h2, h3, h4⟩ := lowerBound_spec count keys q hasc hc
    refine ⟨i, h1, h2, ?_, ?_, h3, h4⟩
    · by_cases hi0 : i = 0
      · rw [if_pos hi0]; exact hq1
      · rw [if_neg hi0, WithBot.coe_lt_coe]
        exact h3 _ (by omega)
    · by_cases hic : i = count
      · rw [if_pos hic]; exact hq2
      · rw [if_neg hic, WithTop.coe_le_coe]
        exact h4 (by omega)

/-- The children of an inner node after `BTreeInner::insert(sep, right)`, when slot `pos`
held `left`. -/
theorem publish_children {α : Type} (children : Nat → α) (pos n : Nat) (left right : α)
    (j : Nat) (hj : j ≤ pos + n) (hn : 1 ≤ n) :
    store (store (store (memmoveUp (store children pos left) pos n) pos right) pos
        (store (memmoveUp (store children pos left) pos n) pos right (pos + 1))) (pos + 1)
        (store (memmoveUp (store children pos left) pos n) pos right pos) j =
      if j < pos then children j else if j = pos then left else if j = pos + 1 then right
      else children (j - 1) := by
  simp only [store, memmoveUp]
  split_ifs <;> first | rfl | (exfalso; omega)

/-- The parent after `BTreeInner::insert(sep, right)` publishes the split of its child `pos`
into `left` and `right`: `sep` is put at slot `pos`, `left` stays at slot `pos` and `right`
follows it; the parent satisfies the search invariant and sends every key of its range to the
child it went to before, or to the half of that child on its side of `sep`. -/
theorem publish_spec {K V : Type} [LinearOrder K] (lo : WithBot K) (hi : WithTop K)
    (count : Nat) (keys : Nat → K) (children : Nat → Node K V)
    (hs : Node.Search lo hi (.inner count keys children)) (pos : Nat) (hpos : pos ≤ count)
    (left right : Node K V) (sep : K)
    (hl : Node.Search (if pos = 0 then lo else (keys (pos - 1) : WithBot K)) (sep : WithTop K) left)
    (hr : Node.Search (sep : WithBot K) (if pos = count then hi else (keys pos : WithTop K)) right)
    (hsep1 : (if pos = 0 then lo else (keys (pos - 1) : WithBot K)) < (sep : WithBot K))
    (hsep2 : (sep : WithTop K) < (if pos = count then hi else (keys pos : WithTop K))) :
    ∃ keys1 children1,
      BTreeInner.insert count keys (store children pos left) sep right
        = some (.inner (count + 1) keys1 children1) ∧
      Node.Search lo hi (.inner (count + 1) keys1 children1) ∧
      (∀ q : K, lo < (q : WithBot K) → (q : WithTop K) ≤ hi →
        ∃ i i1, lowerBound count keys q = .index i ∧
          lowerBound (count + 1) keys1 q = .index i1 ∧
          children1 i1 = if i = pos then (if q ≤ sep then left else right) else children i) ∧
      ∀ j, j ≤ count + 1 →
        children1 j = if j < pos then children j else if j = pos then left
          else if j = pos + 1 then right else children (j - 1) := by
  have hs0 := hs
  obtain ⟨hasc, hb, hstale, hch⟩ := hs
  -- the place of `sep` is `pos`
  have hlow : ∀ j, j < pos → keys j < sep := by
    intro j hj
    rw [if_neg (by omega), WithBot.coe_lt_coe] at hsep1
    rcases Nat.eq_or_lt_of_le (show j ≤ pos - 1 by omega) with he | hlt
    · rw [he]; exact hsep1
    · exact lt_trans (hasc _ _ hlt (by omega)) hsep1
  have hup : pos < count → sep < keys pos := by
    intro hp
    rw [if_neg (by omega), WithTop.coe_lt_coe] at hsep2
    exact hsep2
  have hlb : lowerBound count keys sep = .index pos := by
    rcases Nat.eq_zero_or_pos count with hc | hc
    · subst hc
      have hp0 : pos = 0 := by omega
      subst hp0
      rw [if_pos rfl] at hsep2
      have := lt_of_lt_of_le hsep2 (hstale rfl)
      rw [WithTop.coe_lt_coe] at this
      rw [lowerBound_zero, if_neg (not_lt_of_lt this)]
    · exact lowerBound_unique count keys sep hasc hc pos hpos hlow (fun hp => le_of_lt (hup hp))
  have hlosep : lo < (sep : WithBot K) := by
    by_cases hp0 : pos = 0
    · rw [if_pos hp0] at hsep1; exact hsep1
    · exact lt_trans (hb (pos - 1) (by omega)).1 (by rw [if_neg hp0] at hsep1; exact hsep1)
  have hsephi : (sep : WithTop K) < hi := by
    by_cases hpc : pos = count
    · rw [if_pos hpc] at hsep2; exact hsep2
    · exact lt_trans (by rw [if_neg hpc] at hsep2; exact hsep2) (hb pos (by omega)).2
  have hasc1 := ascending_insertAt count keys sep pos (count - pos + 1) hasc hpos (by omega)
    hlow hup
  have hchild := fun j (hj : j ≤ count + 1) =>
    publish_children children pos (count - pos + 1) left right j (by omega) (by omega)
  refine ⟨store (memmoveUp keys pos (count - pos + 1)) pos sep,
    store (store (store (memmoveUp (store children pos left) pos (count - pos + 1)) pos right) pos
        (store (memmoveUp (store children pos left) pos (count - pos + 1)) pos right (pos + 1)))
      (pos + 1) (store (memmoveUp (store children pos left) pos (count - pos + 1)) pos right pos),
    ?_, ⟨hasc1, ?_, ?_, ?_⟩, ?_, hchild⟩
  · simp only [BTreeInner.insert, hlb]
  · intro i hi1
    rcases Nat.lt_trichotomy i pos with hip | hip | hip
    · rw [insertAt_lt _ _ _ _ _ hip]
      exact hb i (by omega)
    · subst hip
      rw [insertAt_eq]
      exact ⟨hlosep, hsephi⟩
    · rw [insertAt_gt _ _ _ _ _ hip (by omega)]
      exact hb (i - 1) (by omega)
  · intro h
    omega
  · intro i hi1
    rw [hchild i hi1]
    by_cases h1 : i < pos
    · rw [if_pos h1]
      have := hch i (by omega)
      rw [if_neg (show i ≠ count by omega)] at this
      rw [if_neg (show i ≠ count + 1 by omega), insertAt_lt _ _ _ _ _ h1]
      by_cases hi0 : i = 0
      · rw [if_pos hi0] at this ⊢; exact this
      · rw [if_neg hi0] at this ⊢
        rw [insertAt_lt _ _ _ _ _ (by omega)]
        exact this
    · rw [if_neg h1]
      by_cases h2 : i = pos
      · subst h2
        rw [if_pos rfl, if_neg (show i ≠ count + 1 by omega), insertAt_eq]
        by_cases hi0 : i = 0
        · rw [if_pos hi0] at hl ⊢; exact hl
        · rw [if_neg hi0] at hl ⊢
          rw [insertAt_lt _ _ _ _ _ (by omega)]
          exact hl
      · rw [if_neg h2]
        by_cases h3 : i = pos + 1
        · subst h3
          rw [if_pos rfl, if_neg (by omega), Nat.add_sub_cancel, insertAt_eq]
          by_cases hpc : pos = count
          · rw [if_pos hpc] at hr
            rw [if_pos (by omega)]
            exact hr
          · rw [if_neg hpc] at hr
            rw [if_neg (by omega), insertAt_gt _ _ _ _ _ (by omega) (by omega), Nat.add_sub_cancel]
            exact hr
        · rw [if_neg h3]
          have := hch (i - 1) (by omega)
          rw [if_neg (show i - 1 ≠ 0 by omega)] at this
          rw [if_neg (show i ≠ 0 by omega), insertAt_gt _ _ _ _ _ (by omega) (by omega)]
          by_cases hic : i = count + 1
          · rw [if_pos (show i - 1 = count by omega)] at this
            rw [if_pos hic]
            exact this
          · rw [if_neg (show i - 1 ≠ count by omega)] at this
            rw [if_neg hic, insertAt_gt _ _ _ _ _ (by omega) (by omega)]
            exact this
  · intro q hq1 hq2
    obtain ⟨i, h1, h2, _, _, h5, h6⟩ := route_spec lo hi count keys children hs0 q hq1 hq2
    have huniq := lowerBound_unique (count + 1) _ q hasc1 (by omega)
    rcases Nat.lt_trichotomy i pos with hip | hip | hip
    · refine ⟨i, i, h1, huniq i (by omega) ?_ ?_, ?_⟩
      · intro j hj
        rw [insertAt_lt _ _ _ _ _ (by omega)]
        exact h5 j hj
      · intro _
        rw [insertAt_lt _ _ _ _ _ hip]
        exact h6 (by omega)
      · rw [hchild i (by omega), if_pos hip, if_neg (by omega)]
    · subst hip
      by_cases hqs : q ≤ sep
      · refine ⟨i, i, h1, huniq i (by omega) ?_ ?_, ?_⟩
        · intro j hj
          rw [insertAt_lt _ _ _ _ _ hj]
          exact h5 j hj
        · intro _
          rw [insertAt_eq]
          exact hqs
        · rw [hchild i (by omega), if_neg (by omega), if_pos rfl, if_pos rfl, if_pos hqs]
      · refine ⟨i, i + 1, h1, huniq (i + 1) (by omega) ?_ ?_, ?_⟩
        · intro j hj
          rcases Nat.eq_or_lt_of_le (Nat.le_of_lt_succ hj) with he | hlt
          · rw [he, insertAt_eq]
            exact not_le.1 hqs
          · rw [insertAt_lt _ _ _ _ _ hlt]
            exact h5 j hlt
        · intro hlt
          rw [insertAt_gt _ _ _ _ _ (by omega) (by omega), Nat.add_sub_cancel]
          exact h6 (by omega)
        · rw [hchild (i + 1) (by omega), if_neg (by omega), if_neg (by omega), if_pos rfl,
            if_pos rfl, if_neg hqs]
    · refine ⟨i, i + 1, h1, huniq (i + 1) (by omega) ?_ ?_, ?_⟩
      · intro j hj
        rcases Nat.lt_trichotomy j pos with hjp | hjp | hjp
        · rw [insertAt_lt _ _ _ _ _ hjp]
          exact h5 j (by omega)
        · subst hjp
          rw [insertAt_eq]
          exact lt_trans (hup (by omega)) (h5 j hip)
        · rw [insertAt_gt _ _ _ _ _ hjp (by omega)]
          exact h5 (j - 1) (by omega)
      · intro hlt
        rw [insertAt_gt _ _ _ _ _ (by omega) (by omega), Nat.add_sub_cancel]
        exact h6 (by omega)
      · rw [hchild (i + 1) (by omega), if_neg (by omega), if_neg (by omega), if_neg (by omega),
          if_neg (by omega), Nat.add_sub_cancel]

/-- The two nodes after `BTreeInner::split(sep)` of an inner node with at least two keys:
`sep` is the key `keys[count / 2 - 1]`, the keys and children before it stay, those after it
are in the new node; both nodes satisfy the search invariant for their side of `sep` and send
a key of their side to the child the node sent it to. -/
theorem inner_split_spec {K V : Type} [LinearOrder K] [Inhabited K] [Inhabited V]
    (lo : WithBot K) (hi : WithTop K) (count : Nat) (keys : Nat → K) (children : Nat → Node K V)
    (hs : Node.Search lo hi (.inner count keys children)) (hc : 2 ≤ count) :
    ∃ keys1 children1,
      BTreeInner.split count keys children =
        some (.inner (count / 2 - 1) keys children, keys (count / 2 - 1),
          .inner (count - count / 2) keys1 children1) ∧
      Node.Search lo (keys (count / 2 - 1) : WithTop K) (.inner (count / 2 - 1) keys children) ∧
      Node.Search (keys (count / 2 - 1) : WithBot K) hi
        (.inner (count - count / 2) keys1 children1) ∧
      lo < (keys (count / 2 - 1) : WithBot K) ∧ (keys (count / 2 - 1) : WithTop K) < hi ∧
      (∀ q : K, lo < (q : WithBot K) → (q : WithTop K) ≤ hi →
        ∃ i, lowerBound count keys q = .index i ∧
          (q ≤ keys (count / 2 - 1) → lowerBound (count / 2 - 1) keys q = .index i) ∧
          (keys (count / 2 - 1) < q →
            ∃ i1, lowerBound (count - count / 2) keys1 q = .index i1 ∧
              children1 i1 = children i)) ∧
      ∀ j, j ≤ count - count / 2 → children1 j = children (count / 2 + j) := by
  have hs0 := hs
  obtain ⟨hasc, hb, hstale, hch⟩ := hs
  have hc1 : count - (count - count / 2) - 1 = count / 2 - 1 := by omega
  have hascL : Ascending (count / 2 - 1) keys := fun i j hij hj => hasc i j hij (by omega)
  have hkr : ∀ j, j < count - count / 2 + 1 →
      memcpyFrom default keys (count / 2 - 1 + 1) (count - count / 2 + 1) j
        = keys (count / 2 + j) := by
    intro j hj
    simp only [memcpyFrom, if_pos hj]
    congr 1
    omega
  have hcr : ∀ j, j < count - count / 2 + 1 →
      memcpyFrom (junkNode K V) children (count / 2 - 1 + 1) (count - count / 2 + 1) j
        = children (count / 2 + j) := by
    intro j hj
    simp only [memcpyFrom, if_pos hj]
    congr 1
    omega
  have hascR : Ascending (count - count / 2)
      (memcpyFrom default keys (count / 2 - 1 + 1) (count - count / 2 + 1)) := by
    intro i j hij hj
    rw [hkr i (by omega), hkr j (by omega)]
    exact hasc _ _ (by omega) (by omega)
  refine ⟨memcpyFrom default keys (count / 2 - 1 + 1) (count - count / 2 + 1),
    memcpyFrom (junkNode K V) children (count / 2 - 1 + 1) (count - count / 2 + 1), ?_,
    ⟨hascL, ?_, ?_, ?_⟩, ⟨hascR, ?_, ?_, ?_⟩, (hb _ (by omega)).1, (hb _ (by omega)).2, ?_,
    fun j hj => hcr j (by omega)⟩
  · simp only [BTreeInner.split, hc1]
    rw [if_neg (by omega)]
  · intro i hi1
    refine ⟨(hb i (by omega)).1, ?_⟩
    rw [WithTop.coe_lt_coe]
    exact hasc _ _ hi1 (by omega)
  · intro h
    rw [h]
  · intro i hi1
    have := hch i (by omega)
    rw [if_neg (show i ≠ count by omega)] at this
    by_cases hic : i = count / 2 - 1
    · rw [if_pos hic]
      rw [hic] at this ⊢
      exact this
    · rw [if_neg hic]
      exact this
  · intro i hi1
    rw [hkr i (by omega)]
    refine ⟨?_, (hb _ (by omega)).2⟩
    rw [WithBot.coe_lt_coe]
    exact hasc _ _ (by omega) (by omega)
  · intro h
    omega
  · intro i hi1
    rw [hcr i (by omega)]
    have := hch (count / 2 + i) (by omega)
    rw [if_neg (show count / 2 + i ≠ 0 by omega)] at this
    by_cases hi0 : i = 0
    · subst hi0
      rw [if_pos rfl]
      rw [if_neg (show count / 2 + 0 ≠ count by omega)] at this
      rw [if_neg (show (0 : Nat) ≠ count - count / 2 by omega), hkr 0 (by omega)]
      exact this
    · rw [if_neg hi0, hkr (i - 1) (by omega),
        show count / 2 + (i - 1) = count / 2 + i - 1 by omega]
      by_cases hic : i = count - count / 2
      · rw [if_pos hic]
        rw [if_pos (show count / 2 + i = count by omega)] at this
        exact this
      · rw [if_neg hic, hkr i (by omega)]
        rw [if_neg (show count / 2 + i ≠ count by omega)] at this
        exact this
  · intro q hq1 hq2
    obtain ⟨i, h1, h2, _, _, h5, h6⟩ := route_spec lo hi count keys children hs0 q hq1 hq2
    refine ⟨i, h1, ?_, ?_⟩
    · intro hqs
      have hil : i ≤ count / 2 - 1 := by
        by_contra hcon
        exact absurd (lt_of_lt_of_le (h5 (count / 2 - 1) (by omega)) hqs) (lt_irrefl _)
      rcases Nat.eq_zero_or_pos (count / 2 - 1) with hz | hz
      · rw [hz] at hqs hil ⊢
        have : i = 0 := by omega
        subst this
        rw [lowerBound_zero, if_neg (not_lt.2 hqs)]
      · exact lowerBound_unique _ keys q hascL hz i hil h5 (fun hlt => h6 (by omega))
    · intro hqs
      have hil : count / 2 ≤ i := by
        by_contra hcon
        have h7 := h6 (by omega)
        have h8 : keys i ≤ keys (count / 2 - 1) := by
          rcases Nat.eq_or_lt_of_le (show i ≤ count / 2 - 1 by omega) with he | hlt
          · rw [he]
          · exact le_of_lt (hasc _ _ hlt (by omega))
        exact absurd (lt_of_lt_of_le hqs (le_trans h7 h8)) (lt_irrefl _)
      refine ⟨i - count / 2, ?_, ?_⟩
      · apply lowerBound_unique _ _ q hascR (by omega) (i - count / 2) (by omega)
        · intro j hj
          rw [hkr j (by omega)]
          exact h5 _ (by omega)
        · intro hlt
          rw [hkr _ (by omega), show count / 2 + (i - count / 2) = i by omega]
          exact h6 (by omega)
      · rw [hcr _ (by omega), show count / 2 + (i - count / 2) = i by omega]

end btree

namespace btree

/-! ## One pass of `insert` -/

theorem lookup_inner {K V : Type} [LinearOrder K] (count : Nat) (keys : Nat → K)
    (children : Nat → Node K V) (q : K) (i : Nat) (h : lowerBound count keys q = .index i) :
    lookupDescend q (.inner count keys children) = lookupDescend q (children i) := by
  simp only [lookupDescend, h]

/-- One pass of `insert` on a subtree that satisfies the search invariant, for a key of its
range. If the pass reaches `leaf->insert`, the subtree maps `k` to `v` and every other key as
before. If the pass splits the top node, the two halves map the keys of their side of `sep` as
before. If the pass restarts after a split below, the subtree maps every key as before. The
search invariant holds afterwards, and no array is indexed outside its bounds. -/
theorem insertDescend_spec {K V : Type} [LinearOrder K] [Inhabited K] [Inhabited V]
    (cap : Capacity) (hleaf : 2 ≤ cap.leafMax) (hinner : 3 ≤ cap.innerMax) (k : K) (v : V)
    (n : Node K V) :
    ∀ (lo : WithBot K) (hi : WithTop K), Node.Search lo hi n →
      lo < (k : WithBot K) → (k : WithTop K) ≤ hi →
      match insertDescend cap k v n with
      | .done n1 =>
        Node.Search lo hi n1 ∧
        ∀ q : K, lo < (q : WithBot K) → (q : WithTop K) ≤ hi →
          lookupDescend q n1 = if q = k then .found v else lookupDescend q n
      | .split left sep right =>
        Node.Search lo (sep : WithTop K) left ∧ Node.Search (sep : WithBot K) hi right ∧
        lo < (sep : WithBot K) ∧ (sep : WithTop K) < hi ∧
        ∀ q : K, lo < (q : WithBot K) → (q : WithTop K) ≤ hi →
          (q ≤ sep → lookupDescend q left = lookupDescend q n) ∧
          (sep < q → lookupDescend q right = lookupDescend q n)
      | .restart n1 =>
        Node.Search lo hi n1 ∧
        ∀ q : K, lo < (q : WithBot K) → (q : WithTop K) ≤ hi →
          lookupDescend q n1 = lookupDescend q n
      | .fault => False
      | .unfinished => False := by
  induction n with
  | leaf count keys payloads =>
    intro lo hi hs hk1 hk2
    unfold insertDescend
    by_cases hfull : count = cap.leafMax
    · rw [if_pos hfull]
      obtain ⟨keys1, payloads1, h1, h2, h3, h4, h5, h6, h7⟩ :=
        leaf_split_spec lo hi count keys payloads hs (by omega)
      rw [h1]
      exact ⟨h2, h3, h4, h5, fun q _ _ => ⟨h6 q, h7 q⟩⟩
    · rw [if_neg hfull]
      obtain ⟨count1, keys1, payloads1, h1, h2, h3, _, _⟩ :=
        leaf_insert_spec lo hi count keys payloads k v hs hk1 hk2
      rw [h1]
      exact ⟨h2, fun q _ _ => h3 q⟩
  | inner count keys children ih =>
    intro lo hi hs hk1 hk2
    unfold insertDescend
    by_cases hfull : count + 1 = cap.innerMax
    · rw [if_pos hfull]
      obtain ⟨keys1, children1, h1, h2, h3, h4, h5, h6, _⟩ :=
        inner_split_spec lo hi count keys children hs (by omega)
      rw [h1]
      refine ⟨h2, h3, h4, h5, ?_⟩
      intro q hq1 hq2
      obtain ⟨i, h7, h8, h9⟩ := h6 q hq1 hq2
      constructor
      · intro hqs
        rw [lookup_inner _ _ _ _ _ (h8 hqs), lookup_inner _ _ _ _ _ h7]
      · intro hqs
        obtain ⟨i1, h10, h11⟩ := h9 hqs
        rw [lookup_inner _ _ _ _ _ h10, lookup_inner _ _ _ _ _ h7, h11]
    · rw [if_neg hfull]
      obtain ⟨pos, hp1, hp2, hp3, hp4, _, _⟩ := route_spec lo hi count keys children hs k hk1 hk2
      have hs0 := hs
      obtain ⟨hasc, hb, hstale, hch⟩ := hs
      have hrec := ih pos _ _ (hch pos hp2) hp3 hp4
      rw [hp1]
      simp only
      -- a key routed to another child sees that child unchanged
      have hother : ∀ (c : Node K V) (q : K), lo < (q : WithBot K) → (q : WithTop K) ≤ hi →
          ∀ i, lowerBound count keys q = .index i → i ≠ pos →
          lookupDescend q (.inner count keys (store children pos c))
            = lookupDescend q (.inner count keys children) := by
        intro c q _ _ i hi1 hne
        rw [lookup_inner _ _ _ _ _ hi1, lookup_inner _ _ _ _ _ hi1]
        simp [store, hne]
      have hsearch : ∀ c : Node K V,
          Node.Search (if pos = 0 then lo else (keys (pos - 1) : WithBot K))
            (if pos = count then hi else (keys pos : WithTop K)) c →
          Node.Search lo hi (.inner count keys (store children pos c)) := by
        intro c hc
        refine ⟨hasc, hb, hstale, ?_⟩
        intro i hi1
        by_cases hip : i = pos
        · subst hip
          simp only [store, if_pos]
          exact hc
        · simp only [store, if_neg hip]
          exact hch i hi1
      cases hd : insertDescend cap k v (children pos) with
      | done c =>
        rw [hd] at hrec
        simp only
        refine ⟨hsearch c hrec.1, ?_⟩
        intro q hq1 hq2
        obtain ⟨i, hi1, _, hi3, hi4, _, _⟩ := route_spec lo hi count keys children hs0 q hq1 hq2
        by_cases hip : i = pos
        · subst hip
          rw [lookup_inner _ _ _ _ _ hi1, lookup_inner _ _ _ _ _ hi1]
          simp only [store, if_pos]
          exact hrec.2 q hi3 hi4
        · rw [hother c q hq1 hq2 i hi1 hip]
          by_cases hqk : q = k
          · subst hqk
            rw [hi1] at hp1
            injection hp1 with hp1
            exact absurd hp1 hip
          · rw [if_neg hqk]
      | split left sep right =>
        rw [hd] at hrec
        simp only
        obtain ⟨hl, hr, hsep1, hsep2, hmaps⟩ := hrec
        obtain ⟨keys1, children1, h1, h2, h3, _⟩ :=
          publish_spec lo hi count keys children hs0 pos hp2 left right sep hl hr hsep1 hsep2
        rw [h1]
        simp only
        refine ⟨h2, ?_⟩
        intro q hq1 hq2
        obtain ⟨i, i1, hi1, hi2, hi3⟩ := h3 q hq1 hq2
        obtain ⟨i0, hj1, _, hj3, hj4, _, _⟩ := route_spec lo hi count keys children hs0 q hq1 hq2
        rw [hi1] at hj1
        injection hj1 with hj1
        subst hj1
        rw [lookup_inner _ _ _ _ _ hi2, lookup_inner _ _ _ _ _ hi1, hi3]
        by_cases hip : i = pos
        · subst hip
          rw [if_pos rfl]
          by_cases hqs : q ≤ sep
          · rw [if_pos hqs]
            exact (hmaps q hj3 hj4).1 hqs
          · rw [if_neg hqs]
            exact (hmaps q hj3 hj4).2 (not_le.1 hqs)
        · rw [if_neg hip]
      | restart c =>
        rw [hd] at hrec
        simp only
        refine ⟨hsearch c hrec.1, ?_⟩
        intro q hq1 hq2
        obtain ⟨i, hi1, _, hi3, hi4, _, _⟩ := route_spec lo hi count keys children hs0 q hq1 hq2
        by_cases hip : i = pos
        · subst hip
          rw [lookup_inner _ _ _ _ _ hi1, lookup_inner _ _ _ _ _ hi1]
          simp only [store, if_pos]
          exact hrec.2 q hi3 hi4
        · exact hother c q hq1 hq2 i hi1 hip
      | fault =>
        rw [hd] at hrec
        exact hrec
      | unfinished =>
        rw [hd] at hrec
        exact hrec

end btree

namespace btree

/-! ## The path of a key and the number of restarts -/

theorem fullPath_inner {K V : Type} [LinearOrder K] (cap : Capacity) (k : K) (count : Nat)
    (keys : Nat → K) (children : Nat → Node K V) (i : Nat)
    (h : lowerBound count keys k = .index i) :
    fullPath cap k (.inner count keys children)
      = decide (count + 1 = cap.innerMax) :: fullPath cap k (children i) := by
  simp only [fullPath, h]

/-- The path of `k` after one pass of `insert`. A pass that reaches `leaf->insert` met no full
node, and leaves the inner nodes of the path as they were. A pass that splits the top node
found it full, and each half is a node that is not full, followed by the former rest of the
path. A pass that restarts after a split below split the first full node of the path: that
node is not full afterwards, and only its parent can have become full. -/
theorem insertDescend_path {K V : Type} [LinearOrder K] [Inhabited K] [Inhabited V]
    (cap : Capacity) (hleaf : 2 ≤ cap.leafMax) (hinner : 3 ≤ cap.innerMax) (k : K) (v : V)
    (n : Node K V) :
    ∀ (lo : WithBot K) (hi : WithTop K), Node.Search lo hi n →
      lo < (k : WithBot K) → (k : WithTop K) ≤ hi →
      match insertDescend cap k v n with
      | .done n1 =>
        ∃ m b, fullPath cap k n = List.replicate (m + 1) false ∧
          fullPath cap k n1 = List.replicate m false ++ [b]
      | .split left sep right =>
        ∃ rest, fullPath cap k n = true :: rest ∧
          (k ≤ sep → fullPath cap k left = false :: rest) ∧
          (sep < k → fullPath cap k right = false :: rest)
      | .restart n1 =>
        ∃ m b rest, fullPath cap k n = List.replicate m false ++ false :: true :: rest ∧
          fullPath cap k n1 = List.replicate m false ++ b :: false :: rest
      | .fault => True
      | .unfinished => True := by
  induction n with
  | leaf count keys payloads =>
    intro lo hi hs hk1 hk2
    unfold insertDescend
    by_cases hfull : count = cap.leafMax
    · rw [if_pos hfull]
      obtain ⟨keys1, payloads1, h1, _⟩ := leaf_split_spec lo hi count keys payloads hs (by omega)
      rw [h1]
      refine ⟨[], by simp [fullPath, hfull], fun _ => ?_, fun _ => ?_⟩
      · simp only [fullPath, List.cons.injEq, decide_eq_false_iff_not, and_true]
        omega
      · simp only [fullPath, List.cons.injEq, decide_eq_false_iff_not, and_true]
        omega
    · rw [if_neg hfull]
      obtain ⟨count1, keys1, payloads1, h1, _⟩ :=
        leaf_insert_spec lo hi count keys payloads k v hs hk1 hk2
      rw [h1]
      exact ⟨0, decide (count1 = cap.leafMax), by simp [fullPath, hfull], by simp [fullPath]⟩
  | inner count keys children ih =>
    intro lo hi hs hk1 hk2
    unfold insertDescend
    by_cases hfull : count + 1 = cap.innerMax
    · rw [if_pos hfull]
      obtain ⟨keys1, children1, h1, _, _, _, _, h6, _⟩ :=
        inner_split_spec lo hi count keys children hs (by omega)
      rw [h1]
      obtain ⟨i, h7, h8, h9⟩ := h6 k hk1 hk2
      refine ⟨fullPath cap k (children i), ?_, fun hks => ?_, fun hks => ?_⟩
      · rw [fullPath_inner cap k _ _ _ i h7]
        simp [hfull]
      · rw [fullPath_inner cap k _ _ _ i (h8 hks)]
        simp only [List.cons.injEq, decide_eq_false_iff_not, and_true]
        omega
      · obtain ⟨i1, h10, h11⟩ := h9 hks
        rw [fullPath_inner cap k _ _ _ i1 h10, h11]
        simp only [List.cons.injEq, decide_eq_false_iff_not, and_true]
        omega
    · rw [if_neg hfull]
      obtain ⟨pos, hp1, hp2, hp3, hp4, _, _⟩ := route_spec lo hi count keys children hs k hk1 hk2
      have hs0 := hs
      obtain ⟨hasc, hb, hstale, hch⟩ := hs
      have hrec := ih pos _ _ (hch pos hp2) hp3 hp4
      have hspec := insertDescend_spec cap hleaf hinner k v (children pos) _ _ (hch pos hp2)
        hp3 hp4
      have hpath := fullPath_inner cap k count keys children pos hp1
      have hflag : decide (count + 1 = cap.innerMax) = false := by simp [hfull]
      rw [hp1]
      simp only
      cases hd : insertDescend cap k v (children pos) with
      | done c =>
        rw [hd] at hrec
        simp only
        obtain ⟨m, b, hm1, hm2⟩ := hrec
        refine ⟨m + 1, b, ?_, ?_⟩
        · rw [hpath, hflag, hm1]
          rfl
        · rw [fullPath_inner cap k count keys (store children pos c) pos hp1, hflag]
          simp only [store, if_pos]
          rw [hm2]
          rfl
      | split left sep right =>
        rw [hd] at hrec hspec
        simp only
        obtain ⟨rest, hr1, hr2, hr3⟩ := hrec
        obtain ⟨hl, hr, hsep1, hsep2, _⟩ := hspec
        obtain ⟨keys1, children1, h1, _, h3, _⟩ :=
          publish_spec lo hi count keys children hs0 pos hp2 left right sep hl hr hsep1 hsep2
        rw [h1]
        simp only
        obtain ⟨i, i1, hi1, hi2, hi3⟩ := h3 k hk1 hk2
        rw [hp1] at hi1
        injection hi1 with hi1
        subst hi1
        refine ⟨0, decide (count + 1 + 1 = cap.innerMax), rest, ?_, ?_⟩
        · rw [hpath, hflag, hr1]
          rfl
        · rw [fullPath_inner cap k _ _ _ i1 hi2, hi3, if_pos rfl]
          by_cases hks : k ≤ sep
          · rw [if_pos hks, hr2 hks]
            rfl
          · rw [if_neg hks, hr3 (not_le.1 hks)]
            rfl
      | restart c =>
        rw [hd] at hrec
        simp only
        obtain ⟨m, b, rest, hm1, hm2⟩ := hrec
        refine ⟨m + 1, b, rest, ?_, ?_⟩
        · rw [hpath, hflag, hm1]
          rfl
        · rw [fullPath_inner cap k count keys (store children pos c) pos hp1, hflag]
          simp only [store, if_pos]
          rw [hm2]
          rfl
      | fault => trivial
      | unfinished => trivial

theorem depthSum_shift (path : List Bool) :
    ∀ d, depthSum (d + 1) path = depthSum d path + path.count true := by
  induction path with
  | nil => intro d; simp [depthSum]
  | cons b rest ih =>
    intro d
    cases b
    · simp [depthSum, ih (d + 1)]
    · simp [depthSum, ih (d + 1)]
      omega

theorem depthSum_replicate (m : Nat) (path : List Bool) :
    ∀ d, depthSum d (List.replicate m false ++ path) = depthSum (d + m) path := by
  induction m with
  | zero => intro d; simp
  | succ m ih =>
    intro d
    rw [List.replicate_succ, List.cons_append]
    simp only [depthSum, Bool.false_eq_true, if_false, Nat.zero_add]
    rw [ih (d + 1)]
    congr 1
    omega

theorem count_replicate_false (m : Nat) (path : List Bool) :
    (List.replicate m false ++ path).count true = path.count true := by
  simp [List.count_append, List.count_replicate]

/-- A pass that restarts after a split below lowers the bound. -/
theorem restartBound_restart (m : Nat) (b : Bool) (rest : List Bool) :
    restartBound (List.replicate m false ++ b :: false :: rest)
      < restartBound (List.replicate m false ++ false :: true :: rest) := by
  unfold restartBound
  rw [depthSum_replicate, depthSum_replicate, count_replicate_false, count_replicate_false]
  cases b
  · simp only [depthSum, List.count_cons, Bool.false_eq_true, if_false, if_true, beq_self_eq_true,
      Nat.zero_add, Nat.add_zero]
    simp only [show (false == true) = false from rfl, Bool.false_eq_true, if_false, Nat.add_zero]
    have : rest.count true ^ 2 ≤ (rest.count true + 1) ^ 2 :=
      Nat.pow_le_pow_left (by omega) 2
    omega
  · simp only [depthSum, List.count_cons, Bool.false_eq_true, if_false, if_true, beq_self_eq_true,
      Nat.zero_add, Nat.add_zero]
    simp only [show (false == true) = false from rfl, Bool.false_eq_true, if_false, Nat.add_zero]
    omega

/-- A pass that splits the root lowers the bound. -/
theorem restartBound_split (rest : List Bool) :
    restartBound (false :: false :: rest) < restartBound (true :: rest) := by
  unfold restartBound
  simp only [depthSum, List.count_cons, Bool.false_eq_true, if_false, if_true, beq_self_eq_true,
    Nat.zero_add, Nat.add_zero]
  simp only [show (false == true) = false from rfl, Bool.false_eq_true, if_false, Nat.add_zero]
  rw [depthSum_shift rest 1]
  have : (rest.count true + 1) ^ 2 = rest.count true ^ 2 + 2 * rest.count true + 1 := by ring
  omega

end btree

namespace btree

/-! ## The loops of `insert` and `lookup` -/

theorem makeRoot_route {K : Type} [LinearOrder K] [Inhabited K] (sep q : K) :
    lowerBound 1 (store (fun _ => (default : K)) 0 sep) q
      = .index (if q ≤ sep then 0 else 1) := by
  have hasc : Ascending 1 (store (fun _ => (default : K)) 0 sep) := fun i j hij hj => by omega
  apply lowerBound_unique 1 _ q hasc (by omega)
  · split_ifs <;> omega
  · intro j hj
    by_cases hqs : q ≤ sep
    · rw [if_pos hqs] at hj; omega
    · rw [if_neg hqs] at hj
      have : j = 0 := by omega
      subst this
      simp only [store, if_pos]
      exact not_le.1 hqs
  · intro hlt
    by_cases hqs : q ≤ sep
    · rw [if_pos hqs]
      simp only [store, if_pos]
      exact hqs
    · rw [if_neg hqs] at hlt; omega

/-- The root built by `makeRoot` after a split of the root: it satisfies the search invariant
and sends every key to the half on its side of `sep`. -/
theorem makeRoot_spec {K V : Type} [LinearOrder K] [Inhabited K] [Inhabited V] (sep : K)
    (left right : Node K V) (hl : Node.Search ⊥ (sep : WithTop K) left)
    (hr : Node.Search (sep : WithBot K) ⊤ right) :
    Node.Search ⊥ ⊤ (makeRoot sep left right) ∧
    (∀ q : K, lookupDescend q (makeRoot sep left right)
      = if q ≤ sep then lookupDescend q left else lookupDescend q right) ∧
    (∀ (cap : Capacity) (k : K), fullPath cap k (makeRoot sep left right)
      = decide (1 + 1 = cap.innerMax) ::
        (if k ≤ sep then fullPath cap k left else fullPath cap k right)) := by
  refine ⟨⟨fun i j hij hj => by omega, ?_, fun h => by omega, ?_⟩, ?_, ?_⟩
  · intro i hi1
    exact ⟨WithBot.bot_lt_coe _, WithTop.coe_lt_top _⟩
  · intro i hi1
    rcases Nat.eq_or_lt_of_le hi1 with he | hlt
    · subst he
      simp only [store, if_pos, if_neg, one_ne_zero, Nat.sub_self]
      exact hr
    · have : i = 0 := by omega
      subst this
      simp only [store, if_pos, if_neg, zero_ne_one]
      exact hl
  · intro q
    unfold makeRoot
    rw [lookup_inner _ _ _ q _ (makeRoot_route sep q)]
    by_cases hqs : q ≤ sep
    · simp [hqs, store]
    · simp [hqs, store]
  · intro cap k
    unfold makeRoot
    rw [fullPath_inner cap k _ _ _ _ (makeRoot_route sep k)]
    by_cases hks : k ≤ sep
    · simp [hks, store]
    · simp [hks, store]

theorem search_new (K V : Type) [LinearOrder K] [Inhabited K] [Inhabited V] :
    Node.Search ⊥ ⊤ (BTree.new K V).root :=
  ⟨fun _ _ _ hj => absurd hj (Nat.not_lt_zero _), fun _ hi1 => absurd hi1 (Nat.not_lt_zero _)⟩

/-- A call of `insert` that returns leaves a tree that satisfies the search invariant, maps
`k` to `v` and maps every other key as before. -/
theorem insert_some {K V : Type} [LinearOrder K] [Inhabited K] [Inhabited V] (cap : Capacity)
    (hleaf : 2 ≤ cap.leafMax) (hinner : 3 ≤ cap.innerMax) (k : K) (v : V) :
    ∀ (fuel : Nat) (t t1 : BTree K V), Node.Search ⊥ ⊤ t.root →
      BTree.insert cap fuel t k v = some t1 →
      Node.Search ⊥ ⊤ t1.root ∧
      ∀ q : K, lookupDescend q t1.root = if q = k then .found v else lookupDescend q t.root := by
  intro fuel
  induction fuel with
  | zero => intro t t1 _ h; simp [BTree.insert] at h
  | succ fuel ih =>
    intro t t1 hs h
    have hspec := insertDescend_spec cap hleaf hinner k v t.root ⊥ ⊤ hs (WithBot.bot_lt_coe _)
      le_top
    unfold BTree.insert at h
    cases hd : insertDescend cap k v t.root with
    | done n =>
      rw [hd] at h hspec
      simp only [Option.some.injEq] at h
      subst h
      exact ⟨hspec.1, fun q => hspec.2 q (WithBot.bot_lt_coe _) le_top⟩
    | split left sep right =>
      rw [hd] at h hspec
      obtain ⟨hl, hr, _, _, hmaps⟩ := hspec
      obtain ⟨hroot, hlook, _⟩ := makeRoot_spec sep left right hl hr
      obtain ⟨h1, h2⟩ := ih _ t1 hroot h
      refine ⟨h1, fun q => ?_⟩
      rw [h2 q]
      simp only
      rw [hlook q]
      by_cases hqs : q ≤ sep
      · rw [if_pos hqs, (hmaps q (WithBot.bot_lt_coe _) le_top).1 hqs]
      · rw [if_neg hqs, (hmaps q (WithBot.bot_lt_coe _) le_top).2 (not_le.1 hqs)]
    | restart n =>
      rw [hd] at h hspec
      obtain ⟨h1, h2⟩ := ih _ t1 hspec.1 h
      refine ⟨h1, fun q => ?_⟩
      rw [h2 q]
      simp only
      rw [hspec.2 q (WithBot.bot_lt_coe _) le_top]
    | fault =>
      rw [hd] at hspec
      exact absurd hspec id
    | unfinished =>
      rw [hd] at hspec
      exact absurd hspec id

/-- A call of `insert` returns within `restartBound + 1` passes. -/
theorem insert_returns {K V : Type} [LinearOrder K] [Inhabited K] [Inhabited V] (cap : Capacity)
    (hleaf : 2 ≤ cap.leafMax) (hinner : 3 ≤ cap.innerMax) (k : K) (v : V) :
    ∀ (fuel : Nat) (t : BTree K V), Node.Search ⊥ ⊤ t.root →
      restartBound (fullPath cap k t.root) < fuel →
      ∃ t1, BTree.insert cap fuel t k v = some t1 := by
  intro fuel
  induction fuel with
  | zero => intro t _ h; omega
  | succ fuel ih =>
    intro t hs hb
    have hspec := insertDescend_spec cap hleaf hinner k v t.root ⊥ ⊤ hs (WithBot.bot_lt_coe _)
      le_top
    have hpath := insertDescend_path cap hleaf hinner k v t.root ⊥ ⊤ hs (WithBot.bot_lt_coe _)
      le_top
    unfold BTree.insert
    cases hd : insertDescend cap k v t.root with
    | done n => exact ⟨_, rfl⟩
    | split left sep right =>
      rw [hd] at hspec hpath
      simp only
      obtain ⟨hl, hr, _, _, _⟩ := hspec
      obtain ⟨rest, hp1, hp2, hp3⟩ := hpath
      obtain ⟨hroot, _, hfp⟩ := makeRoot_spec sep left right hl hr
      apply ih _ hroot
      simp only
      rw [hfp cap k]
      have hflag : decide (1 + 1 = cap.innerMax) = false := by
        simp only [decide_eq_false_iff_not]; omega
      have hlt := restartBound_split rest
      rw [hp1] at hb
      by_cases hks : k ≤ sep
      · rw [if_pos hks, hp2 hks, hflag]; omega
      · rw [if_neg hks, hp3 (not_le.1 hks), hflag]; omega
    | restart n =>
      rw [hd] at hspec hpath
      simp only
      obtain ⟨m, b, rest, hp1, hp2⟩ := hpath
      apply ih _ hspec.1
      simp only
      have hlt := restartBound_restart m b rest
      rw [hp1] at hb
      rw [hp2]
      omega
    | fault =>
      rw [hd] at hspec
      exact absurd hspec id
    | unfinished =>
      rw [hd] at hspec
      exact absurd hspec id

/-- Every reachable tree satisfies the search invariant. -/
theorem reachable_search {K V : Type} [LinearOrder K] [Inhabited K] [Inhabited V]
    (cap : Capacity) (hleaf : 2 ≤ cap.leafMax) (hinner : 3 ≤ cap.innerMax) (t : BTree K V)
    (h : Reachable cap t) : Node.Search ⊥ ⊤ t.root := by
  induction h with
  | new => exact search_new K V
  | insert fuel k v _ hins ih => exact (insert_some cap hleaf hinner k v fuel _ _ ih hins).1

/-- A pass of `lookup` on a subtree that satisfies the search invariant, for a key of its
range, returns `true` or `false`: it does not restart. -/
theorem lookupDescend_total {K V : Type} [LinearOrder K] (q : K) (n : Node K V) :
    ∀ (lo : WithBot K) (hi : WithTop K), Node.Search lo hi n →
      lo < (q : WithBot K) → (q : WithTop K) ≤ hi →
      ∃ r : Option V, lookupDescend q n = Found.ofOption r := by
  induction n with
  | leaf count keys payloads =>
    intro lo hi hs _ _
    rcases lookup_leaf_cases count keys payloads hs.1 q with ⟨i, _, _, hf⟩ | ⟨_, hf⟩
    · exact ⟨some (payloads i), hf⟩
    · exact ⟨none, hf⟩
  | inner count keys children ih =>
    intro lo hi hs hq1 hq2
    obtain ⟨i, h1, h2, h3, h4, _, _⟩ := route_spec lo hi count keys children hs q hq1 hq2
    rw [lookup_inner _ _ _ _ _ h1]
    exact ih i _ _ (hs.2.2.2 i h2) h3 h4

theorem lookup_eq {K V : Type} [LinearOrder K] (t : BTree K V) (q : K) (r : Option V)
    (h : lookupDescend q t.root = Found.ofOption r) (fuel : Nat) :
    BTree.lookup (fuel + 1) t q = some (t, r) := by
  unfold BTree.lookup
  rw [h]
  cases r <;> rfl

end btree

namespace btree

/-! ## Sequences of calls -/

/-- More passes than needed do not change what `insert` returns. -/
theorem insert_mono {K V : Type} [LinearOrder K] [Inhabited K] [Inhabited V] (cap : Capacity)
    (k : K) (v : V) :
    ∀ (fuel : Nat) (t t1 : BTree K V), BTree.insert cap fuel t k v = some t1 →
      ∀ more, fuel ≤ more → BTree.insert cap more t k v = some t1 := by
  intro fuel
  induction fuel with
  | zero => intro t t1 h; simp [BTree.insert] at h
  | succ fuel ih =>
    intro t t1 h more hm
    obtain ⟨m, rfl⟩ : ∃ m, more = m + 1 := ⟨more - 1, by omega⟩
    unfold BTree.insert at h ⊢
    cases hd : insertDescend cap k v t.root with
    | done n => rw [hd] at h; exact h
    | split left sep right =>
      rw [hd] at h
      exact ih _ _ h m (by omega)
    | restart n =>
      rw [hd] at h
      exact ih _ _ h m (by omega)
    | fault => rw [hd] at h; exact h
    | unfinished => rw [hd] at h; exact h

theorem lastInserted_nil {K V : Type} [DecidableEq K] (q : K) :
    lastInserted ([] : List (K × V)) q = none := rfl

theorem lastInserted_cons {K V : Type} [DecidableEq K] (k : K) (v : V) (ops : List (K × V))
    (q : K) :
    lastInserted ((k, v) :: ops) q =
      match lastInserted ops q with
      | some w => some w
      | none => if q = k then some v else none := by
  unfold lastInserted
  rw [List.reverse_cons, List.find?_append]
  cases h : ops.reverse.find? (fun kv => decide (kv.1 = q)) with
  | some kv => simp
  | none =>
    simp only [Option.none_or, List.find?_cons, List.find?_nil]
    by_cases hqk : q = k
    · subst hqk
      simp
    · have : ¬ k = q := fun h => hqk h.symm
      simp [this, hqk]

/-- A sequence of calls of `insert` on a tree that satisfies the search invariant: with
enough passes allowed, every call returns, and afterwards a key maps to the value of the last
call for it, or as before the sequence if there was no call for it. -/
theorem insertAll_spec {K V : Type} [LinearOrder K] [Inhabited K] [Inhabited V] (cap : Capacity)
    (hleaf : 2 ≤ cap.leafMax) (hinner : 3 ≤ cap.innerMax) (ops : List (K × V)) :
    ∀ t : BTree K V, Node.Search ⊥ ⊤ t.root →
      ∃ (N : Nat) (t1 : BTree K V), (∀ fuel, N ≤ fuel → insertAll cap fuel ops t = some t1) ∧
        Node.Search ⊥ ⊤ t1.root ∧
        ∀ q : K, lookupDescend q t1.root =
          match lastInserted ops q with
          | some w => .found w
          | none => lookupDescend q t.root := by
  induction ops with
  | nil =>
    intro t hs
    exact ⟨0, t, fun _ _ => rfl, hs, fun q => by rw [lastInserted_nil]⟩
  | cons op ops ih =>
    intro t hs
    obtain ⟨k, v⟩ := op
    obtain ⟨t0, h0⟩ := insert_returns cap hleaf hinner k v _ t hs (Nat.lt_succ_self _)
    obtain ⟨hs0, hl0⟩ := insert_some cap hleaf hinner k v _ t t0 hs h0
    obtain ⟨N, t1, h1, hs1, hl1⟩ := ih t0 hs0
    refine ⟨max N (restartBound (fullPath cap k t.root) + 1), t1, ?_, hs1, ?_⟩
    · intro fuel hfuel
      simp only [insertAll]
      rw [insert_mono cap k v _ t t0 h0 fuel (le_trans (le_max_right _ _) hfuel)]
      exact h1 fuel (le_trans (le_max_left _ _) hfuel)
    · intro q
      rw [hl1 q, lastInserted_cons]
      cases lastInserted ops q with
      | some w => rfl
      | none =>
        simp only
        rw [hl0 q]
        by_cases hqk : q = k
        · rw [if_pos hqk, if_pos hqk]
        · rw [if_neg hqk, if_neg hqk]

theorem lookup_new {K V : Type} [LinearOrder K] [Inhabited K] [Inhabited V] (q : K) :
    lookupDescend q (BTree.new K V).root = .notFound :=
  lookup_leaf_notFound 0 _ _ (fun _ _ _ hj => absurd hj (Nat.not_lt_zero _)) q
    (fun _ hi1 => absurd hi1 (Nat.not_lt_zero _))

end btree

namespace btree

/-! ## The number of entries -/

theorem sumTo_congr (f g : Nat → Nat) :
    ∀ n, (∀ i, i ≤ n → f i = g i) → sumTo f n = sumTo g n := by
  intro n
  induction n with
  | zero => intro h; simp [sumTo, h 0 (le_refl _)]
  | succ n ih =>
    intro h
    simp only [sumTo]
    rw [ih (fun i hi1 => h i (by omega)), h (n + 1) (le_refl _)]

/-- A sum in which one term is replaced. -/
theorem sumTo_replace (f g : Nat → Nat) (pos : Nat) :
    ∀ n, pos ≤ n → (∀ i, i ≤ n → i ≠ pos → g i = f i) →
      sumTo g n + f pos = sumTo f n + g pos := by
  intro n
  induction n with
  | zero =>
    intro hp _
    have : pos = 0 := by omega
    subst this
    simp only [sumTo]
    omega
  | succ n ih =>
    intro hp h
    simp only [sumTo]
    rcases Nat.eq_or_lt_of_le hp with he | hlt
    · subst he
      rw [sumTo_congr g f n (fun i hi1 => h i (by omega) (by omega))]
      omega
    · have := ih (by omega) (fun i hi1 hne => h i (by omega) hne)
      rw [h (n + 1) (le_refl _) (by omega)]
      omega

/-- A sum in which the term `pos` is replaced by the two terms `x` and `y`. -/
theorem sumTo_publish (f g : Nat → Nat) (pos x y : Nat) :
    ∀ n, pos ≤ n →
      (∀ j, j ≤ n + 1 → g j = if j < pos then f j else if j = pos then x
        else if j = pos + 1 then y else f (j - 1)) →
      sumTo g (n + 1) + f pos = sumTo f n + x + y := by
  intro n
  induction n with
  | zero =>
    intro hp h
    have : pos = 0 := by omega
    subst this
    have h0 := h 0 (by omega)
    have h1 := h 1 (by omega)
    simp at h0 h1
    simp only [sumTo, h0, h1]
    omega
  | succ n ih =>
    intro hp h
    simp only [sumTo] at ih ⊢
    rcases Nat.eq_or_lt_of_le hp with he | hlt
    · subst he
      have h1 := h (n + 1) (by omega)
      have h2 := h (n + 1 + 1) (by omega)
      rw [if_neg (by omega), if_pos rfl] at h1
      rw [if_neg (by omega), if_neg (by omega), if_pos rfl] at h2
      rw [sumTo_congr g f n (fun i hi1 => by rw [h i (by omega), if_pos (by omega)]), h1, h2]
      omega
    · have := ih (by omega) (fun j hj => h j (by omega))
      have h2 := h (n + 1 + 1) (by omega)
      rw [if_neg (by omega), if_neg (by omega), if_neg (by omega)] at h2
      rw [h2, Nat.add_sub_cancel]
      omega

theorem sumTo_succ (f : Nat → Nat) (n : Nat) : sumTo f (n + 1) = sumTo f n + f (n + 1) := rfl

/-- A sum cut in two. -/
theorem sumTo_split (f : Nat → Nat) (a : Nat) :
    ∀ b, sumTo f (a + 1 + b) = sumTo f a + sumTo (fun j => f (a + 1 + j)) b := by
  intro b
  induction b with
  | zero => simp [sumTo]
  | succ b ih =>
    rw [show a + 1 + (b + 1) = (a + 1 + b) + 1 from rfl, sumTo_succ, sumTo_succ, ih]
    simp only [Nat.add_assoc]

theorem pathLeafCount_inner {K V : Type} [LinearOrder K] (k : K) (count : Nat)
    (keys : Nat → K) (children : Nat → Node K V) (i : Nat)
    (h : lowerBound count keys k = .index i) :
    pathLeafCount k (.inner count keys children) = pathLeafCount k (children i) := by
  simp only [pathLeafCount, h]

theorem entries_inner {K V : Type} (count : Nat) (keys : Nat → K) (children : Nat → Node K V) :
    (Node.inner count keys children).entries
      = sumTo (fun i => (children i).entries) count := by
  simp only [Node.entries]

/-- The number of entries after one pass of `insert`: a pass that reaches `leaf->insert`
leaves the number of entries and the `count` of the leaf as they were when `k` was stored, and
adds one to both otherwise; a split, and a restart after a split below, leave the number of
entries as it was. -/
theorem insertDescend_entries {K V : Type} [LinearOrder K] [Inhabited K] [Inhabited V]
    (cap : Capacity) (hleaf : 2 ≤ cap.leafMax) (hinner : 3 ≤ cap.innerMax) (k : K) (v : V)
    (n : Node K V) :
    ∀ (lo : WithBot K) (hi : WithTop K), Node.Search lo hi n →
      lo < (k : WithBot K) → (k : WithTop K) ≤ hi →
      match insertDescend cap k v n with
      | .done n1 =>
        (∀ w, lookupDescend k n = .found w →
          n1.entries = n.entries ∧ pathLeafCount k n1 = pathLeafCount k n) ∧
        (lookupDescend k n = .notFound →
          n1.entries = n.entries + 1 ∧ pathLeafCount k n1 = pathLeafCount k n + 1)
      | .split left _ right => left.entries + right.entries = n.entries
      | .restart n1 => n1.entries = n.entries
      | .fault => True
      | .unfinished => True := by
  induction n with
  | leaf count keys payloads =>
    intro lo hi hs hk1 hk2
    unfold insertDescend
    by_cases hfull : count = cap.leafMax
    · rw [if_pos hfull]
      obtain ⟨keys1, payloads1, h1, _⟩ := leaf_split_spec lo hi count keys payloads hs (by omega)
      rw [h1]
      simp only [Node.entries]
      omega
    · rw [if_neg hfull]
      obtain ⟨count1, keys1, payloads1, h1, _, _, h4, h5⟩ :=
        leaf_insert_spec lo hi count keys payloads k v hs hk1 hk2
      rw [h1]
      simp only [Node.entries, pathLeafCount]
      rcases lookup_leaf_cases count keys payloads hs.1 k with ⟨i, hi1, he, hf⟩ | ⟨hne, hf⟩
      · have := h4 ⟨i, hi1, he⟩
        rw [hf]
        exact ⟨fun _ _ => ⟨this, this⟩, fun hc => Found.noConfusion hc⟩
      · have := h5 hne
        rw [hf]
        exact ⟨fun _ hc => Found.noConfusion hc, fun _ => ⟨this, this⟩⟩
  | inner count keys children ih =>
    intro lo hi hs hk1 hk2
    unfold insertDescend
    by_cases hfull : count + 1 = cap.innerMax
    · rw [if_pos hfull]
      obtain ⟨keys1, children1, h1, _, _, _, _, _, h7⟩ :=
        inner_split_spec lo hi count keys children hs (by omega)
      rw [h1]
      simp only [Node.entries]
      have h8 := sumTo_split (fun i => (children i).entries) (count / 2 - 1) (count - count / 2)
      rw [show count / 2 - 1 + 1 + (count - count / 2) = count by omega] at h8
      rw [h8]
      congr 1
      apply sumTo_congr
      intro j hj
      show (children1 j).entries = (children (count / 2 - 1 + 1 + j)).entries
      rw [h7 j hj, show count / 2 - 1 + 1 + j = count / 2 + j by omega]
    · rw [if_neg hfull]
      obtain ⟨pos, hp1, hp2, hp3, hp4, _, _⟩ := route_spec lo hi count keys children hs k hk1 hk2
      have hs0 := hs
      obtain ⟨hasc, hb, hstale, hch⟩ := hs
      have hrec := ih pos _ _ (hch pos hp2) hp3 hp4
      have hspec := insertDescend_spec cap hleaf hinner k v (children pos) _ _ (hch pos hp2)
        hp3 hp4
      rw [hp1]
      simp only
      have hrepl : ∀ c : Node K V,
          (Node.inner count keys (store children pos c)).entries + (children pos).entries
            = (Node.inner count keys children).entries + c.entries := by
        intro c
        rw [entries_inner, entries_inner]
        have := sumTo_replace (fun i => (children i).entries)
          (fun i => (store children pos c i).entries) pos count hp2
          (fun i _ hne => by simp only [store, if_neg hne])
        simp only [store, if_pos] at this
        exact this
      cases hd : insertDescend cap k v (children pos) with
      | done c =>
        rw [hd] at hrec
        simp only
        rw [lookup_inner _ _ _ _ _ hp1, pathLeafCount_inner k _ _ _ _ hp1,
          pathLeafCount_inner k _ _ _ _ hp1]
        simp only [store, if_pos]
        have := hrepl c
        constructor
        · intro w hw
          obtain ⟨e1, e2⟩ := hrec.1 w hw
          exact ⟨by omega, e2⟩
        · intro hw
          obtain ⟨e1, e2⟩ := hrec.2 hw
          exact ⟨by omega, e2⟩
      | split left sep right =>
        rw [hd] at hrec hspec
        simp only
        obtain ⟨hl, hr, hsep1, hsep2, _⟩ := hspec
        obtain ⟨keys1, children1, h1, _, _, h4⟩ :=
          publish_spec lo hi count keys children hs0 pos hp2 left right sep hl hr hsep1 hsep2
        rw [h1]
        simp only
        rw [entries_inner, entries_inner]
        have := sumTo_publish (fun i => (children i).entries) (fun i => (children1 i).entries)
          pos left.entries right.entries count hp2 (fun j hj => by
            simp only
            rw [h4 j hj]
            split_ifs <;> rfl)
        simp only at this
        omega
      | restart c =>
        rw [hd] at hrec
        simp only
        have := hrepl c
        omega
      | fault => trivial
      | unfinished => trivial

theorem entries_makeRoot {K V : Type} [Inhabited K] [Inhabited V] (sep : K)
    (left right : Node K V) :
    (makeRoot sep left right).entries = left.entries + right.entries := by
  simp [makeRoot, Node.entries, sumTo, store]

/-- A call of `insert` that returns leaves the number of entries as it was when `k` was
stored, and adds one otherwise. -/
theorem insert_entries {K V : Type} [LinearOrder K] [Inhabited K] [Inhabited V] (cap : Capacity)
    (hleaf : 2 ≤ cap.leafMax) (hinner : 3 ≤ cap.innerMax) (k : K) (v : V) :
    ∀ (fuel : Nat) (t t1 : BTree K V), Node.Search ⊥ ⊤ t.root →
      BTree.insert cap fuel t k v = some t1 →
      (∀ w, lookupDescend k t.root = .found w → t1.root.entries = t.root.entries) ∧
      (lookupDescend k t.root = .notFound → t1.root.entries = t.root.entries + 1) := by
  intro fuel
  induction fuel with
  | zero => intro t t1 _ h; simp [BTree.insert] at h
  | succ fuel ih =>
    intro t t1 hs h
    have hspec := insertDescend_spec cap hleaf hinner k v t.root ⊥ ⊤ hs (WithBot.bot_lt_coe _)
      le_top
    have hent := insertDescend_entries cap hleaf hinner k v t.root ⊥ ⊤ hs (WithBot.bot_lt_coe _)
      le_top
    unfold BTree.insert at h
    cases hd : insertDescend cap k v t.root with
    | done n =>
      rw [hd] at h hent
      simp only [Option.some.injEq] at h
      subst h
      exact ⟨fun w hw => (hent.1 w hw).1, fun hw => (hent.2 hw).1⟩
    | split left sep right =>
      rw [hd] at h hspec hent
      obtain ⟨hl, hr, _, _, hmaps⟩ := hspec
      obtain ⟨hroot, hlook, _⟩ := makeRoot_spec sep left right hl hr
      obtain ⟨h1, h2⟩ := ih _ t1 hroot h
      simp only at h1 h2 hent
      have hsame : lookupDescend k (makeRoot sep left right) = lookupDescend k t.root := by
        rw [hlook k]
        by_cases hks : k ≤ sep
        · rw [if_pos hks, (hmaps k (WithBot.bot_lt_coe _) le_top).1 hks]
        · rw [if_neg hks, (hmaps k (WithBot.bot_lt_coe _) le_top).2 (not_le.1 hks)]
      rw [hsame, entries_makeRoot, hent] at h1 h2
      exact ⟨h1, h2⟩
    | restart n =>
      rw [hd] at h hspec hent
      obtain ⟨h1, h2⟩ := ih _ t1 hspec.1 h
      simp only at h1 h2 hent
      rw [hspec.2 k (WithBot.bot_lt_coe _) le_top, hent] at h1 h2
      exact ⟨h1, h2⟩
    | fault =>
      rw [hd] at hspec
      exact absurd hspec id
    | unfinished =>
      rw [hd] at hspec
      exact absurd hspec id

/-- After a call of `insert(k, ·)` that returned, no inner node on the path of `k` is full. -/
theorem insert_path {K V : Type} [LinearOrder K] [Inhabited K] [Inhabited V] (cap : Capacity)
    (hleaf : 2 ≤ cap.leafMax) (hinner : 3 ≤ cap.innerMax) (k : K) (v : V) :
    ∀ (fuel : Nat) (t t1 : BTree K V), Node.Search ⊥ ⊤ t.root →
      BTree.insert cap fuel t k v = some t1 →
      ∃ m b, fullPath cap k t1.root = List.replicate m false ++ [b] := by
  intro fuel
  induction fuel with
  | zero => intro t t1 _ h; simp [BTree.insert] at h
  | succ fuel ih =>
    intro t t1 hs h
    have hspec := insertDescend_spec cap hleaf hinner k v t.root ⊥ ⊤ hs (WithBot.bot_lt_coe _)
      le_top
    have hpath := insertDescend_path cap hleaf hinner k v t.root ⊥ ⊤ hs (WithBot.bot_lt_coe _)
      le_top
    unfold BTree.insert at h
    cases hd : insertDescend cap k v t.root with
    | done n =>
      rw [hd] at h hpath
      simp only [Option.some.injEq] at h
      subst h
      obtain ⟨m, b, _, hm⟩ := hpath
      exact ⟨m, b, hm⟩
    | split left sep right =>
      rw [hd] at h hspec
      obtain ⟨hl, hr, _, _, _⟩ := hspec
      exact ih _ t1 (makeRoot_spec sep left right hl hr).1 h
    | restart n =>
      rw [hd] at h hspec
      exact ih _ t1 hspec.1 h
    | fault =>
      rw [hd] at hspec
      exact absurd hspec id
    | unfinished =>
      rw [hd] at hspec
      exact absurd hspec id

/-- The last node of the path of `k` is the leaf that `insert(k, ·)` reaches. -/
theorem fullPath_last {K V : Type} [LinearOrder K] (cap : Capacity) (k : K) (n : Node K V) :
    ∀ (lo : WithBot K) (hi : WithTop K), Node.Search lo hi n →
      lo < (k : WithBot K) → (k : WithTop K) ≤ hi →
      ∃ inner, fullPath cap k n = inner ++ [decide (pathLeafCount k n = cap.leafMax)] := by
  induction n with
  | leaf count keys payloads =>
    intro lo hi _ _ _
    exact ⟨[], rfl⟩
  | inner count keys children ih =>
    intro lo hi hs hk1 hk2
    obtain ⟨pos, hp1, hp2, hp3, hp4, _, _⟩ := route_spec lo hi count keys children hs k hk1 hk2
    obtain ⟨inner, hin⟩ := ih pos _ _ (hs.2.2.2 pos hp2) hp3 hp4
    refine ⟨decide (count + 1 = cap.innerMax) :: inner, ?_⟩
    rw [fullPath_inner cap k _ _ _ pos hp1, pathLeafCount_inner k _ _ _ pos hp1, hin]
    rfl

/-- A pass of `insert` that meets no full node on the path of `k` reaches `leaf->insert`. -/
theorem insertDescend_done {K V : Type} [LinearOrder K] [Inhabited K] [Inhabited V]
    (cap : Capacity) (hleaf : 2 ≤ cap.leafMax) (hinner : 3 ≤ cap.innerMax) (k : K) (v : V)
    (n : Node K V) (hs : Node.Search ⊥ ⊤ n) (m : Nat)
    (hp : fullPath cap k n = List.replicate m false) :
    ∃ n1, insertDescend cap k v n = .done n1 := by
  have hspec := insertDescend_spec cap hleaf hinner k v n ⊥ ⊤ hs (WithBot.bot_lt_coe _) le_top
  have hpath := insertDescend_path cap hleaf hinner k v n ⊥ ⊤ hs (WithBot.bot_lt_coe _) le_top
  have hno : true ∉ fullPath cap k n := by
    rw [hp]
    intro hc
    exact absurd (List.eq_of_mem_replicate hc) (by decide)
  cases hd : insertDescend cap k v n with
  | done n1 => exact ⟨n1, rfl⟩
  | split left sep right =>
    rw [hd] at hpath
    obtain ⟨rest, hr, _⟩ := hpath
    rw [hr] at hno
    exact absurd (List.mem_cons_self _ _) hno
  | restart n1 =>
    rw [hd] at hpath
    obtain ⟨m1, b, rest, hr, _⟩ := hpath
    rw [hr] at hno
    exact absurd (by simp) hno
  | fault =>
    rw [hd] at hspec
    exact absurd hspec id
  | unfinished =>
    rw [hd] at hspec
    exact absurd hspec id

end btree

namespace btree

/-! ## Sequences of live slots -/

theorem live_length {α : Type} (a : Nat → α) (n : Nat) : (live a n).length = n := by
  simp [live]

theorem mem_live {α : Type} (a : Nat → α) (n : Nat) (x : α) :
    x ∈ live a n ↔ ∃ i, i < n ∧ a i = x := by
  simp [live]

theorem live_congr {α : Type} (a b : Nat → α) (n : Nat) (h : ∀ j, j < n → a j = b j) :
    live a n = live b n := by
  unfold live
  apply List.map_congr_left
  intro j hj
  exact h j (List.mem_range.1 hj)

theorem live_add {α : Type} (a : Nat → α) (m n : Nat) :
    live a (m + n) = live a m ++ live (fun j => a (m + j)) n := by
  unfold live
  rw [List.range_add, List.map_append, List.map_map]
  rfl

theorem live_one {α : Type} (a : Nat → α) : live a 1 = [a 0] := rfl

theorem live_take {α : Type} (a : Nat → α) (m n : Nat) (h : m ≤ n) :
    (live a n).take m = live a m := by
  obtain ⟨d, rfl⟩ := Nat.exists_eq_add_of_le h
  rw [live_add]
  exact List.take_left' (live_length a m)

theorem live_drop {α : Type} (a : Nat → α) (m n : Nat) (h : m ≤ n) :
    (live a n).drop m = live (fun j => a (m + j)) (n - m) := by
  obtain ⟨d, rfl⟩ := Nat.exists_eq_add_of_le h
  rw [live_add, Nat.add_sub_cancel_left]
  exact List.drop_left' (live_length a m)

/-- The sequence after `memmove` and the assignment at `pos` is the old sequence with `x`
inserted at `pos`. -/
theorem live_insertAt {α : Type} (a : Nat → α) (pos count : Nat) (x : α) (h : pos ≤ count) :
    live (store (memmoveUp a pos (count - pos)) pos x) (count + 1)
      = (live a count).take pos ++ x :: (live a count).drop pos := by
  rw [live_take a pos count h, live_drop a pos count h]
  have e : count + 1 = pos + (1 + (count - pos)) := by omega
  rw [e, live_add, live_add, live_one]
  congr 1
  · exact live_congr _ _ _ (fun j hj => insertAt_lt _ _ _ _ _ hj)
  · simp only [List.singleton_append, Nat.add_zero]
    rw [insertAt_eq]
    congr 1
    apply live_congr
    intro j hj
    rw [insertAt_gt _ _ _ _ _ (by omega) (by omega)]
    congr 1
    omega

/-! ## The search invariant in the words of the specification -/

theorem search_stores {K V : Type} [LinearOrder K] (q : K) (n : Node K V) :
    ∀ (lo : WithBot K) (hi : WithTop K), Node.Search lo hi n → Node.Stores q n →
      lo < (q : WithBot K) ∧ (q : WithTop K) ≤ hi := by
  induction n with
  | leaf count keys payloads =>
    intro lo hi hs hq
    obtain ⟨i, hi1, rfl⟩ := hq
    exact hs.2 i hi1
  | inner count keys children ih =>
    intro lo hi hs hq
    obtain ⟨_, hkeys, _, hch⟩ := hs
    rcases hq with ⟨i, hi1, rfl⟩ | ⟨i, hi1, hst⟩
    · exact ⟨(hkeys i hi1).1, le_of_lt (hkeys i hi1).2⟩
    · obtain ⟨h1, h2⟩ := ih i _ _ (hch i hi1) hst
      constructor
      · by_cases h0 : i = 0
        · rw [if_pos h0] at h1; exact h1
        · rw [if_neg h0] at h1
          exact lt_trans (hkeys (i - 1) (by omega)).1 h1
      · by_cases hc : i = count
        · rw [if_pos hc] at h2; exact h2
        · rw [if_neg hc] at h2
          exact le_trans h2 (le_of_lt (hkeys i (by omega)).2)

theorem search_ordered {K V : Type} [LinearOrder K] (n : Node K V) :
    ∀ (lo : WithBot K) (hi : WithTop K), Node.Search lo hi n → Node.Ordered n := by
  induction n with
  | leaf count keys payloads =>
    intro lo hi hs
    exact hs.1
  | inner count keys children ih =>
    intro lo hi hs
    obtain ⟨hasc, _, _, hch⟩ := hs
    refine ⟨hasc, fun i hi1 => ⟨ih i _ _ (hch i hi1), fun q hq => ?_⟩⟩
    obtain ⟨h1, h2⟩ := search_stores q (children i) _ _ (hch i hi1) hq
    constructor
    · intro h0
      rw [if_neg (by omega)] at h1
      exact WithBot.coe_lt_coe.1 h1
    · intro hc
      rw [if_neg (by omega)] at h2
      exact WithTop.coe_le_coe.1 h2

/-- Every pass of `insert` leaves a tree that satisfies the search invariant. -/
theorem passes_search {K V : Type} [LinearOrder K] [Inhabited K] [Inhabited V] (cap : Capacity)
    (hleaf : 2 ≤ cap.leafMax) (hinner : 3 ≤ cap.innerMax) (k : K) (v : V) :
    ∀ (n : Nat) (t : BTree K V), Node.Search ⊥ ⊤ t.root →
      Node.Search ⊥ ⊤ (BTree.passes cap k v n t).root := by
  intro n
  induction n with
  | zero => intro t hs; exact hs
  | succ n ih =>
    intro t hs
    have hspec := insertDescend_spec cap hleaf hinner k v t.root ⊥ ⊤ hs (WithBot.bot_lt_coe _)
      le_top
    unfold BTree.passes
    cases hd : insertDescend cap k v t.root with
    | done r =>
      rw [hd] at hspec
      exact hspec.1
    | split left sep right =>
      rw [hd] at hspec
      exact ih _ (makeRoot_spec sep left right hspec.1 hspec.2.1).1
    | restart r =>
      rw [hd] at hspec
      exact ih _ hspec.1
    | fault => exact hs
    | unfinished => exact hs

theorem reachable_insertAll {K V : Type} [LinearOrder K] [Inhabited K] [Inhabited V]
    (cap : Capacity) (fuel : Nat) (ops : List (K × V)) :
    ∀ (t t1 : BTree K V), Reachable cap t → insertAll cap fuel ops t = some t1 →
      Reachable cap t1 := by
  induction ops with
  | nil =>
    intro t t1 hr h
    simp only [insertAll, Option.some.injEq] at h
    exact h ▸ hr
  | cons op ops ih =>
    intro t t1 hr h
    obtain ⟨k, v⟩ := op
    simp only [insertAll] at h
    cases hi : BTree.insert cap fuel t k v with
    | none => rw [hi] at h; exact absurd h (by simp)
    | some t0 =>
      rw [hi] at h
      exact ih t0 t1 (Reachable.insert fuel k v hr hi) h

theorem some_getD_of_isSome {α : Type} (o : Option α) (d : α) (h : o.isSome = true) :
    o = some (o.getD d) := by
  cases o with
  | none => exact absurd h (by simp)
  | some x => rfl

/-! ## The iterations of the binary search -/

theorem lowerBoundRun_fst {K : Type} [LinearOrder K] (keys : Nat → K) (k : K) :
    ∀ fuel lower upper,
      (lowerBoundRun keys k fuel lower upper).1 = lowerBoundLoop keys k fuel lower upper := by
  intro fuel
  induction fuel with
  | zero => intro lower upper; rfl
  | succ fuel ih =>
    intro lower upper
    unfold lowerBoundRun lowerBoundLoop
    simp only
    split_ifs <;> first | rfl | exact ih _ _

theorem lowerBoundRun_pos {K : Type} [LinearOrder K] (keys : Nat → K) (k : K)
    (fuel lower upper : Nat) : 1 ≤ (lowerBoundRun keys k (fuel + 1) lower upper).2 := by
  unfold lowerBoundRun
  simp only
  split_ifs <;> simp

/-- Each iteration at least halves the distance between `lower` and `upper`. -/
theorem lowerBoundRun_iterations {K : Type} [LinearOrder K] (keys : Nat → K) (k : K) :
    ∀ fuel lower upper, lower < upper →
      (lowerBoundRun keys k fuel lower upper).2 ≤ Nat.log 2 (upper - lower) + 1 := by
  intro fuel
  induction fuel with
  | zero => intro lower upper _; simp [lowerBoundRun]
  | succ fuel ih =>
    intro lower upper hlu
    have hhalf : ∀ r, 1 ≤ r → r ≤ (upper - lower) / 2 →
        Nat.log 2 r + 1 ≤ Nat.log 2 (upper - lower) := by
      intro r h1 h2
      have h3 : Nat.log 2 r ≤ Nat.log 2 ((upper - lower) / 2) := Nat.log_mono_right h2
      rw [Nat.log_div_base] at h3
      have h4 : 0 < Nat.log 2 (upper - lower) := Nat.log_pos (by norm_num) (by omega)
      omega
    unfold lowerBoundRun
    simp only
    split_ifs
    all_goals first
      | (simp; done)
      | (have h7 := ih lower ((upper - lower) / 2 + lower) (by assumption)
         have h8 := hhalf ((upper - lower) / 2 + lower - lower) (by omega) (by omega)
         simp only [ge_iff_le]
         omega)
      | (have h7 := ih ((upper - lower) / 2 + lower + 1) upper (by assumption)
         have h8 := hhalf (upper - ((upper - lower) / 2 + lower + 1)) (by omega) (by omega)
         simp only [ge_iff_le]
         omega)

end btree

namespace btree

/-! ## The range checks of the binary search -/

/-- Whatever the keys are, the loop of `lowerBound` started with `lower < upper` passes its
range checks: it reads slots of `[lower, upper)` only and returns an index of
`[lower, upper]`. -/
theorem lowerBoundLoop_in_range {K : Type} [LinearOrder K] (keys : Nat → K) (k : K) :
    ∀ fuel lower upper, lower < upper → upper - lower < fuel →
      ∃ i, lowerBoundLoop keys k fuel lower upper = .index i ∧ lower ≤ i ∧ i ≤ upper ∧
        ∀ m, m ∈ lowerBoundReads keys k fuel lower upper → lower ≤ m ∧ m < upper := by
  intro fuel
  induction fuel with
  | zero => intro lower upper _ h; omega
  | succ fuel ih =>
    intro lower upper hlu hfuel
    have hmid1 : lower ≤ (upper - lower) / 2 + lower := by omega
    have hmid2 : (upper - lower) / 2 + lower < upper := by omega
    unfold lowerBoundLoop lowerBoundReads
    simp only
    by_cases h1 : k < keys ((upper - lower) / 2 + lower)
    · rw [if_pos h1, if_pos h1, if_neg (not_not.2 (le_of_lt hmid2)),
        if_neg (not_not.2 (le_of_lt hmid2))]
      by_cases h2 : lower < (upper - lower) / 2 + lower
      · rw [if_pos h2, if_pos h2]
        obtain ⟨i, e1, e2, e3, e4⟩ := ih lower ((upper - lower) / 2 + lower) h2 (by omega)
        refine ⟨i, e1, e2, by omega, ?_⟩
        intro m hm
        rcases List.mem_cons.1 hm with hm | hm
        · omega
        · have := e4 m hm
          omega
      · rw [if_neg h2, if_neg h2]
        refine ⟨lower, rfl, le_refl _, le_of_lt hlu, ?_⟩
        intro m hm
        rw [List.mem_singleton] at hm
        omega
    · rw [if_neg h1, if_neg h1]
      by_cases h3 : keys ((upper - lower) / 2 + lower) < k
      · rw [if_pos h3, if_pos h3, if_neg (not_not.2 hmid1), if_neg (not_not.2 hmid1)]
        by_cases h4 : (upper - lower) / 2 + lower + 1 < upper
        · rw [if_pos h4, if_pos h4]
          obtain ⟨i, e1, e2, e3, e4⟩ := ih ((upper - lower) / 2 + lower + 1) upper h4 (by omega)
          refine ⟨i, e1, by omega, e3, ?_⟩
          intro m hm
          rcases List.mem_cons.1 hm with hm | hm
          · omega
          · have := e4 m hm
            omega
        · rw [if_neg h4, if_neg h4]
          refine ⟨(upper - lower) / 2 + lower + 1, rfl, by omega, by omega, ?_⟩
          intro m hm
          rw [List.mem_singleton] at hm
          omega
      · rw [if_neg h3, if_neg h3]
        refine ⟨(upper - lower) / 2 + lower, rfl, hmid1, le_of_lt hmid2, ?_⟩
        intro m hm
        rw [List.mem_singleton] at hm
        omega

/-- Whatever the keys and `count` are, `lowerBound` passes its range checks: it reads slots
below `max count 1` only and returns an index that is at most `max count 1`. -/
theorem lowerBound_in_range {K : Type} [LinearOrder K] (count : Nat) (keys : Nat → K) (k : K) :
    ∃ i, lowerBound count keys k = .index i ∧ i ≤ max count 1 ∧
      ∀ m, m ∈ lowerBoundReads keys k (count + 1) 0 count → m < max count 1 := by
  rcases Nat.eq_zero_or_pos count with hc | hc
  · subst hc
    refine ⟨if keys 0 < k then 1 else 0, by rw [lowerBound_zero]; split_ifs <;> rfl,
      by split_ifs <;> simp, ?_⟩
    intro m hm
    unfold lowerBoundReads at hm
    simp only [Nat.sub_self, Nat.zero_div, Nat.add_zero, Nat.lt_irrefl, if_false,
      Nat.not_lt_zero] at hm
    have : m = 0 := by
      rcases List.mem_cons.1 hm with hm | hm
      · exact hm
      · split_ifs at hm <;> simp at hm
    subst this
    simp
  · obtain ⟨i, e1, _, e3, e4⟩ := lowerBoundLoop_in_range keys k (count + 1) 0 count hc (by omega)
    refine ⟨i, e1, le_trans e3 (le_max_left _ _), ?_⟩
    intro m hm
    exact lt_of_lt_of_le (e4 m hm).2 (le_max_left _ _)

end btree

namespace btree

/-! ## Where a key goes after a split -/

/-- After `BTreeInner::split(sep)`, a key of the range of the node that went to child `i0` goes
to child `i0` of the left node if it is at most `sep`, and to child `i0 - count / 2` of the new
node otherwise. -/
theorem inner_split_route {K V : Type} [LinearOrder K] [Inhabited K] [Inhabited V]
    (lo : WithBot K) (hi : WithTop K) (count : Nat) (keys : Nat → K) (children : Nat → Node K V)
    (hs : Node.Search lo hi (.inner count keys children)) (hc : 2 ≤ count) (k : K)
    (hk1 : lo < (k : WithBot K)) (hk2 : (k : WithTop K) ≤ hi) :
    ∃ keysR childrenR i0,
      BTreeInner.split count keys children =
        some (.inner (count / 2 - 1) keys children, keys (count / 2 - 1),
          .inner (count - count / 2) keysR childrenR) ∧
      (∀ j, j ≤ count - count / 2 → childrenR j = children (count / 2 + j)) ∧
      lowerBound count keys k = .index i0 ∧ i0 ≤ count ∧
      (k ≤ keys (count / 2 - 1) →
        i0 ≤ count / 2 - 1 ∧ lowerBound (count / 2 - 1) keys k = .index i0) ∧
      (keys (count / 2 - 1) < k →
        count / 2 ≤ i0 ∧ lowerBound (count - count / 2) keysR k = .index (i0 - count / 2)) := by
  have hs0 := hs
  obtain ⟨hasc, hb, hstale, hch⟩ := hs
  have hc1 : count - (count - count / 2) - 1 = count / 2 - 1 := by omega
  have hascL : Ascending (count / 2 - 1) keys := fun i j hij hj => hasc i j hij (by omega)
  have hkr : ∀ j, j < count - count / 2 + 1 →
      memcpyFrom default keys (count / 2 - 1 + 1) (count - count / 2 + 1) j
        = keys (count / 2 + j) := by
    intro j hj
    simp only [memcpyFrom, if_pos hj]
    congr 1
    omega
  have hcr : ∀ j, j < count - count / 2 + 1 →
      memcpyFrom (junkNode K V) children (count / 2 - 1 + 1) (count - count / 2 + 1) j
        = children (count / 2 + j) := by
    intro j hj
    simp only [memcpyFrom, if_pos hj]
    congr 1
    omega
  have hascR : Ascending (count - count / 2)
      (memcpyFrom default keys (count / 2 - 1 + 1) (count - count / 2 + 1)) := by
    intro i j hij hj
    rw [hkr i (by omega), hkr j (by omega)]
    exact hasc _ _ (by omega) (by omega)
  obtain ⟨i, h1, h2, _, _, h5, h6⟩ := route_spec lo hi count keys children hs0 k hk1 hk2
  refine ⟨memcpyFrom default keys (count / 2 - 1 + 1) (count - count / 2 + 1),
    memcpyFrom (junkNode K V) children (count / 2 - 1 + 1) (count - count / 2 + 1), i, ?_,
    fun j hj => hcr j (by omega), h1, h2, ?_, ?_⟩
  · simp only [BTreeInner.split, hc1]
    rw [if_neg (by omega)]
  · intro hqs
    have hil : i ≤ count / 2 - 1 := by
      by_contra hcon
      exact absurd (lt_of_lt_of_le (h5 (count / 2 - 1) (by omega)) hqs) (lt_irrefl _)
    refine ⟨hil, ?_⟩
    rcases Nat.eq_zero_or_pos (count / 2 - 1) with hz | hz
    · rw [hz] at hqs hil ⊢
      have : i = 0 := by omega
      subst this
      rw [lowerBound_zero, if_neg (not_lt.2 hqs)]
    · exact lowerBound_unique _ keys k hascL hz i hil h5 (fun hlt => h6 (by omega))
  · intro hqs
    have hil : count / 2 ≤ i := by
      by_contra hcon
      have h7 := h6 (by omega)
      have h8 : keys i ≤ keys (count / 2 - 1) := by
        rcases Nat.eq_or_lt_of_le (show i ≤ count / 2 - 1 by omega) with he | hlt
        · rw [he]
        · exact le_of_lt (hasc _ _ hlt (by omega))
      exact absurd (lt_of_lt_of_le hqs (le_trans h7 h8)) (lt_irrefl _)
    refine ⟨hil, ?_⟩
    apply lowerBound_unique _ _ k hascR (by omega) (i - count / 2) (by omega)
    · intro j hj
      rw [hkr j (by omega)]
      exact h5 _ (by omega)
    · intro hlt
      rw [hkr _ (by omega), show count / 2 + (i - count / 2) = i by omega]
      exact h6 (by omega)

/-- After `BTreeInner::insert(sep, right)` published the split of child `pos`, a key that went
to child `pos` goes to child `pos` (the left half) if it is at most `sep`, and to child
`pos + 1` (the new node) otherwise. -/
theorem publish_route {K V : Type} [LinearOrder K] (lo : WithBot K) (hi : WithTop K)
    (count : Nat) (keys : Nat → K) (children : Nat → Node K V)
    (hs : Node.Search lo hi (.inner count keys children)) (pos : Nat) (hpos : pos ≤ count)
    (left right : Node K V) (sep : K)
    (hsep1 : (if pos = 0 then lo else (keys (pos - 1) : WithBot K)) < (sep : WithBot K))
    (hsep2 : (sep : WithTop K) < (if pos = count then hi else (keys pos : WithTop K)))
    (k : K) (hk1 : lo < (k : WithBot K)) (hk2 : (k : WithTop K) ≤ hi)
    (hkpos : lowerBound count keys k = .index pos) :
    ∃ keys1 children1,
      BTreeInner.insert count keys (store children pos left) sep right
        = some (.inner (count + 1) keys1 children1) ∧
      lowerBound count keys sep = .index pos ∧
      lowerBound (count + 1) keys1 k = .index (if k ≤ sep then pos else pos + 1) ∧
      ∀ j, j ≤ count + 1 →
        children1 j = if j < pos then children j else if j = pos then left
          else if j = pos + 1 then right else children (j - 1) := by
  have hs0 := hs
  obtain ⟨hasc, hb, hstale, hch⟩ := hs
  have hlow : ∀ j, j < pos → keys j < sep := by
    intro j hj
    rw [if_neg (by omega), WithBot.coe_lt_coe] at hsep1
    rcases Nat.eq_or_lt_of_le (show j ≤ pos - 1 by omega) with he | hlt
    · rw [he]; exact hsep1
    · exact lt_trans (hasc _ _ hlt (by omega)) hsep1
  have hup : pos < count → sep < keys pos := by
    intro hp
    rw [if_neg (by omega), WithTop.coe_lt_coe] at hsep2
    exact hsep2
  have hlb : lowerBound count keys sep = .index pos := by
    rcases Nat.eq_zero_or_pos count with hc | hc
    · subst hc
      have hp0 : pos = 0 := by omega
      subst hp0
      rw [if_pos rfl] at hsep2
      have := lt_of_lt_of_le hsep2 (hstale rfl)
      rw [WithTop.coe_lt_coe] at this
      rw [lowerBound_zero, if_neg (not_lt_of_lt this)]
    · exact lowerBound_unique count keys sep hasc hc pos hpos hlow (fun hp => le_of_lt (hup hp))
  have hasc1 := ascending_insertAt count keys sep pos (count - pos + 1) hasc hpos (by omega)
    hlow hup
  have hchild := fun j (hj : j ≤ count + 1) =>
    publish_children children pos (count - pos + 1) left right j (by omega) (by omega)
  obtain ⟨i, h1, _, _, _, h5, h6⟩ := route_spec lo hi count keys children hs0 k hk1 hk2
  rw [hkpos] at h1
  injection h1 with h1
  subst h1
  have huniq := lowerBound_unique (count + 1)
    (store (memmoveUp keys pos (count - pos + 1)) pos sep) k hasc1 (by omega)
  refine ⟨store (memmoveUp keys pos (count - pos + 1)) pos sep,
    store (store (store (memmoveUp (store children pos left) pos (count - pos + 1)) pos right) pos
        (store (memmoveUp (store children pos left) pos (count - pos + 1)) pos right (pos + 1)))
      (pos + 1) (store (memmoveUp (store children pos left) pos (count - pos + 1)) pos right pos),
    ?_, hlb, ?_, hchild⟩
  · simp only [BTreeInner.insert, hlb]
  · by_cases hqs : k ≤ sep
    · rw [if_pos hqs]
      apply huniq pos (by omega)
      · intro j hj
        rw [insertAt_lt _ _ _ _ _ hj]
        exact h5 j hj
      · intro _
        rw [insertAt_eq]
        exact hqs
    · rw [if_neg hqs]
      apply huniq (pos + 1) (by omega)
      · intro j hj
        rcases Nat.eq_or_lt_of_le (Nat.le_of_lt_succ hj) with he | hlt
        · rw [he, insertAt_eq]
          exact not_le.1 hqs
        · rw [insertAt_lt _ _ _ _ _ hlt]
          exact h5 j hlt
      · intro hlt
        rw [insertAt_gt _ _ _ _ _ (by omega) (by omega), Nat.add_sub_cancel]
        exact h6 (by omega)

/-! ## Induction over one pass of `insert` -/

/-- Induction over one pass of `BTree::insert(k, v)` on a subtree that satisfies the search
invariant: the six ways in which the pass treats a node, each with what it returns. -/
theorem insertDescend_induct {K V : Type} [LinearOrder K] [Inhabited K] [Inhabited V]
    (cap : Capacity) (hleaf : 2 ≤ cap.leafMax) (hinner : 3 ≤ cap.innerMax) (k : K) (v : V)
    (M : Node K V → Prop)
    (leaf_split : ∀ (count : Nat) (keys : Nat → K) (payloads : Nat → V) (keysR : Nat → K)
      (payloadsR : Nat → V), count = cap.leafMax →
      insertDescend cap k v (.leaf count keys payloads)
        = .split (.leaf (count / 2) keys payloads) (keys (count / 2 - 1))
            (.leaf (count - count / 2) keysR payloadsR) →
      M (.leaf count keys payloads))
    (leaf_insert : ∀ (count : Nat) (keys : Nat → K) (payloads : Nat → V) (count1 : Nat)
      (keys1 : Nat → K) (payloads1 : Nat → V), count ≠ cap.leafMax →
      (count1 = count ∨ count1 = count + 1) →
      insertDescend cap k v (.leaf count keys payloads) = .done (.leaf count1 keys1 payloads1) →
      M (.leaf count keys payloads))
    (inner_split : ∀ (count : Nat) (keys : Nat → K) (children : Nat → Node K V)
      (keysR : Nat → K) (childrenR : Nat → Node K V) (i0 : Nat), count + 1 = cap.innerMax →
      insertDescend cap k v (.inner count keys children)
        = .split (.inner (count / 2 - 1) keys children) (keys (count / 2 - 1))
            (.inner (count - count / 2) keysR childrenR) →
      (∀ j, j ≤ count - count / 2 → childrenR j = children (count / 2 + j)) →
      lowerBound count keys k = .index i0 → i0 ≤ count →
      (k ≤ keys (count / 2 - 1) →
        i0 ≤ count / 2 - 1 ∧ lowerBound (count / 2 - 1) keys k = .index i0) →
      (keys (count / 2 - 1) < k →
        count / 2 ≤ i0 ∧ lowerBound (count - count / 2) keysR k = .index (i0 - count / 2)) →
      M (.inner count keys children))
    (inner_done : ∀ (count : Nat) (keys : Nat → K) (children : Nat → Node K V) (pos : Nat)
      (c : Node K V), count + 1 ≠ cap.innerMax → lowerBound count keys k = .index pos →
      pos ≤ count → M (children pos) → insertDescend cap k v (children pos) = .done c →
      insertDescend cap k v (.inner count keys children)
        = .done (.inner count keys (store children pos c)) →
      M (.inner count keys children))
    (inner_publish : ∀ (count : Nat) (keys : Nat → K) (children : Nat → Node K V) (pos : Nat)
      (left : Node K V) (sep : K) (right : Node K V) (keys1 : Nat → K)
      (children1 : Nat → Node K V), count + 1 ≠ cap.innerMax →
      lowerBound count keys k = .index pos → pos ≤ count → M (children pos) →
      insertDescend cap k v (children pos) = .split left sep right →
      insertDescend cap k v (.inner count keys children)
        = .restart (.inner (count + 1) keys1 children1) →
      (∀ j, j ≤ count + 1 →
        children1 j = if j < pos then children j else if j = pos then left
          else if j = pos + 1 then right else children (j - 1)) →
      lowerBound (count + 1) keys1 k = .index (if k ≤ sep then pos else pos + 1) →
      lowerBound count keys sep = .index pos →
      M (.inner count keys children))
    (inner_restart : ∀ (count : Nat) (keys : Nat → K) (children : Nat → Node K V) (pos : Nat)
      (c : Node K V), count + 1 ≠ cap.innerMax → lowerBound count keys k = .index pos →
      pos ≤ count → M (children pos) → insertDescend cap k v (children pos) = .restart c →
      insertDescend cap k v (.inner count keys children)
        = .restart (.inner count keys (store children pos c)) →
      M (.inner count keys children))
    (n : Node K V) :
    ∀ (lo : WithBot K) (hi : WithTop K), Node.Search lo hi n →
      lo < (k : WithBot K) → (k : WithTop K) ≤ hi → M n := by
  induction n with
  | leaf count keys payloads =>
    intro lo hi hs hk1 hk2
    by_cases hfull : count = cap.leafMax
    · obtain ⟨keys1, payloads1, h1, _⟩ := leaf_split_spec lo hi count keys payloads hs (by omega)
      apply leaf_split count keys payloads keys1 payloads1 hfull
      unfold insertDescend
      rw [if_pos hfull, h1]
    · obtain ⟨count1, keys1, payloads1, h1, _, _, h4, h5⟩ :=
        leaf_insert_spec lo hi count keys payloads k v hs hk1 hk2
      apply leaf_insert count keys payloads count1 keys1 payloads1 hfull
      · by_cases hex : ∃ i, i < count ∧ keys i = k
        · exact Or.inl (h4 hex)
        · refine Or.inr (h5 ?_)
          intro i hi1 hik
          exact hex ⟨i, hi1, hik⟩
      · unfold insertDescend
        rw [if_neg hfull, h1]
  | inner count keys children ih =>
    intro lo hi hs hk1 hk2
    have hspec := insertDescend_spec cap hleaf hinner k v
    by_cases hfull : count + 1 = cap.innerMax
    · obtain ⟨keysR, childrenR, i0, h1, h2, h3, h4, h5, h6⟩ :=
        inner_split_route lo hi count keys children hs (by omega) k hk1 hk2
      apply inner_split count keys children keysR childrenR i0 hfull ?_ h2 h3 h4 h5 h6
      unfold insertDescend
      rw [if_pos hfull, h1]
    · obtain ⟨pos, hp1, hp2, hp3, hp4, _, _⟩ := route_spec lo hi count keys children hs k hk1 hk2
      have hch := hs.2.2.2
      have hM := ih pos _ _ (hch pos hp2) hp3 hp4
      have hrec := hspec (children pos) _ _ (hch pos hp2) hp3 hp4
      cases hd : insertDescend cap k v (children pos) with
      | done c =>
        apply inner_done count keys children pos c hfull hp1 hp2 hM hd
        unfold insertDescend
        rw [if_neg hfull, hp1]
        simp only [hd]
      | split left sep right =>
        rw [hd] at hrec
        obtain ⟨_, _, hsep1, hsep2, _⟩ := hrec
        obtain ⟨keys1, children1, e1, e2, e3, e4⟩ :=
          publish_route lo hi count keys children hs pos hp2 left right sep hsep1 hsep2 k hk1 hk2
            hp1
        apply inner_publish count keys children pos left sep right keys1 children1 hfull hp1 hp2
          hM hd ?_ e4 e3 e2
        unfold insertDescend
        rw [if_neg hfull, hp1]
        simp only [hd, e1]
      | restart c =>
        apply inner_restart count keys children pos c hfull hp1 hp2 hM hd
        unfold insertDescend
        rw [if_neg hfull, hp1]
        simp only [hd]
      | fault =>
        rw [hd] at hrec
        exact absurd hrec id
      | unfinished =>
        rw [hd] at hrec
        exact absurd hrec id

end btree

namespace btree

/-! ## What one pass of `insert` preserves -/

/-- A pass of `insert` keeps all leaves of a subtree at the same depth; after a split both
halves have the depth of the node. -/
theorem insertDescend_balanced {K V : Type} [LinearOrder K] [Inhabited K] [Inhabited V]
    (cap : Capacity) (hleaf : 2 ≤ cap.leafMax) (hinner : 3 ≤ cap.innerMax) (k : K) (v : V)
    (n : Node K V) (lo : WithBot K) (hi : WithTop K) (hs : Node.Search lo hi n)
    (hk1 : lo < (k : WithBot K)) (hk2 : (k : WithTop K) ≤ hi) :
    ∀ h, Node.Balanced n h →
      match insertDescend cap k v n with
      | .done n1 => Node.Balanced n1 h
      | .split left _ right => Node.Balanced left h ∧ Node.Balanced right h
      | .restart n1 => Node.Balanced n1 h
      | .fault => False
      | .unfinished => False := by
  refine insertDescend_induct cap hleaf hinner k v
    (fun n => ∀ h, Node.Balanced n h →
      match insertDescend cap k v n with
      | .done n1 => Node.Balanced n1 h
      | .split left _ right => Node.Balanced left h ∧ Node.Balanced right h
      | .restart n1 => Node.Balanced n1 h
      | .fault => False
      | .unfinished => False) ?_ ?_ ?_ ?_ ?_ ?_ n lo hi hs hk1 hk2
  · intro count keys payloads keysR payloadsR _ heq h hb
    rw [heq]
    exact ⟨hb, hb⟩
  · intro count keys payloads count1 keys1 payloads1 _ _ heq h hb
    rw [heq]
    exact hb
  · intro count keys children keysR childrenR i0 hfull heq hR _ _ _ _ h hb
    rw [heq]
    obtain ⟨h1, e1, e2⟩ := hb
    refine ⟨⟨h1, e1, fun i hi1 => e2 i (by omega)⟩, ⟨h1, e1, fun i hi1 => ?_⟩⟩
    rw [hR i hi1]
    exact e2 _ (by omega)
  · intro count keys children pos c _ _ hpos hM hd heq h hb
    rw [heq]
    obtain ⟨h1, e1, e2⟩ := hb
    have hc := hM h1 (e2 pos hpos)
    rw [hd] at hc
    refine ⟨h1, e1, fun i hi1 => ?_⟩
    by_cases hip : i = pos
    · subst hip
      simp only [store, if_pos]
      exact hc
    · simp only [store, if_neg hip]
      exact e2 i hi1
  · intro count keys children pos left sep right keys1 children1 _ _ hpos hM hd heq hch _ _ h hb
    rw [heq]
    obtain ⟨h1, e1, e2⟩ := hb
    have hc := hM h1 (e2 pos hpos)
    rw [hd] at hc
    refine ⟨h1, e1, fun i hi1 => ?_⟩
    rw [hch i hi1]
    split_ifs
    · exact e2 i (by omega)
    · exact hc.1
    · exact hc.2
    · exact e2 (i - 1) (by omega)
  · intro count keys children pos c _ _ hpos hM hd heq h hb
    rw [heq]
    obtain ⟨h1, e1, e2⟩ := hb
    have hc := hM h1 (e2 pos hpos)
    rw [hd] at hc
    refine ⟨h1, e1, fun i hi1 => ?_⟩
    by_cases hip : i = pos
    · subst hip
      simp only [store, if_pos]
      exact hc
    · simp only [store, if_neg hip]
      exact e2 i hi1

/-- A pass of `insert` keeps the counts of a subtree within the capacity of the nodes, and
above `low` for `low ≤ 1` and `low + 1 ≤ (maxEntries - 1) / 2`. -/
theorem insertDescend_bounded {K V : Type} [LinearOrder K] [Inhabited K] [Inhabited V]
    (cap : Capacity) (hleaf : 2 ≤ cap.leafMax) (hinner : 3 ≤ cap.innerMax) (low : Nat)
    (hlow : low + 1 ≤ (cap.innerMax - 1) / 2) (k : K) (v : V)
    (n : Node K V) (lo : WithBot K) (hi : WithTop K) (hs : Node.Search lo hi n)
    (hk1 : lo < (k : WithBot K)) (hk2 : (k : WithTop K) ≤ hi) :
    Node.Bounded cap low n →
      match insertDescend cap k v n with
      | .done n1 => Node.Bounded cap low n1
      | .split left _ right => Node.Bounded cap low left ∧ Node.Bounded cap low right
      | .restart n1 => Node.Bounded cap low n1
      | .fault => False
      | .unfinished => False := by
  refine insertDescend_induct cap hleaf hinner k v
    (fun n => Node.Bounded cap low n →
      match insertDescend cap k v n with
      | .done n1 => Node.Bounded cap low n1
      | .split left _ right => Node.Bounded cap low left ∧ Node.Bounded cap low right
      | .restart n1 => Node.Bounded cap low n1
      | .fault => False
      | .unfinished => False) ?_ ?_ ?_ ?_ ?_ ?_ n lo hi hs hk1 hk2
  · intro count keys payloads keysR payloadsR _ heq hb
    rw [heq]
    simp only [Node.Bounded] at hb ⊢
    omega
  · intro count keys payloads count1 keys1 payloads1 hfull hc1 heq hb
    rw [heq]
    simp only [Node.Bounded] at hb ⊢
    omega
  · intro count keys children keysR childrenR i0 hfull heq hR _ _ _ _ hb
    rw [heq]
    obtain ⟨e0, e1, e2⟩ := hb
    have hc : count = cap.innerMax - 1 := by omega
    rw [← hc] at hlow
    refine ⟨⟨by omega, by omega, fun i hi1 => e2 i (by omega)⟩,
      ⟨by omega, by omega, fun i hi1 => ?_⟩⟩
    rw [hR i hi1]
    exact e2 _ (by omega)
  · intro count keys children pos c _ _ hpos hM hd heq hb
    rw [heq]
    obtain ⟨e0, e1, e2⟩ := hb
    have hc := hM (e2 pos hpos)
    rw [hd] at hc
    refine ⟨e0, e1, fun i hi1 => ?_⟩
    by_cases hip : i = pos
    · subst hip
      simp only [store, if_pos]
      exact hc
    · simp only [store, if_neg hip]
      exact e2 i hi1
  · intro count keys children pos left sep right keys1 children1 hfull _ hpos hM hd heq hch _ _ hb
    rw [heq]
    obtain ⟨e0, e1, e2⟩ := hb
    have hc := hM (e2 pos hpos)
    rw [hd] at hc
    refine ⟨by omega, by omega, fun i hi1 => ?_⟩
    rw [hch i hi1]
    split_ifs
    · exact e2 i (by omega)
    · exact hc.1
    · exact hc.2
    · exact e2 (i - 1) (by omega)
  · intro count keys children pos c _ _ hpos hM hd heq hb
    rw [heq]
    obtain ⟨e0, e1, e2⟩ := hb
    have hc := hM (e2 pos hpos)
    rw [hd] at hc
    refine ⟨e0, e1, fun i hi1 => ?_⟩
    by_cases hip : i = pos
    · subst hip
      simp only [store, if_pos]
      exact hc
    · simp only [store, if_neg hip]
      exact e2 i hi1

theorem roomy_fits {K V : Type} [LinearOrder K] (cap : Capacity) (k : K) (n : Node K V) :
    Node.Roomy cap n → Node.Fits cap k n := by
  induction n with
  | leaf count keys payloads => exact fun h => h
  | inner count keys children ih =>
    intro h
    exact ⟨by have := h.1; omega, fun i hi1 => ⟨fun _ => ih i (h.2 i hi1), fun _ => h.2 i hi1⟩⟩

/-- A pass of `insert(k, ·)` on a subtree whose full inner nodes are all on the path of `k`:
a pass that reaches the leaf met none, and leaves none; after a split, the half on the side
of `k` has its full inner nodes on the path of `k` and the other half has none. -/
theorem insertDescend_fits {K V : Type} [LinearOrder K] [Inhabited K] [Inhabited V]
    (cap : Capacity) (hleaf : 2 ≤ cap.leafMax) (hinner : 3 ≤ cap.innerMax) (k : K) (v : V)
    (n : Node K V) (lo : WithBot K) (hi : WithTop K) (hs : Node.Search lo hi n)
    (hk1 : lo < (k : WithBot K)) (hk2 : (k : WithTop K) ≤ hi) :
    Node.Fits cap k n →
      match insertDescend cap k v n with
      | .done n1 => Node.Roomy cap n1
      | .split left sep right =>
        (k ≤ sep → Node.Fits cap k left ∧ Node.Roomy cap right) ∧
        (sep < k → Node.Roomy cap left ∧ Node.Fits cap k right)
      | .restart n1 => Node.Fits cap k n1
      | .fault => False
      | .unfinished => False := by
  refine insertDescend_induct cap hleaf hinner k v
    (fun n => Node.Fits cap k n →
      match insertDescend cap k v n with
      | .done n1 => Node.Roomy cap n1
      | .split left sep right =>
        (k ≤ sep → Node.Fits cap k left ∧ Node.Roomy cap right) ∧
        (sep < k → Node.Roomy cap left ∧ Node.Fits cap k right)
      | .restart n1 => Node.Fits cap k n1
      | .fault => False
      | .unfinished => False) ?_ ?_ ?_ ?_ ?_ ?_ n lo hi hs hk1 hk2
  · intro count keys payloads keysR payloadsR _ heq hb
    rw [heq]
    simp only [Node.Fits, Node.Roomy] at hb ⊢
    exact ⟨fun _ => ⟨by omega, by omega⟩, fun _ => ⟨by omega, by omega⟩⟩
  · intro count keys payloads count1 keys1 payloads1 hfull hc1 heq hb
    rw [heq]
    simp only [Node.Fits, Node.Roomy] at hb ⊢
    omega
  · intro count keys children keysR childrenR i0 hfull heq hR hi0 hi0c hL hRt hb
    rw [heq]
    obtain ⟨e1, e2⟩ := hb
    have hother : ∀ i, i ≤ count → i ≠ i0 → Node.Roomy cap (children i) := by
      intro i hi1 hne
      apply (e2 i hi1).2
      rw [hi0]
      intro hcon
      injection hcon with hcon
      exact hne hcon.symm
    have hpath : Node.Fits cap k (children i0) := (e2 i0 hi0c).1 hi0
    constructor
    · intro hks
      obtain ⟨h1, h2⟩ := hL hks
      refine ⟨⟨by omega, fun i hi1 => ⟨fun hlb => ?_, fun hlb => ?_⟩⟩,
        ⟨by omega, fun i hi1 => ?_⟩⟩
      · rw [h2] at hlb
        injection hlb with hlb
        rw [← hlb]
        exact hpath
      · apply hother i (by omega)
        intro hcon
        rw [hcon] at hlb
        exact hlb h2
      · rw [hR i hi1]
        exact hother _ (by omega) (by omega)
    · intro hks
      obtain ⟨h1, h2⟩ := hRt hks
      refine ⟨⟨by omega, fun i hi1 => hother i (by omega) (by omega)⟩,
        ⟨by omega, fun i hi1 => ⟨fun hlb => ?_, fun hlb => ?_⟩⟩⟩
      · rw [h2] at hlb
        injection hlb with hlb
        rw [hR i hi1, ← hlb, show count / 2 + (i0 - count / 2) = i0 by omega]
        exact hpath
      · rw [hR i hi1]
        apply hother _ (by omega)
        intro hcon
        apply hlb
        rw [h2]
        congr 1
        omega
  · intro count keys children pos c hfull hlb hpos hM hd heq hb
    rw [heq]
    obtain ⟨e1, e2⟩ := hb
    have hc := hM ((e2 pos hpos).1 hlb)
    rw [hd] at hc
    refine ⟨by omega, fun i hi1 => ?_⟩
    by_cases hip : i = pos
    · subst hip
      simp only [store, if_pos]
      exact hc
    · simp only [store, if_neg hip]
      apply (e2 i hi1).2
      rw [hlb]
      intro hcon
      injection hcon with hcon
      exact hip hcon.symm
  · intro count keys children pos left sep right keys1 children1 hfull hlb hpos hM hd heq hch
      hroute _ hb
    rw [heq]
    obtain ⟨e1, e2⟩ := hb
    have hc := hM ((e2 pos hpos).1 hlb)
    rw [hd] at hc
    have hother : ∀ i, i ≤ count → i ≠ pos → Node.Roomy cap (children i) := by
      intro i hi1 hne
      apply (e2 i hi1).2
      rw [hlb]
      intro hcon
      injection hcon with hcon
      exact hne hcon.symm
    refine ⟨by omega, fun i hi1 => ⟨fun hlb1 => ?_, fun hlb1 => ?_⟩⟩
    · rw [hroute] at hlb1
      injection hlb1 with hlb1
      rw [hch i hi1]
      by_cases hks : k ≤ sep
      · rw [if_pos hks] at hlb1
        rw [if_neg (by omega), if_pos hlb1.symm]
        exact (hc.1 hks).1
      · rw [if_neg hks] at hlb1
        rw [if_neg (by omega), if_neg (by omega), if_pos hlb1.symm]
        exact (hc.2 (not_le.1 hks)).2
    · rw [hroute] at hlb1
      rw [hch i hi1]
      split_ifs with h1 h2 h3
      · exact hother i (by omega) (by omega)
      · by_cases hks : k ≤ sep
        · rw [if_pos hks, h2] at hlb1
          exact absurd rfl hlb1
        · exact (hc.2 (not_le.1 hks)).1
      · by_cases hks : k ≤ sep
        · exact (hc.1 hks).2
        · rw [if_neg hks, h3] at hlb1
          exact absurd rfl hlb1
      · exact hother (i - 1) (by omega) (by omega)
  · intro count keys children pos c hfull hlb hpos hM hd heq hb
    rw [heq]
    obtain ⟨e1, e2⟩ := hb
    have hc := hM ((e2 pos hpos).1 hlb)
    rw [hd] at hc
    refine ⟨e1, fun i hi1 => ?_⟩
    by_cases hip : i = pos
    · subst hip
      simp only [store, if_pos]
      exact ⟨fun _ => hc, fun hne => absurd hlb hne⟩
    · simp only [store, if_neg hip]
      exact e2 i hi1

/-- A pass of `insert` that reaches `leaf->insert` called no `split`; a pass that throws
called `split` exactly once. -/
theorem insertDescend_splits {K V : Type} [LinearOrder K] [Inhabited K] [Inhabited V]
    (cap : Capacity) (hleaf : 2 ≤ cap.leafMax) (hinner : 3 ≤ cap.innerMax) (k : K) (v : V)
    (n : Node K V) (lo : WithBot K) (hi : WithTop K) (hs : Node.Search lo hi n)
    (hk1 : lo < (k : WithBot K)) (hk2 : (k : WithTop K) ≤ hi) :
    match insertDescend cap k v n with
    | .done _ => insertSplits cap k n = 0
    | .split _ _ _ => insertSplits cap k n = 1
    | .restart _ => insertSplits cap k n = 1
    | .fault => False
    | .unfinished => False := by
  refine insertDescend_induct cap hleaf hinner k v
    (fun n =>
      match insertDescend cap k v n with
      | .done _ => insertSplits cap k n = 0
      | .split _ _ _ => insertSplits cap k n = 1
      | .restart _ => insertSplits cap k n = 1
      | .fault => False
      | .unfinished => False) ?_ ?_ ?_ ?_ ?_ ?_ n lo hi hs hk1 hk2
  · intro count keys payloads keysR payloadsR hfull heq
    rw [heq]
    simp [insertSplits, hfull]
  · intro count keys payloads count1 keys1 payloads1 hfull _ heq
    rw [heq]
    simp [insertSplits, hfull]
  · intro count keys children keysR childrenR i0 hfull heq _ _ _ _ _
    rw [heq]
    simp [insertSplits, hfull]
  · intro count keys children pos c hfull hlb _ hM hd heq
    rw [heq]
    rw [hd] at hM
    simp only [insertSplits, if_neg hfull, hlb]
    exact hM
  · intro count keys children pos left sep right keys1 children1 hfull hlb _ hM hd heq _ _ _
    rw [heq]
    rw [hd] at hM
    simp only [insertSplits, if_neg hfull, hlb]
    exact hM
  · intro count keys children pos c hfull hlb _ hM hd heq
    rw [heq]
    rw [hd] at hM
    simp only [insertSplits, if_neg hfull, hlb]
    exact hM

end btree

namespace btree

/-! ## The array accesses of one pass -/

theorem mem_memmoveSlots (pos n m : Nat) (h : m ∈ memmoveSlots pos n) : m ≤ pos + n := by
  simp only [memmoveSlots, List.mem_append, List.mem_map, List.mem_range] at h
  rcases h with ⟨j, hj, rfl⟩ | ⟨j, hj, rfl⟩ <;> omega

theorem mem_memcpySlots (start n m : Nat) (h : m ∈ memcpySlots start n) : m < start + n := by
  simp only [memcpySlots, List.mem_append, List.mem_map, List.mem_range] at h
  rcases h with ⟨j, hj, rfl⟩ | h <;> omega

theorem leaf_insertSlots_lt {K : Type} [LinearOrder K] (count : Nat) (keys : Nat → K) (k : K)
    (m : Nat) (h : m ∈ BTreeLeaf.insertSlots count keys k) : m ≤ count := by
  unfold BTreeLeaf.insertSlots at h
  by_cases hc : count = 0
  · rw [if_neg (not_not.2 hc)] at h
    simp only [List.mem_singleton] at h
    omega
  · rw [if_pos hc] at h
    obtain ⟨i, e1, e2, e3⟩ := lowerBound_in_range count keys k
    have hmax : max count 1 = count := by
      rw [max_eq_left]
      omega
    rw [hmax] at e2 e3
    rw [e1] at h
    simp only [List.mem_append] at h
    rcases h with h | h | h
    · exact le_of_lt (e3 m h)
    · split_ifs at h
      · simp only [List.mem_singleton] at h
        omega
      · simp at h
    · split_ifs at h
      · simp only [List.mem_singleton] at h
        omega
      · simp only [List.mem_append, List.mem_singleton] at h
        rcases h with h | h
        · have := mem_memmoveSlots _ _ _ h
          omega
        · omega

theorem inner_insertSlots_lt {K : Type} [LinearOrder K] (count : Nat) (keys : Nat → K) (k : K)
    (pos : Nat) (hlb : lowerBound count keys k = .index pos) (hpos : pos ≤ count)
    (m : Nat) (h : m ∈ BTreeInner.insertSlots count keys k) : m ≤ count + 1 := by
  unfold BTreeInner.insertSlots at h
  obtain ⟨i, e1, e2, e3⟩ := lowerBound_in_range count keys k
  rw [hlb] at h
  simp only [List.mem_append, List.mem_cons, List.mem_singleton, List.not_mem_nil, or_false] at h
  rcases h with h | h | h | h
  · have := e3 m h
    have : max count 1 ≤ count + 1 := max_le (by omega) (by omega)
    omega
  · have := mem_memmoveSlots _ _ _ h
    omega
  · omega
  · omega

/-- Every array access of a pass of `insert` on a subtree whose counts are within the capacity
of the nodes has an index below `maxEntries`. -/
theorem insertDescend_slots {K V : Type} [LinearOrder K] [Inhabited K] [Inhabited V]
    (cap : Capacity) (hleaf : 2 ≤ cap.leafMax) (hinner : 3 ≤ cap.innerMax) (k : K) (v : V)
    (n : Node K V) (lo : WithBot K) (hi : WithTop K) (hs : Node.Search lo hi n)
    (hk1 : lo < (k : WithBot K)) (hk2 : (k : WithTop K) ≤ hi) :
    Node.Bounded cap 0 n → ∀ x, x ∈ insertDescendSlots cap k v n → x.2 < x.1 := by
  have hreads : ∀ (count : Nat) (keys : Nat → K) (q : K) (m : Nat), count + 1 ≤ cap.innerMax →
      m ∈ lowerBoundReads keys q (count + 1) 0 count → m < cap.innerMax := by
    intro count keys q m hc hm
    obtain ⟨i, _, _, e3⟩ := lowerBound_in_range count keys q
    have := e3 m hm
    have : max count 1 ≤ count + 1 := max_le (by omega) (by omega)
    omega
  refine insertDescend_induct cap hleaf hinner k v
    (fun n => Node.Bounded cap 0 n → ∀ x, x ∈ insertDescendSlots cap k v n → x.2 < x.1)
    ?_ ?_ ?_ ?_ ?_ ?_ n lo hi hs hk1 hk2
  · intro count keys payloads keysR payloadsR hfull _ _ x hx
    simp only [insertDescendSlots, if_pos hfull, List.mem_map] at hx
    obtain ⟨m, hm, rfl⟩ := hx
    simp only [BTreeLeaf.splitSlots, List.mem_append, List.mem_singleton] at hm
    simp only
    rcases hm with hm | hm
    · have := mem_memcpySlots _ _ _ hm
      omega
    · omega
  · intro count keys payloads count1 keys1 payloads1 hfull _ _ hb x hx
    simp only [insertDescendSlots, if_neg hfull, List.mem_map] at hx
    obtain ⟨m, hm, rfl⟩ := hx
    have := leaf_insertSlots_lt count keys k m hm
    simp only [Node.Bounded] at hb
    simp only
    omega
  · intro count keys children keysR childrenR i0 hfull _ _ _ _ _ _ _ x hx
    unfold insertDescendSlots at hx
    rw [if_pos hfull] at hx
    simp only [List.mem_map] at hx
    obtain ⟨m, hm, rfl⟩ := hx
    simp only [BTreeInner.splitSlots, List.mem_cons] at hm
    simp only
    rcases hm with hm | hm
    · omega
    · have := mem_memcpySlots _ _ _ hm
      omega
  · intro count keys children pos c hfull hlb hpos hM hd _ hb x hx
    obtain ⟨_, e1, e2⟩ := hb
    unfold insertDescendSlots at hx
    rw [if_neg hfull, hlb] at hx
    simp only [hd, List.mem_append, List.mem_map, List.mem_cons, List.append_nil] at hx
    rcases hx with ⟨m, hm, rfl⟩ | rfl | hx
    · exact hreads count keys k m e1 hm
    · simp only
      omega
    · exact hM (e2 pos hpos) x hx
  · intro count keys children pos left sep right keys1 children1 hfull hlb hpos hM hd _ _ _ hsep
      hb x hx
    obtain ⟨_, e1, e2⟩ := hb
    unfold insertDescendSlots at hx
    rw [if_neg hfull, hlb] at hx
    simp only [hd, List.mem_append, List.mem_map, List.mem_cons] at hx
    rcases hx with ⟨m, hm, rfl⟩ | (rfl | hx) | ⟨m, hm, rfl⟩
    · exact hreads count keys k m e1 hm
    · simp only
      omega
    · exact hM (e2 pos hpos) x hx
    · have := inner_insertSlots_lt count keys sep pos hsep hpos m hm
      simp only
      omega
  · intro count keys children pos c hfull hlb hpos hM hd _ hb x hx
    obtain ⟨_, e1, e2⟩ := hb
    unfold insertDescendSlots at hx
    rw [if_neg hfull, hlb] at hx
    simp only [hd, List.mem_append, List.mem_map, List.mem_cons, List.append_nil] at hx
    rcases hx with ⟨m, hm, rfl⟩ | rfl | hx
    · exact hreads count keys k m e1 hm
    · simp only
      omega
    · exact hM (e2 pos hpos) x hx

end btree

namespace btree

/-! ## Height, capacity and restarts of a call of `insert` -/

theorem balanced_height {K V : Type} (n : Node K V) :
    ∀ h, Node.Balanced n h → Node.height n = h := by
  induction n with
  | leaf count keys payloads => intro h hb; exact hb.symm
  | inner count keys children ih =>
    intro h hb
    obtain ⟨h1, e1, e2⟩ := hb
    simp only [Node.height]
    rw [ih 0 h1 (e2 0 (Nat.zero_le _)), e1]

theorem makeRoot_children {K V : Type} [Inhabited K] [Inhabited V] (sep : K)
    (left right : Node K V) :
    ∃ keysN childrenN, makeRoot sep left right = .inner 1 keysN childrenN ∧ keysN 0 = sep ∧
      childrenN 0 = left ∧ childrenN 1 = right :=
  ⟨_, _, rfl, rfl, rfl, rfl⟩

theorem makeRoot_balanced {K V : Type} [Inhabited K] [Inhabited V] (sep : K)
    (left right : Node K V) (h : Nat) (hl : Node.Balanced left h) (hr : Node.Balanced right h) :
    Node.Balanced (makeRoot sep left right) (h + 1) := by
  refine ⟨h, rfl, fun i hi1 => ?_⟩
  rcases Nat.eq_or_lt_of_le hi1 with he | hlt
  · subst he
    exact hr
  · have : i = 0 := by omega
    subst this
    exact hl

theorem makeRoot_bounded {K V : Type} [Inhabited K] [Inhabited V] (cap : Capacity)
    (hinner : 3 ≤ cap.innerMax) (low : Nat) (hlow : low ≤ 1) (sep : K) (left right : Node K V)
    (hl : Node.Bounded cap low left) (hr : Node.Bounded cap low right) :
    Node.Bounded cap low (makeRoot sep left right) := by
  refine ⟨hlow, by omega, fun i hi1 => ?_⟩
  rcases Nat.eq_or_lt_of_le hi1 with he | hlt
  · subst he
    exact hr
  · have : i = 0 := by omega
    subst this
    exact hl

theorem makeRoot_fits {K V : Type} [LinearOrder K] [Inhabited K] [Inhabited V] (cap : Capacity)
    (hinner : 3 ≤ cap.innerMax) (k sep : K) (left right : Node K V)
    (h1 : k ≤ sep → Node.Fits cap k left ∧ Node.Roomy cap right)
    (h2 : sep < k → Node.Roomy cap left ∧ Node.Fits cap k right) :
    Node.Fits cap k (makeRoot sep left right) := by
  have hroute := makeRoot_route sep k
  refine ⟨by omega, fun i hi1 => ⟨fun hlb => ?_, fun hlb => ?_⟩⟩
  · rw [show lowerBound 1 (store (fun _ => (default : K)) 0 sep) k = .index i from hlb] at hroute
    injection hroute with hroute
    by_cases hks : k ≤ sep
    · rw [if_pos hks] at hroute
      subst hroute
      exact (h1 hks).1
    · rw [if_neg hks] at hroute
      subst hroute
      exact (h2 (not_le.1 hks)).2
  · have hne : (if k ≤ sep then 0 else 1) ≠ i := by
      intro hcon
      apply hlb
      rw [← hcon]
      exact hroute
    by_cases hks : k ≤ sep
    · rw [if_pos hks] at hne
      have : i = 1 := by omega
      subst this
      exact (h1 hks).2
    · rw [if_neg hks] at hne
      have : i = 0 := by omega
      subst this
      exact (h2 (not_le.1 hks)).1

/-- Induction over the passes of a call of `insert`. -/
theorem passes_induct {K V : Type} [LinearOrder K] [Inhabited K] [Inhabited V] (cap : Capacity)
    (hleaf : 2 ≤ cap.leafMax) (hinner : 3 ≤ cap.innerMax) (k : K) (v : V)
    (P : Node K V → Prop)
    (hstep : ∀ n : Node K V, Node.Search ⊥ ⊤ n → P n →
      match insertDescend cap k v n with
      | .done n1 => P n1
      | .split left sep right => P (makeRoot sep left right)
      | .restart n1 => P n1
      | .fault => True
      | .unfinished => True) :
    ∀ (m : Nat) (t : BTree K V), Node.Search ⊥ ⊤ t.root → P t.root →
      P (BTree.passes cap k v m t).root := by
  intro m
  induction m with
  | zero => intro t _ hp; exact hp
  | succ m ih =>
    intro t hs hp
    have hspec := insertDescend_spec cap hleaf hinner k v t.root ⊥ ⊤ hs (WithBot.bot_lt_coe _)
      le_top
    have h1 := hstep t.root hs hp
    unfold BTree.passes
    cases hd : insertDescend cap k v t.root with
    | done r =>
      rw [hd] at h1
      exact h1
    | split left sep right =>
      rw [hd] at hspec h1
      exact ih _ (makeRoot_spec sep left right hspec.1 hspec.2.1).1 h1
    | restart r =>
      rw [hd] at hspec h1
      exact ih _ hspec.1 h1
    | fault => exact hp
    | unfinished => exact hp

/-- Induction over the calls of `insert` that made a tree. -/
theorem reachable_induct {K V : Type} [LinearOrder K] [Inhabited K] [Inhabited V]
    (cap : Capacity) (hleaf : 2 ≤ cap.leafMax) (hinner : 3 ≤ cap.innerMax)
    (P : Node K V → Prop) (hnew : P (BTree.new K V).root)
    (hins : ∀ (k : K) (v : V) (fuel : Nat) (t t1 : BTree K V), Node.Search ⊥ ⊤ t.root →
      P t.root → BTree.insert cap fuel t k v = some t1 → P t1.root)
    (t : BTree K V) (h : Reachable cap t) : P t.root := by
  induction h with
  | new => exact hnew
  | insert fuel k v hr hi ih =>
    exact hins k v fuel _ _ (reachable_search cap hleaf hinner _ hr) ih hi

/-- A call of `insert` that returns is a sequence of passes: the tree it returns is the tree
after the passes. -/
theorem insert_eq_passes {K V : Type} [LinearOrder K] [Inhabited K] [Inhabited V]
    (cap : Capacity) (k : K) (v : V) :
    ∀ (fuel : Nat) (t t1 : BTree K V), BTree.insert cap fuel t k v = some t1 →
      BTree.passes cap k v fuel t = t1 := by
  intro fuel
  induction fuel with
  | zero => intro t t1 h; simp [BTree.insert] at h
  | succ fuel ih =>
    intro t t1 h
    unfold BTree.insert at h
    unfold BTree.passes
    cases hd : insertDescend cap k v t.root with
    | done n =>
      rw [hd] at h
      simp only [Option.some.injEq] at h
      exact h
    | split left sep right =>
      rw [hd] at h
      exact ih _ _ h
    | restart n =>
      rw [hd] at h
      exact ih _ _ h
    | fault => rw [hd] at h; simp at h
    | unfinished => rw [hd] at h; simp at h

/-- Every pass leaves all leaves at one depth. -/
theorem passes_balanced {K V : Type} [LinearOrder K] [Inhabited K] [Inhabited V] (cap : Capacity)
    (hleaf : 2 ≤ cap.leafMax) (hinner : 3 ≤ cap.innerMax) (k : K) (v : V) (m : Nat)
    (t : BTree K V) (hs : Node.Search ⊥ ⊤ t.root) (hb : ∃ h, Node.Balanced t.root h) :
    ∃ h, Node.Balanced (BTree.passes cap k v m t).root h := by
  refine passes_induct cap hleaf hinner k v (fun n => ∃ h, Node.Balanced n h) ?_ m t hs hb
  intro n hs1 hb1
  obtain ⟨h, hb1⟩ := hb1
  have h1 := insertDescend_balanced cap hleaf hinner k v n ⊥ ⊤ hs1 (WithBot.bot_lt_coe _) le_top
    h hb1
  cases hd : insertDescend cap k v n with
  | done n1 => rw [hd] at h1; exact ⟨h, h1⟩
  | split left sep right =>
    rw [hd] at h1
    exact ⟨h + 1, makeRoot_balanced sep left right h h1.1 h1.2⟩
  | restart n1 => rw [hd] at h1; exact ⟨h, h1⟩
  | fault => trivial
  | unfinished => trivial

theorem reachable_balanced {K V : Type} [LinearOrder K] [Inhabited K] [Inhabited V]
    (cap : Capacity) (hleaf : 2 ≤ cap.leafMax) (hinner : 3 ≤ cap.innerMax) (t : BTree K V)
    (h : Reachable cap t) : ∃ h, Node.Balanced t.root h := by
  refine reachable_induct cap hleaf hinner (fun n => ∃ h, Node.Balanced n h) ⟨0, rfl⟩ ?_ t h
  intro k v fuel t t1 hs hb hi
  rw [← insert_eq_passes cap k v fuel t t1 hi]
  exact passes_balanced cap hleaf hinner k v fuel t hs hb

/-- Every pass keeps the counts within the capacity of the nodes. -/
theorem passes_bounded {K V : Type} [LinearOrder K] [Inhabited K] [Inhabited V] (cap : Capacity)
    (hleaf : 2 ≤ cap.leafMax) (hinner : 3 ≤ cap.innerMax) (low : Nat) (hlow1 : low ≤ 1)
    (hlow : low + 1 ≤ (cap.innerMax - 1) / 2) (k : K) (v : V) (m : Nat)
    (t : BTree K V) (hs : Node.Search ⊥ ⊤ t.root) (hb : Node.Bounded cap low t.root) :
    Node.Bounded cap low (BTree.passes cap k v m t).root := by
  refine passes_induct cap hleaf hinner k v (fun n => Node.Bounded cap low n) ?_ m t hs hb
  intro n hs1 hb1
  have h1 := insertDescend_bounded cap hleaf hinner low hlow k v n ⊥ ⊤ hs1
    (WithBot.bot_lt_coe _) le_top hb1
  cases hd : insertDescend cap k v n with
  | done n1 => rw [hd] at h1; exact h1
  | split left sep right =>
    rw [hd] at h1
    exact makeRoot_bounded cap hinner low hlow1 sep left right h1.1 h1.2
  | restart n1 => rw [hd] at h1; exact h1
  | fault => trivial
  | unfinished => trivial

theorem reachable_bounded {K V : Type} [LinearOrder K] [Inhabited K] [Inhabited V]
    (cap : Capacity) (hleaf : 2 ≤ cap.leafMax) (hinner : 3 ≤ cap.innerMax) (low : Nat)
    (hlow1 : low ≤ 1) (hlow : low + 1 ≤ (cap.innerMax - 1) / 2) (t : BTree K V)
    (h : Reachable cap t) : Node.Bounded cap low t.root := by
  refine reachable_induct cap hleaf hinner (fun n => Node.Bounded cap low n)
    (Nat.zero_le _) ?_ t h
  intro k v fuel t t1 hs hb hi
  rw [← insert_eq_passes cap k v fuel t t1 hi]
  exact passes_bounded cap hleaf hinner low hlow1 hlow k v fuel t hs hb

/-- After a call of `insert` that returned, no inner node is full. -/
theorem insert_roomy {K V : Type} [LinearOrder K] [Inhabited K] [Inhabited V] (cap : Capacity)
    (hleaf : 2 ≤ cap.leafMax) (hinner : 3 ≤ cap.innerMax) (k : K) (v : V) :
    ∀ (fuel : Nat) (t t1 : BTree K V), Node.Search ⊥ ⊤ t.root → Node.Fits cap k t.root →
      BTree.insert cap fuel t k v = some t1 → Node.Roomy cap t1.root := by
  intro fuel
  induction fuel with
  | zero => intro t t1 _ _ h; simp [BTree.insert] at h
  | succ fuel ih =>
    intro t t1 hs hf h
    have hspec := insertDescend_spec cap hleaf hinner k v t.root ⊥ ⊤ hs (WithBot.bot_lt_coe _)
      le_top
    have hfits := insertDescend_fits cap hleaf hinner k v t.root ⊥ ⊤ hs (WithBot.bot_lt_coe _)
      le_top hf
    unfold BTree.insert at h
    cases hd : insertDescend cap k v t.root with
    | done n =>
      rw [hd] at h hfits
      simp only [Option.some.injEq] at h
      subst h
      exact hfits
    | split left sep right =>
      rw [hd] at h hspec hfits
      exact ih _ t1 (makeRoot_spec sep left right hspec.1 hspec.2.1).1
        (makeRoot_fits cap hinner k sep left right hfits.1 hfits.2) h
    | restart n =>
      rw [hd] at h hspec hfits
      exact ih _ t1 hspec.1 hfits h
    | fault => rw [hd] at h; simp at h
    | unfinished => rw [hd] at h; simp at h

/-- In a tree made by calls of `insert` no inner node is full. -/
theorem reachable_roomy {K V : Type} [LinearOrder K] [Inhabited K] [Inhabited V]
    (cap : Capacity) (hleaf : 2 ≤ cap.leafMax) (hinner : 3 ≤ cap.innerMax) (t : BTree K V)
    (h : Reachable cap t) : Node.Roomy cap t.root := by
  refine reachable_induct cap hleaf hinner (fun n => Node.Roomy cap n) (Nat.zero_le _) ?_ t h
  intro k v fuel t t1 hs hb hi
  exact insert_roomy cap hleaf hinner k v fuel t t1 hs (roomy_fits cap k _ hb) hi

/-- In a subtree without a full inner node, only the leaf of a path can be full. -/
theorem roomy_path {K V : Type} [LinearOrder K] (cap : Capacity) (k : K) (n : Node K V) :
    ∀ (lo : WithBot K) (hi : WithTop K) (h : Nat), Node.Search lo hi n →
      lo < (k : WithBot K) → (k : WithTop K) ≤ hi → Node.Roomy cap n → Node.Balanced n h →
      ∃ b, fullPath cap k n = List.replicate h false ++ [b] := by
  induction n with
  | leaf count keys payloads =>
    intro lo hi h _ _ _ _ hb
    rw [show h = 0 from hb]
    exact ⟨_, rfl⟩
  | inner count keys children ih =>
    intro lo hi h hs hk1 hk2 hr hb
    obtain ⟨pos, hp1, hp2, hp3, hp4, _, _⟩ := route_spec lo hi count keys children hs k hk1 hk2
    obtain ⟨h1, e1, e2⟩ := hb
    obtain ⟨b, hb1⟩ := ih pos _ _ h1 (hs.2.2.2 pos hp2) hp3 hp4 (hr.2 pos hp2) (e2 pos hp2)
    refine ⟨b, ?_⟩
    rw [fullPath_inner cap k _ _ _ pos hp1, hb1, e1, List.replicate_succ]
    have : decide (count + 1 = cap.innerMax) = false := by
      simp only [decide_eq_false_iff_not]
      have := hr.1
      omega
    rw [this]
    rfl

/-- The restarts and the splits of the root in a call of `insert` that returns. -/
theorem insert_counts {K V : Type} [LinearOrder K] [Inhabited K] [Inhabited V] (cap : Capacity)
    (hleaf : 2 ≤ cap.leafMax) (hinner : 3 ≤ cap.innerMax) (k : K) (v : V) :
    ∀ (fuel : Nat) (t t1 : BTree K V) (h : Nat), Node.Search ⊥ ⊤ t.root →
      Node.Balanced t.root h → t.restarts_counter < 2 ^ 64 →
      BTree.insert cap fuel t k v = some t1 →
      Node.Balanced t1.root (h + BTree.rootSplits cap fuel t k v) ∧
      BTree.rootSplits cap fuel t k v ≤ (fullPath cap k t.root).count true ∧
      BTree.restarts cap fuel t k v ≤ restartBound (fullPath cap k t.root) ∧
      BTree.restarts cap fuel t k v < fuel ∧
      t1.restarts_counter = (t.restarts_counter + BTree.restarts cap fuel t k v) % 2 ^ 64 := by
  intro fuel
  induction fuel with
  | zero => intro t t1 _ _ _ _ h; simp [BTree.insert] at h
  | succ fuel ih =>
    intro t t1 h hs hb hcnt hi
    have hspec := insertDescend_spec cap hleaf hinner k v t.root ⊥ ⊤ hs (WithBot.bot_lt_coe _)
      le_top
    have hpath := insertDescend_path cap hleaf hinner k v t.root ⊥ ⊤ hs (WithBot.bot_lt_coe _)
      le_top
    have hbal := insertDescend_balanced cap hleaf hinner k v t.root ⊥ ⊤ hs
      (WithBot.bot_lt_coe _) le_top h hb
    have hmod : (t.restarts_counter + 1) % 2 ^ 64 < 2 ^ 64 := Nat.mod_lt _ (by norm_num)
    unfold BTree.insert at hi
    unfold BTree.rootSplits BTree.restarts
    cases hd : insertDescend cap k v t.root with
    | done n =>
      rw [hd] at hi hbal
      simp only [Option.some.injEq] at hi
      subst hi
      simp only [Nat.add_zero]
      exact ⟨hbal, Nat.zero_le _, Nat.zero_le _, Nat.succ_pos _, (Nat.mod_eq_of_lt hcnt).symm⟩
    | split left sep right =>
      rw [hd] at hi hspec hpath hbal
      simp only
      obtain ⟨hl, hr, _, _, _⟩ := hspec
      obtain ⟨rest, hp1, hp2, hp3⟩ := hpath
      obtain ⟨hroot, _, hfp⟩ := makeRoot_spec sep left right hl hr
      have hflag : decide (1 + 1 = cap.innerMax) = false := by
        simp only [decide_eq_false_iff_not]; omega
      have hnew : fullPath cap k (makeRoot sep left right) = false :: false :: rest := by
        rw [hfp cap k, hflag]
        by_cases hks : k ≤ sep
        · rw [if_pos hks, hp2 hks]
        · rw [if_neg hks, hp3 (not_le.1 hks)]
      obtain ⟨e1, e2, e3, e4, e5⟩ := ih _ t1 (h + 1) hroot
        (makeRoot_balanced sep left right h hbal.1 hbal.2) hmod hi
      simp only at e1 e2 e3 e4 e5
      rw [hnew] at e2 e3
      rw [hp1]
      have hlt := restartBound_split rest
      have hcount : (false :: false :: rest).count true + 1 = (true :: rest).count true := by
        simp [List.count_cons]
      refine ⟨?_, ?_, ?_, ?_, ?_⟩
      · rw [show ∀ x, h + (x + 1) = h + 1 + x from fun x => by omega]
        exact e1
      · exact le_trans (Nat.succ_le_succ e2) (le_of_eq hcount)
      · exact Nat.succ_le_of_lt (lt_of_le_of_lt e3 hlt)
      · exact Nat.succ_lt_succ e4
      · rw [e5, Nat.mod_add_mod, Nat.add_assoc, Nat.add_comm 1]
    | restart n =>
      rw [hd] at hi hspec hpath hbal
      simp only
      obtain ⟨m, b, rest, hp1, hp2⟩ := hpath
      obtain ⟨e1, e2, e3, e4, e5⟩ := ih _ t1 h hspec.1 hbal hmod hi
      simp only at e1 e2 e3 e4 e5
      rw [hp2] at e2 e3
      rw [hp1]
      have hlt := restartBound_restart m b rest
      have hcount : (List.replicate m false ++ b :: false :: rest).count true
          ≤ (List.replicate m false ++ false :: true :: rest).count true := by
        rw [count_replicate_false, count_replicate_false]
        cases b <;> simp [List.count_cons]
      refine ⟨e1, le_trans e2 hcount, Nat.succ_le_of_lt (lt_of_le_of_lt e3 hlt),
        Nat.succ_lt_succ e4, ?_⟩
      rw [e5, Nat.mod_add_mod, Nat.add_assoc, Nat.add_comm 1]
    | fault => rw [hd] at hi; simp at hi
    | unfinished => rw [hd] at hi; simp at hi

theorem insert_counter_lt {K V : Type} [LinearOrder K] [Inhabited K] [Inhabited V]
    (cap : Capacity) (k : K) (v : V) :
    ∀ (fuel : Nat) (t t1 : BTree K V), t.restarts_counter < 2 ^ 64 →
      BTree.insert cap fuel t k v = some t1 → t1.restarts_counter < 2 ^ 64 := by
  intro fuel
  induction fuel with
  | zero => intro t t1 _ h; simp [BTree.insert] at h
  | succ fuel ih =>
    intro t t1 hcnt h
    unfold BTree.insert at h
    cases hd : insertDescend cap k v t.root with
    | done n =>
      rw [hd] at h
      simp only [Option.some.injEq] at h
      subst h
      exact hcnt
    | split left sep right =>
      rw [hd] at h
      exact ih _ _ (Nat.mod_lt _ (by norm_num)) h
    | restart n =>
      rw [hd] at h
      exact ih _ _ (Nat.mod_lt _ (by norm_num)) h
    | fault => rw [hd] at h; simp at h
    | unfinished => rw [hd] at h; simp at h

theorem reachable_counter {K V : Type} [LinearOrder K] [Inhabited K] [Inhabited V]
    (cap : Capacity) (t : BTree K V) (h : Reachable cap t) : t.restarts_counter < 2 ^ 64 := by
  induction h with
  | new => exact Nat.pos_pow_of_pos 64 (by decide)
  | insert fuel k v _ hi ih => exact insert_counter_lt cap k v fuel _ _ ih hi

/-- More passes than needed do not change the numbers of restarts and of splits of the
root. -/
theorem insert_counts_mono {K V : Type} [LinearOrder K] [Inhabited K] [Inhabited V]
    (cap : Capacity) (k : K) (v : V) :
    ∀ (fuel : Nat) (t t1 : BTree K V), BTree.insert cap fuel t k v = some t1 →
      ∀ more, fuel ≤ more →
        BTree.rootSplits cap more t k v = BTree.rootSplits cap fuel t k v ∧
        BTree.restarts cap more t k v = BTree.restarts cap fuel t k v := by
  intro fuel
  induction fuel with
  | zero => intro t t1 h; simp [BTree.insert] at h
  | succ fuel ih =>
    intro t t1 h more hm
    obtain ⟨m, rfl⟩ : ∃ m, more = m + 1 := ⟨more - 1, by omega⟩
    unfold BTree.insert at h
    unfold BTree.rootSplits BTree.restarts
    cases hd : insertDescend cap k v t.root with
    | done n => exact ⟨rfl, rfl⟩
    | split left sep right =>
      rw [hd] at h
      have := ih _ _ h m (by omega)
      simp only
      rw [this.1, this.2]
      exact ⟨rfl, rfl⟩
    | restart n =>
      rw [hd] at h
      have := ih _ _ h m (by omega)
      simp only
      rw [this.1, this.2]
      exact ⟨rfl, rfl⟩
    | fault => exact ⟨rfl, rfl⟩
    | unfinished => exact ⟨rfl, rfl⟩

/-- A pass of `insert` that throws has changed the tree. -/
theorem insertDescend_changes {K V : Type} [LinearOrder K] [Inhabited K] [Inhabited V]
    (cap : Capacity) (hleaf : 2 ≤ cap.leafMax) (hinner : 3 ≤ cap.innerMax) (k : K) (v : V)
    (n : Node K V) (hs : Node.Search ⊥ ⊤ n) :
    match insertDescend cap k v n with
    | .done _ => True
    | .split left sep right => makeRoot sep left right ≠ n
    | .restart n1 => n1 ≠ n
    | .fault => False
    | .unfinished => False := by
  have hspec := insertDescend_spec cap hleaf hinner k v n ⊥ ⊤ hs (WithBot.bot_lt_coe _) le_top
  have hpath := insertDescend_path cap hleaf hinner k v n ⊥ ⊤ hs (WithBot.bot_lt_coe _) le_top
  cases hd : insertDescend cap k v n with
  | done n1 => trivial
  | split left sep right =>
    rw [hd] at hspec hpath
    simp only
    obtain ⟨hl, hr, _, _, _⟩ := hspec
    obtain ⟨rest, hp1, hp2, hp3⟩ := hpath
    obtain ⟨_, _, hfp⟩ := makeRoot_spec sep left right hl hr
    have hflag : decide (1 + 1 = cap.innerMax) = false := by
      simp only [decide_eq_false_iff_not]; omega
    intro hcon
    have h1 := hfp cap k
    rw [hcon, hp1, hflag] at h1
    injection h1 with h1 _
    exact absurd h1 (by decide)
  | restart n1 =>
    rw [hd] at hpath
    simp only
    obtain ⟨m, b, rest, hp1, hp2⟩ := hpath
    intro hcon
    have hlt := restartBound_restart m b rest
    rw [← hp1, ← hp2, hcon] at hlt
    exact absurd hlt (lt_irrefl _)
  | fault => rw [hd] at hspec; exact hspec
  | unfinished => rw [hd] at hspec; exact hspec

/-- The passes of a call of `insert` that returns: each of the first `restarts` passes calls
`split` once, throws and has changed the tree; the next pass calls no `split` and returns; the
tree it leaves is the tree the call returns. -/
theorem insert_passes {K V : Type} [LinearOrder K] [Inhabited K] [Inhabited V] (cap : Capacity)
    (hleaf : 2 ≤ cap.leafMax) (hinner : 3 ≤ cap.innerMax) (k : K) (v : V) :
    ∀ (fuel : Nat) (t t1 : BTree K V), Node.Search ⊥ ⊤ t.root →
      BTree.insert cap fuel t k v = some t1 →
      (∀ i, i < BTree.restarts cap fuel t k v →
        insertSplits cap k (BTree.passes cap k v i t).root = 1 ∧
        (∀ n1, insertDescend cap k v (BTree.passes cap k v i t).root ≠ .done n1) ∧
        (BTree.passes cap k v (i + 1) t).root ≠ (BTree.passes cap k v i t).root) ∧
      insertSplits cap k (BTree.passes cap k v (BTree.restarts cap fuel t k v) t).root = 0 ∧
      (∃ n1, insertDescend cap k v (BTree.passes cap k v (BTree.restarts cap fuel t k v) t).root
        = .done n1) ∧
      BTree.passes cap k v (BTree.restarts cap fuel t k v + 1) t = t1 := by
  intro fuel
  induction fuel with
  | zero => intro t t1 _ h; simp [BTree.insert] at h
  | succ fuel ih =>
    intro t t1 hs hi
    have hspec := insertDescend_spec cap hleaf hinner k v t.root ⊥ ⊤ hs (WithBot.bot_lt_coe _)
      le_top
    have hsplits := insertDescend_splits cap hleaf hinner k v t.root ⊥ ⊤ hs
      (WithBot.bot_lt_coe _) le_top
    have hchg := insertDescend_changes cap hleaf hinner k v t.root hs
    unfold BTree.insert at hi
    unfold BTree.restarts
    cases hd : insertDescend cap k v t.root with
    | done n =>
      rw [hd] at hi hsplits
      simp only [Option.some.injEq] at hi
      subst hi
      simp only
      refine ⟨fun i hi1 => absurd hi1 (Nat.not_lt_zero _), hsplits, ⟨n, hd⟩, ?_⟩
      simp only [BTree.passes, hd]
    | split left sep right =>
      rw [hd] at hi hspec hsplits hchg
      simp only
      obtain ⟨e1, e2, e3, e4⟩ := ih _ t1 (makeRoot_spec sep left right hspec.1 hspec.2.1).1 hi
      have hstep : ∀ i, BTree.passes cap k v (i + 1) t
          = BTree.passes cap k v i
              ⟨makeRoot sep left right, (t.restarts_counter + 1) % 2 ^ 64⟩ := by
        intro i
        rw [BTree.passes]
        simp only [hd]
      refine ⟨fun i hi1 => ?_, ?_, ?_, ?_⟩
      · rcases Nat.eq_zero_or_pos i with h0 | hpos
        · subst h0
          rw [hstep 0]
          simp only [BTree.passes]
          have hnd : ∀ n1, insertDescend cap k v t.root ≠ .done n1 := by
            intro n1 hcon
            rw [hd] at hcon
            exact Outcome.noConfusion hcon
          exact ⟨hsplits, hnd, hchg⟩
        · obtain ⟨j, rfl⟩ : ∃ j, i = j + 1 := ⟨i - 1, by omega⟩
          rw [hstep (j + 1), hstep j]
          exact e1 j (by omega)
      · rw [hstep]
        exact e2
      · rw [hstep]
        exact e3
      · rw [hstep]
        exact e4
    | restart n =>
      rw [hd] at hi hspec hsplits hchg
      simp only
      obtain ⟨e1, e2, e3, e4⟩ := ih _ t1 hspec.1 hi
      have hstep : ∀ i, BTree.passes cap k v (i + 1) t
          = BTree.passes cap k v i ⟨n, (t.restarts_counter + 1) % 2 ^ 64⟩ := by
        intro i
        rw [BTree.passes]
        simp only [hd]
      refine ⟨fun i hi1 => ?_, ?_, ?_, ?_⟩
      · rcases Nat.eq_zero_or_pos i with h0 | hpos
        · subst h0
          rw [hstep 0]
          simp only [BTree.passes]
          have hnd : ∀ n1, insertDescend cap k v t.root ≠ .done n1 := by
            intro n1 hcon
            rw [hd] at hcon
            exact Outcome.noConfusion hcon
          exact ⟨hsplits, hnd, hchg⟩
        · obtain ⟨j, rfl⟩ : ∃ j, i = j + 1 := ⟨i - 1, by omega⟩
          rw [hstep (j + 1), hstep j]
          exact e1 j (by omega)
      · rw [hstep]
        exact e2
      · rw [hstep]
        exact e3
      · rw [hstep]
        exact e4
    | fault => rw [hd] at hi; simp at hi
    | unfinished => rw [hd] at hi; simp at hi

/-- A call of `insert` returns in the pass after its last restart. -/
theorem insert_exact {K V : Type} [LinearOrder K] [Inhabited K] [Inhabited V] (cap : Capacity)
    (k : K) (v : V) :
    ∀ (fuel : Nat) (t t1 : BTree K V), BTree.insert cap fuel t k v = some t1 →
      BTree.insert cap (BTree.restarts cap fuel t k v + 1) t k v = some t1 := by
  intro fuel
  induction fuel with
  | zero => intro t t1 h; simp [BTree.insert] at h
  | succ fuel ih =>
    intro t t1 h
    unfold BTree.insert at h
    unfold BTree.restarts
    cases hd : insertDescend cap k v t.root with
    | done n =>
      rw [hd] at h
      simp only
      unfold BTree.insert
      rw [hd]
      exact h
    | split left sep right =>
      rw [hd] at h
      simp only
      have := ih _ _ h
      rw [BTree.insert, hd]
      exact this
    | restart n =>
      rw [hd] at h
      simp only
      have := ih _ _ h
      rw [BTree.insert, hd]
      exact this
    | fault => rw [hd] at h; simp at h
    | unfinished => rw [hd] at h; simp at h

theorem restartBound_roomy (h : Nat) (b : Bool) :
    restartBound (List.replicate h false ++ [b]) ≤ h + 2 ∧
    (List.replicate h false ++ [b]).count true ≤ 1 := by
  unfold restartBound
  rw [depthSum_replicate, count_replicate_false]
  cases b <;> simp [depthSum]

end btree

namespace btree

/-! ## The tree: the claims -/

/-- C1: for node capacities `leafMax ≥ 2` and `innerMax ≥ 3` and every finite sequence `ops`
of `insert(k, v)` calls on a freshly constructed tree (the empty sequence included): every call
returns, and afterwards `lookup(q)` returns `true` with the value of the last call whose key
was `q`, and `false` if there was none. A further `insert(k, v)` returns too and does not
change the result of `lookup(q)` for `q ≠ k`. -/
theorem lookup_after_inserts {K V : Type} [LinearOrder K] [Inhabited K] [Inhabited V]
    (cap : Capacity) (hleaf : 2 ≤ cap.leafMax) (hinner : 3 ≤ cap.innerMax)
    (ops : List (K × V)) :
    ∃ (N : Nat) (t1 : BTree K V),
      (∀ fuel, N ≤ fuel → insertAll cap fuel ops (BTree.new K V) = some t1) ∧
      (∀ (q : K) (f : Nat), BTree.lookup (f + 1) t1 q = some (t1, lastInserted ops q)) ∧
      ∀ (k : K) (v : V), ∃ (N1 : Nat) (t2 : BTree K V),
        (∀ fuel, N1 ≤ fuel → BTree.insert cap fuel t1 k v = some t2) ∧
        ∀ (q : K) (f : Nat), q ≠ k →
          BTree.lookup (f + 1) t2 q = some (t2, lastInserted ops q) := by
  obtain ⟨N, t1, h1, hs1, hl1⟩ :=
    insertAll_spec cap hleaf hinner ops (BTree.new K V) (search_new K V)
  have hmap : ∀ q : K, lookupDescend q t1.root = Found.ofOption (lastInserted ops q) := by
    intro q
    rw [hl1 q]
    cases lastInserted ops q with
    | some w => rfl
    | none => exact lookup_new q
  refine ⟨N, t1, h1, fun q f => lookup_eq t1 q _ (hmap q) f, ?_⟩
  intro k v
  obtain ⟨t2, h2⟩ := insert_returns cap hleaf hinner k v _ t1 hs1 (Nat.lt_succ_self _)
  obtain ⟨_, hl2⟩ := insert_some cap hleaf hinner k v _ t1 t2 hs1 h2
  refine ⟨_, t2, fun fuel hfuel => insert_mono cap k v _ t1 t2 h2 fuel hfuel, ?_⟩
  intro q f hqk
  apply lookup_eq
  rw [hl2 q, if_neg hqk]
  exact hmap q

/-- Witness of C1: the capacities of a tree with 8-byte keys and payloads (254 entries per
node), and the calls of the scenario "insert 10 pairs `k = i`, `v = i`; insert `(5, 999)`". -/
theorem lookup_after_inserts_witness :
    (2 ≤ (Capacity.mk 254 254).leafMax ∧ 3 ≤ (Capacity.mk 254 254).innerMax) ∧
    ∃ (N : Nat) (t1 : BTree Nat Nat),
      (∀ fuel, N ≤ fuel →
        insertAll (Capacity.mk 254 254) fuel
          ((List.range 10).map (fun i => (i, i)) ++ [(5, 999)]) (BTree.new Nat Nat) = some t1) ∧
      (∀ (q : Nat) (f : Nat), BTree.lookup (f + 1) t1 q
        = some (t1, lastInserted ((List.range 10).map (fun i => (i, i)) ++ [(5, 999)]) q)) ∧
      ∀ (k : Nat) (v : Nat), ∃ (N1 : Nat) (t2 : BTree Nat Nat),
        (∀ fuel, N1 ≤ fuel → BTree.insert (Capacity.mk 254 254) fuel t1 k v = some t2) ∧
        ∀ (q : Nat) (f : Nat), q ≠ k →
          BTree.lookup (f + 1) t2 q
            = some (t2, lastInserted ((List.range 10).map (fun i => (i, i)) ++ [(5, 999)]) q) :=
  ⟨⟨by decide, by decide⟩,
    lookup_after_inserts (Capacity.mk 254 254) (by decide) (by decide)
      ((List.range 10).map (fun i => (i, i)) ++ [(5, 999)])⟩

/-- C2: for node capacities `leafMax ≥ 2` and `innerMax ≥ 3`, every tree reachable from the
empty tree by inserts, every key `k` and value `v`: `insert(k, v)` returns, and a `lookup(k)`
that follows immediately returns `true` with result `v`. -/
theorem insert_lookup_round_trip {K V : Type} [LinearOrder K] [Inhabited K] [Inhabited V]
    (cap : Capacity) (hleaf : 2 ≤ cap.leafMax) (hinner : 3 ≤ cap.innerMax) (t : BTree K V)
    (hr : Reachable cap t) (k : K) (v : V) :
    ∃ (N : Nat) (t1 : BTree K V),
      (∀ fuel, N ≤ fuel → BTree.insert cap fuel t k v = some t1) ∧
      ∀ f : Nat, BTree.lookup (f + 1) t1 k = some (t1, some v) := by
  have hs := reachable_search cap hleaf hinner t hr
  obtain ⟨t1, h1⟩ := insert_returns cap hleaf hinner k v _ t hs (Nat.lt_succ_self _)
  obtain ⟨_, hl1⟩ := insert_some cap hleaf hinner k v _ t t1 hs h1
  refine ⟨_, t1, fun fuel hfuel => insert_mono cap k v _ t t1 h1 fuel hfuel, ?_⟩
  intro f
  apply lookup_eq
  rw [hl1 k, if_pos rfl]
  rfl

/-- Witness of C2: the first insert into the empty tree. -/
theorem insert_lookup_round_trip_witness :
    (2 ≤ (Capacity.mk 2 3).leafMax ∧ 3 ≤ (Capacity.mk 2 3).innerMax ∧
      Reachable (Capacity.mk 2 3) (BTree.new Nat Nat)) ∧
    ∃ (N : Nat) (t1 : BTree Nat Nat),
      (∀ fuel, N ≤ fuel → BTree.insert (Capacity.mk 2 3) fuel (BTree.new Nat Nat) 1 7 = some t1) ∧
      ∀ f : Nat, BTree.lookup (f + 1) t1 1 = some (t1, some 7) :=
  ⟨⟨by decide, by decide, Reachable.new⟩,
    insert_lookup_round_trip (Capacity.mk 2 3) (by decide) (by decide) (BTree.new Nat Nat)
      Reachable.new 1 7⟩

/-- C3: for node capacities `leafMax ≥ 2` and `innerMax ≥ 3`, every reachable tree, key `k` and
values `v1`, `v2`: `insert(k, v1)` and then `insert(k, v2)` return, `lookup(k)` then returns
`v2`, and the second insert leaves the number of entries stored in the tree as it was. When the
leaf of `k` is not full after the first insert, the second insert returns in its first pass
(no split, no restart) and leaves the `count` of that leaf as it was. -/
theorem insert_overwrite {K V : Type} [LinearOrder K] [Inhabited K] [Inhabited V]
    (cap : Capacity) (hleaf : 2 ≤ cap.leafMax) (hinner : 3 ≤ cap.innerMax) (t : BTree K V)
    (hr : Reachable cap t) (k : K) (v1 v2 : V) :
    ∃ (N : Nat) (t1 t2 : BTree K V),
      (∀ fuel, N ≤ fuel →
        BTree.insert cap fuel t k v1 = some t1 ∧ BTree.insert cap fuel t1 k v2 = some t2) ∧
      (∀ f : Nat, BTree.lookup (f + 1) t2 k = some (t2, some v2)) ∧
      t2.root.entries = t1.root.entries ∧
      (pathLeafCount k t1.root ≠ cap.leafMax →
        BTree.insert cap 1 t1 k v2 = some t2 ∧
        t2.restarts_counter = t1.restarts_counter ∧
        pathLeafCount k t2.root = pathLeafCount k t1.root) := by
  have hs := reachable_search cap hleaf hinner t hr
  obtain ⟨t1, h1⟩ := insert_returns cap hleaf hinner k v1 _ t hs (Nat.lt_succ_self _)
  obtain ⟨hs1, hl1⟩ := insert_some cap hleaf hinner k v1 _ t t1 hs h1
  obtain ⟨m, b, hp1⟩ := insert_path cap hleaf hinner k v1 _ t t1 hs h1
  obtain ⟨t2, h2⟩ := insert_returns cap hleaf hinner k v2 _ t1 hs1 (Nat.lt_succ_self _)
  obtain ⟨_, hl2⟩ := insert_some cap hleaf hinner k v2 _ t1 t2 hs1 h2
  have hfound : lookupDescend k t1.root = .found v1 := by rw [hl1 k, if_pos rfl]
  have hent := (insert_entries cap hleaf hinner k v2 _ t1 t2 hs1 h2).1 v1 hfound
  refine ⟨max (restartBound (fullPath cap k t.root) + 1)
    (restartBound (fullPath cap k t1.root) + 1), t1, t2, ?_, ?_, hent, ?_⟩
  · intro fuel hfuel
    exact ⟨insert_mono cap k v1 _ t t1 h1 fuel (le_trans (le_max_left _ _) hfuel),
      insert_mono cap k v2 _ t1 t2 h2 fuel (le_trans (le_max_right _ _) hfuel)⟩
  · intro f
    apply lookup_eq
    rw [hl2 k, if_pos rfl]
    rfl
  · intro hnotfull
    obtain ⟨inner, hin⟩ := fullPath_last cap k t1.root ⊥ ⊤ hs1 (WithBot.bot_lt_coe _) le_top
    have hb : b = false := by
      have h3 := hp1.symm.trans hin
      have h4 := List.append_inj_right' h3 rfl
      simp only [List.cons.injEq, and_true] at h4
      rw [h4]
      simpa using hnotfull
    subst hb
    have hp2 : fullPath cap k t1.root = List.replicate (m + 1) false := by
      rw [hp1, List.replicate_succ']
    obtain ⟨n1, hd⟩ := insertDescend_done cap hleaf hinner k v2 t1.root hs1 _ hp2
    have hone : BTree.insert cap 1 t1 k v2 = some { t1 with root := n1 } := by
      simp only [BTree.insert, hd]
    have htwo := insert_mono cap k v2 1 t1 _ hone _
      (show 1 ≤ restartBound (fullPath cap k t1.root) + 1 by omega)
    rw [h2] at htwo
    simp only [Option.some.injEq] at htwo
    subst htwo
    refine ⟨hone, rfl, ?_⟩
    have hent2 := insertDescend_entries cap hleaf hinner k v2 t1.root ⊥ ⊤ hs1
      (WithBot.bot_lt_coe _) le_top
    rw [hd] at hent2
    exact (hent2.1 v1 hfound).2

/-- Witness of C3: two inserts of key 1 into the empty tree. -/
theorem insert_overwrite_witness :
    (2 ≤ (Capacity.mk 2 3).leafMax ∧ 3 ≤ (Capacity.mk 2 3).innerMax ∧
      Reachable (Capacity.mk 2 3) (BTree.new Nat Nat)) ∧
    ∃ (N : Nat) (t1 t2 : BTree Nat Nat),
      (∀ fuel, N ≤ fuel →
        BTree.insert (Capacity.mk 2 3) fuel (BTree.new Nat Nat) 1 7 = some t1 ∧
        BTree.insert (Capacity.mk 2 3) fuel t1 1 8 = some t2) ∧
      (∀ f : Nat, BTree.lookup (f + 1) t2 1 = some (t2, some 8)) ∧
      t2.root.entries = t1.root.entries ∧
      (pathLeafCount 1 t1.root ≠ (Capacity.mk 2 3).leafMax →
        BTree.insert (Capacity.mk 2 3) 1 t1 1 8 = some t2 ∧
        t2.restarts_counter = t1.restarts_counter ∧
        pathLeafCount 1 t2.root = pathLeafCount 1 t1.root) :=
  ⟨⟨by decide, by decide, Reachable.new⟩,
    insert_overwrite (Capacity.mk 2 3) (by decide) (by decide) (BTree.new Nat Nat)
      Reachable.new 1 7 8⟩

/-- The specification side of the scenario "insert 10 pairs `k = i`, `v = i`; insert
`(5, 999)`": the last value inserted for 5 is 999, for 4 it is 4, and 10 was never inserted. -/
theorem scenario_lastInserted :
    lastInserted ((List.range 10).map (fun i => (i, i)) ++ [(5, 999)]) 5 = some 999 ∧
    lastInserted ((List.range 10).map (fun i => (i, i)) ++ [(5, 999)]) 4 = some 4 ∧
    lastInserted ((List.range 10).map (fun i => (i, i)) ++ [(5, 999)]) 10 = none := by
  decide

/-- The scenario "insert pairs `k = i`, `v = i`; insert `(2, 999)`; `lookup(2)` gives 999 and
`lookup(1)` gives 1", run with four pairs, leaves of two entries and inner nodes of three
slots, so that the leaves and the root are split. -/
theorem scenario_overwrite :
    lookupAfter (Capacity.mk 2 3) 5 ((List.range 4).map (fun i => (i, i)) ++ [(2, 999)]) 2
      = some (some 999) ∧
    lookupAfter (Capacity.mk 2 3) 5 ((List.range 4).map (fun i => (i, i)) ++ [(2, 999)]) 1
      = some (some 1) ∧
    lookupAfter (Capacity.mk 2 3) 5 ((List.range 4).map (fun i => (i, i)) ++ [(2, 999)]) 7
      = some none := by
  decide

end btree

namespace btree

/-! ## Claims C16 to C20 -/

/-- C16: in every tree produced from `BTree()` by calls of `insert`, and after every pass of a
further call of `insert` (a pass ends with the leaf insert, or with the split of a leaf, of an
inner node or of the root followed by the publication of the new sibling), the keys
`keys[0..count)` of every node are strictly ascending and every key stored under
`children[i]` of an inner node is greater than `keys[i-1]` (if `i > 0`) and at most `keys[i]`
(if `i < count`). -/
theorem search_invariant_preserved {K V : Type} [LinearOrder K] [Inhabited K] [Inhabited V]
    (cap : Capacity) (hleaf : 2 ≤ cap.leafMax) (hinner : 3 ≤ cap.innerMax) (t : BTree K V)
    (h : Reachable cap t) :
    Node.Ordered t.root ∧
    ∀ (k : K) (v : V) (n : Nat), Node.Ordered (BTree.passes cap k v n t).root :=
  have hs := reachable_search cap hleaf hinner t h
  ⟨search_ordered _ _ _ hs,
    fun k v n => search_ordered _ _ _ (passes_search cap hleaf hinner k v n t hs)⟩

/-- Witness of C16: the tree after four inserts with two entries per leaf and three per inner
node, and the first two passes of `insert(5, 50)` on it. -/
theorem search_invariant_preserved_witness :
    Reachable { leafMax := 2, innerMax := 3 } grown ∧ Node.Ordered grown.root ∧
    Node.Ordered (BTree.passes { leafMax := 2, innerMax := 3 } 5 50 1 grown).root ∧
    Node.Ordered (BTree.passes { leafMax := 2, innerMax := 3 } 5 50 2 grown).root :=
  have hr : Reachable { leafMax := 2, innerMax := 3 } grown :=
    reachable_insertAll _ 4 [(1, 10), (2, 20), (3, 30), (4, 40)] _ _ Reachable.new
      (some_getD_of_isSome _ _ (by decide))
  have h := search_invariant_preserved { leafMax := 2, innerMax := 3 } (by decide) (by decide)
    grown hr
  ⟨hr, h.1, h.2 5 50 1, h.2 5 50 2⟩

/-- C17: `BTreeLeaf::insert(k, p)` on a leaf with `count < maxEntries` and strictly ascending
keys. If `k` is stored at index `i`, the call writes `payloads[i] = p` and nothing else.
Otherwise `count` grows by one (and stays within `maxEntries`), the keys are strictly
ascending, and the sequence of entries is the old one with `(k, p)` inserted at one place. -/
theorem leaf_insert_keeps_sorted {K V : Type} [LinearOrder K] (maxEntries count : Nat)
    (keys : Nat → K) (payloads : Nat → V) (k : K) (p : V) (hc : count < maxEntries)
    (hasc : Ascending count keys) :
    (∀ i, i < count → keys i = k →
      ∃ payloads1, BTreeLeaf.insert count keys payloads k p = some (.leaf count keys payloads1) ∧
        payloads1 i = p ∧ ∀ j, j ≠ i → payloads1 j = payloads j) ∧
    ((∀ i, i < count → keys i ≠ k) →
      ∃ pos keys1 payloads1,
        BTreeLeaf.insert count keys payloads k p = some (.leaf (count + 1) keys1 payloads1) ∧
        count + 1 ≤ maxEntries ∧ pos ≤ count ∧ Ascending (count + 1) keys1 ∧
        live (fun j => (keys1 j, payloads1 j)) (count + 1)
          = (live (fun j => (keys j, payloads j)) count).take pos ++
              (k, p) :: (live (fun j => (keys j, payloads j)) count).drop pos) := by
  have hpair : ∀ pos, (fun j => (store (memmoveUp keys pos (count - pos)) pos k j,
        store (memmoveUp payloads pos (count - pos)) pos p j))
      = store (memmoveUp (fun j => (keys j, payloads j)) pos (count - pos)) pos (k, p) := by
    intro pos
    funext j
    simp only [insertAt_apply]
    split_ifs <;> rfl
  constructor
  · intro i hi1 hik
    have hpos : 0 < count := by omega
    have hlb : lowerBound count keys k = .index i := by
      apply lowerBound_unique count keys k hasc hpos i (le_of_lt hi1)
      · intro j hj
        rw [← hik]
        exact hasc j i hj hi1
      · intro _
        exact le_of_eq hik.symm
    refine ⟨store payloads i p, ?_, by simp [store], fun j hj => by simp [store, hj]⟩
    unfold BTreeLeaf.insert
    rw [if_pos (by omega), hlb]
    simp only
    rw [if_pos ⟨hi1, hik⟩]
  · intro habs
    rcases Nat.eq_zero_or_pos count with h0 | hpos
    · subst h0
      refine ⟨0, store keys 0 k, store payloads 0 p, by simp [BTreeLeaf.insert], hc, le_refl _,
        fun i j hij hj => by omega, rfl⟩
    · obtain ⟨pos, hlb, hle, hlow, hup⟩ := lowerBound_spec count keys k hasc hpos
      refine ⟨pos, store (memmoveUp keys pos (count - pos)) pos k,
        store (memmoveUp payloads pos (count - pos)) pos p, ?_, hc, hle, ?_, ?_⟩
      · unfold BTreeLeaf.insert
        rw [if_pos (by omega), hlb]
        simp only
        rw [if_neg (fun h => habs pos h.1 h.2)]
      · apply ascending_insertAt count keys k pos (count - pos) hasc hle (by omega) hlow
        intro hlt
        exact lt_of_le_of_ne (hup hlt) (fun h => habs pos hlt h.symm)
      · rw [hpair pos]
        exact live_insertAt _ pos count (k, p) hle

/-- Witness of C17: the leaf with the keys 0, 10, 20 (payloads 0, 1, 2) in a node of four
entries; the call `insert(10, 7)` overwrites the payload at index 1, the call `insert(15, 7)`
inserts an entry. -/
theorem leaf_insert_keeps_sorted_witness :
    (∃ payloads1, BTreeLeaf.insert 3 (fun j => 10 * j) (fun j => j) 10 7
        = some (.leaf 3 (fun j => 10 * j) payloads1) ∧
      payloads1 1 = 7 ∧ ∀ j, j ≠ 1 → payloads1 j = (fun j => j) j) ∧
    (∃ pos keys1 payloads1,
      BTreeLeaf.insert 3 (fun j => 10 * j) (fun j => j) 15 7
        = some (.leaf (3 + 1) keys1 payloads1) ∧
      3 + 1 ≤ 4 ∧ pos ≤ 3 ∧ Ascending (3 + 1) keys1 ∧
      live (fun j => (keys1 j, payloads1 j)) (3 + 1)
        = (live (fun j => ((fun j => 10 * j) j, (fun j => j) j)) 3).take pos ++
            (15, 7) :: (live (fun j => ((fun j => 10 * j) j, (fun j => j) j)) 3).drop pos) :=
  ⟨(leaf_insert_keeps_sorted 4 3 (fun j => 10 * j) (fun j => j) 10 7 (by decide)
      (fun _ _ hij _ => (Nat.mul_lt_mul_left (by decide)).2 hij)).1 1 (by decide) rfl,
    (leaf_insert_keeps_sorted 4 3 (fun j => 10 * j) (fun j => j) 15 7 (by decide)
      (fun _ _ hij _ => (Nat.mul_lt_mul_left (by decide)).2 hij)).2 (by decide)⟩

/-- C18: `BTreeLeaf::split(sep)` on a leaf with `count ≥ 2` and strictly ascending keys leaves
the first `count / 2` entries in the leaf, gives the new leaf the other `count - count / 2`
entries in the same order (the two sequences of entries, one after the other, are the
original sequence), and sets `sep` to the last key of the left half, which is the largest key
of the left leaf and strictly smaller than every key of the new leaf. -/
theorem leaf_split_halves {K V : Type} [LinearOrder K] [Inhabited K] [Inhabited V]
    (count : Nat) (keys : Nat → K) (payloads : Nat → V) (hc : 2 ≤ count)
    (hasc : Ascending count keys) :
    ∃ sep keysR payloadsR,
      BTreeLeaf.split count keys payloads =
        some (.leaf (count / 2) keys payloads, sep, .leaf (count - count / 2) keysR payloadsR) ∧
      live (fun j => (keys j, payloads j)) (count / 2) ++
          live (fun j => (keysR j, payloadsR j)) (count - count / 2)
        = live (fun j => (keys j, payloads j)) count ∧
      (live keys (count / 2)).getLast? = some sep ∧
      (∀ x, x ∈ live keys (count / 2) → x ≤ sep) ∧
      (∀ x, x ∈ live keysR (count - count / 2) → sep < x) := by
  have hc1 : count - (count - count / 2) = count / 2 := by omega
  refine ⟨keys (count / 2 - 1), memcpyFrom default keys (count / 2) (count - count / 2),
    memcpyFrom default payloads (count / 2) (count - count / 2), ?_, ?_, ?_, ?_, ?_⟩
  · unfold BTreeLeaf.split
    simp only [hc1]
    rw [if_neg (by omega)]
  · have e : live (fun j => (keys j, payloads j)) count
        = live (fun j => (keys j, payloads j)) (count / 2 + (count - count / 2)) := by
      congr 1
      omega
    rw [e, live_add]
    congr 1
    apply live_congr
    intro j hj
    simp only [memcpyFrom, if_pos hj]
  · have e : count / 2 = (count / 2 - 1) + 1 := by omega
    rw [e, live_add, live_one, List.getLast?_append]
    simp
  · intro x hx
    obtain ⟨i, hi1, rfl⟩ := (mem_live _ _ _).1 hx
    rcases Nat.eq_or_lt_of_le (show i ≤ count / 2 - 1 by omega) with he | hlt
    · rw [he]
    · exact le_of_lt (hasc _ _ hlt (by omega))
  · intro x hx
    obtain ⟨i, hi1, rfl⟩ := (mem_live _ _ _).1 hx
    simp only [memcpyFrom, if_pos hi1]
    exact hasc _ _ (by omega) (by omega)

/-- Witness of C18: the leaf with the keys 0, 10, 20, 30, 40 and the payloads 0, 1, 2, 3, 4. -/
theorem leaf_split_halves_witness :
    ∃ sep keysR payloadsR,
      BTreeLeaf.split 5 (fun j => 10 * j) (fun j => j) =
        some (.leaf (5 / 2) (fun j => 10 * j) (fun j => j), sep,
          .leaf (5 - 5 / 2) keysR payloadsR) ∧
      live (fun j => ((fun j => 10 * j) j, (fun j => j) j)) (5 / 2) ++
          live (fun j => (keysR j, payloadsR j)) (5 - 5 / 2)
        = live (fun j => ((fun j => 10 * j) j, (fun j => j) j)) 5 ∧
      (live (fun j => 10 * j) (5 / 2)).getLast? = some sep ∧
      (∀ x, x ∈ live (fun j => 10 * j) (5 / 2) → x ≤ sep) ∧
      (∀ x, x ∈ live keysR (5 - 5 / 2) → sep < x) :=
  leaf_split_halves 5 (fun j => 10 * j) (fun j => j) (by decide)
    (fun _ _ hij _ => (Nat.mul_lt_mul_left (by decide)).2 hij)

/-- C19: `BTreeInner::split(sep)` on an inner node with `count ≥ 2` keys and `count + 1`
children gives the new node `count - count / 2` keys and `count - count / 2 + 1` children
from the right end, sets `sep` to `keys[count / 2 - 1]` and leaves `count / 2 - 1` keys and
`count / 2` children in the node: the left keys, `sep` and the right keys, in this order, are
the original keys, the left children followed by the right children are the original
children, and with strictly ascending keys `sep` is a key of neither half. -/
theorem inner_split_halves {K V : Type} [LinearOrder K] [Inhabited K] [Inhabited V]
    (count : Nat) (keys : Nat → K) (children : Nat → Node K V) (hc : 2 ≤ count) :
    ∃ keysR childrenR,
      BTreeInner.split count keys children =
        some (.inner (count / 2 - 1) keys children, keys (count / 2 - 1),
          .inner (count - count / 2) keysR childrenR) ∧
      live keys (count / 2 - 1) ++ keys (count / 2 - 1) :: live keysR (count - count / 2)
        = live keys count ∧
      live children (count / 2 - 1 + 1) ++ live childrenR (count - count / 2 + 1)
        = live children (count + 1) ∧
      (live keys (count / 2 - 1)).length = count / 2 - 1 ∧
      (live children (count / 2 - 1 + 1)).length = count / 2 ∧
      (live keysR (count - count / 2)).length = count - count / 2 ∧
      (live childrenR (count - count / 2 + 1)).length = count - count / 2 + 1 ∧
      (Ascending count keys →
        keys (count / 2 - 1) ∉ live keys (count / 2 - 1) ∧
        keys (count / 2 - 1) ∉ live keysR (count - count / 2)) := by
  have hc1 : count - (count - count / 2) - 1 = count / 2 - 1 := by omega
  have hc2 : count / 2 - 1 + 1 = count / 2 := by omega
  refine ⟨memcpyFrom default keys (count / 2) (count - count / 2 + 1),
    memcpyFrom (junkNode K V) children (count / 2) (count - count / 2 + 1), ?_, ?_, ?_,
    live_length _ _, by rw [live_length, hc2], live_length _ _, live_length _ _, ?_⟩
  · unfold BTreeInner.split
    simp only [hc1, hc2]
    rw [if_neg (by omega)]
  · have e : live keys count = live keys ((count / 2 - 1) + (1 + (count - count / 2))) := by
      congr 1
      omega
    rw [e, live_add, live_add, live_one]
    simp only [List.singleton_append, Nat.add_zero]
    congr 2
    apply live_congr
    intro j hj
    simp only [memcpyFrom, if_pos (show j < count - count / 2 + 1 by omega)]
    congr 1
    omega
  · rw [hc2]
    have e : count + 1 = count / 2 + (count - count / 2 + 1) := by omega
    rw [e, live_add children]
    congr 1
    apply live_congr
    intro j hj
    simp only [memcpyFrom, if_pos hj]
  · intro hasc
    constructor
    · intro hx
      obtain ⟨i, hi1, he⟩ := (mem_live _ _ _).1 hx
      exact absurd he (ne_of_lt (hasc _ _ hi1 (by omega)))
    · intro hx
      obtain ⟨i, hi1, he⟩ := (mem_live _ _ _).1 hx
      simp only [memcpyFrom, if_pos (show i < count - count / 2 + 1 by omega)] at he
      exact absurd he.symm (ne_of_lt (hasc _ _ (by omega) (by omega)))

/-- Witness of C19: the inner node with the keys 0, 10, 20, 30, 40 and six empty leaves as
children. -/
theorem inner_split_halves_witness :
    ∃ keysR childrenR,
      BTreeInner.split 5 (fun j => 10 * j) (fun _ => junkNode Nat Nat) =
        some (.inner (5 / 2 - 1) (fun j => 10 * j) (fun _ => junkNode Nat Nat),
          (fun j => 10 * j) (5 / 2 - 1), .inner (5 - 5 / 2) keysR childrenR) ∧
      live (fun j => 10 * j) (5 / 2 - 1) ++
          (fun j => 10 * j) (5 / 2 - 1) :: live keysR (5 - 5 / 2)
        = live (fun j => 10 * j) 5 ∧
      live (fun _ => junkNode Nat Nat) (5 / 2 - 1 + 1) ++ live childrenR (5 - 5 / 2 + 1)
        = live (fun _ => junkNode Nat Nat) (5 + 1) ∧
      (live (fun j => 10 * j) (5 / 2 - 1)).length = 5 / 2 - 1 ∧
      (live (fun _ => junkNode Nat Nat) (5 / 2 - 1 + 1)).length = 5 / 2 ∧
      (live keysR (5 - 5 / 2)).length = 5 - 5 / 2 ∧
      (live childrenR (5 - 5 / 2 + 1)).length = 5 - 5 / 2 + 1 ∧
      (fun j => 10 * j) (5 / 2 - 1) ∉ live (fun j => 10 * j) (5 / 2 - 1) ∧
      (fun j => 10 * j) (5 / 2 - 1) ∉ live keysR (5 - 5 / 2) :=
  (inner_split_halves 5 (fun j => 10 * j) (fun _ => junkNode Nat Nat) (by decide)).elim
    fun keysR h => h.elim fun childrenR h =>
      ⟨keysR, childrenR, h.1, h.2.1, h.2.2.1, h.2.2.2.1, h.2.2.2.2.1, h.2.2.2.2.2.1,
        h.2.2.2.2.2.2.1,
        h.2.2.2.2.2.2.2 (fun _ _ hij _ => (Nat.mul_lt_mul_left (by decide)).2 hij)⟩

/-- C20: `lowerBound(k)` on a node with `count ≥ 1` and strictly ascending keys returns the
least index `i ≤ count` with `i = count` or `keys[i] ≥ k`, hence the index of `k` when `k` is
stored, after at least one and at most `⌈log₂ count⌉ + 1` iterations of its loop. -/
theorem lowerBound_binary_search {K : Type} [LinearOrder K] (count : Nat) (keys : Nat → K)
    (k : K) (hc : 1 ≤ count) (hasc : Ascending count keys) :
    ∃ i n, lowerBoundRun keys k (count + 1) 0 count = (.index i, n) ∧
      lowerBound count keys k = .index i ∧
      i ≤ count ∧ (i = count ∨ k ≤ keys i) ∧
      (∀ j, j < i → ¬ (j = count ∨ k ≤ keys j)) ∧
      (∀ j, j < count → keys j = k → i = j) ∧
      1 ≤ n ∧ n ≤ Nat.clog 2 count + 1 := by
  obtain ⟨i, hlb, hle, hlow, hup⟩ := lowerBound_spec count keys k hasc hc
  refine ⟨i, (lowerBoundRun keys k (count + 1) 0 count).2, ?_, hlb, hle, ?_, ?_, ?_,
    lowerBoundRun_pos keys k count 0 count, ?_⟩
  · have h1 := lowerBoundRun_fst keys k (count + 1) 0 count
    unfold lowerBound at hlb
    rw [hlb] at h1
    exact Prod.ext h1 rfl
  · rcases Nat.eq_or_lt_of_le hle with he | hlt
    · exact Or.inl he
    · exact Or.inr (hup hlt)
  · intro j hj hor
    rcases hor with he | hk
    · omega
    · exact absurd (hlow j hj) (not_lt_of_le hk)
  · intro j hj hjk
    rcases Nat.lt_trichotomy i j with h | h | h
    · have h1 := hup (by omega)
      rw [← hjk] at h1
      exact absurd (hasc i j h hj) (not_lt_of_le h1)
    · exact h
    · have h1 := hlow j h
      rw [hjk] at h1
      exact absurd h1 (lt_irrefl _)
  · have h1 := lowerBoundRun_iterations keys k (count + 1) 0 count (by omega)
    have h2 : Nat.log 2 count ≤ Nat.clog 2 count := Nat.log_le_clog 2 count
    simp only [Nat.sub_zero] at h1
    omega

/-- Witness of C20: the keys 0, 10, ..., 60 and the key 35. -/
theorem lowerBound_binary_search_witness :
    ∃ i n, lowerBoundRun (fun j => 10 * j) 35 (7 + 1) 0 7 = (.index i, n) ∧
      lowerBound 7 (fun j => 10 * j) 35 = .index i ∧
      i ≤ 7 ∧ (i = 7 ∨ 35 ≤ (fun j => 10 * j) i) ∧
      (∀ j, j < i → ¬ (j = 7 ∨ 35 ≤ (fun j => 10 * j) j)) ∧
      (∀ j, j < 7 → (fun j => 10 * j) j = 35 → i = j) ∧
      1 ≤ n ∧ n ≤ Nat.clog 2 7 + 1 :=
  lowerBound_binary_search 7 (fun j => 10 * j) 35 (by decide)
    (fun _ _ hij _ => (Nat.mul_lt_mul_left (by decide)).2 hij)

end btree

namespace btree

/-! ## Claims C21 and C24 to C26 -/

/-- C21, as stated, fails: on a node with four key slots whose `count` reads 10, `lowerBound(55)`
reads `keys[5]` at its first iteration and returns the index 6; it neither leaves the key
array alone nor raises an exception. On a node with `count = 0` whose slot 0 holds 0,
`lowerBound(5)` returns 1, an index outside `[0, count]`. -/
theorem lowerBound_reads_outside_counterexample :
    lowerBoundReads (fun j => 10 * j) 55 (10 + 1) 0 10 = [5, 8, 7, 6] ∧ ¬ (5 < 4) ∧
    lowerBound 10 (fun j => 10 * j) 55 = .index 6 ∧
    lowerBound 0 (fun _ => 0) 5 = .index 1 ∧ ¬ (1 ≤ 0) := by
  decide

/-- C21, amended: whatever the contents of the node and the value of `count`, `lowerBound(k)`
passes its two range checks, so it raises no exception (and the leaf returns no `-1`); it
reads `keys[mid]` before the checks, at indices below `max(count, 1)` only, and returns an
index that is at most `max(count, 1)`. Hence with `count ≤ maxEntries` it reads key slots of
`[0, maxEntries)` only, and with `1 ≤ count` it returns an index of `[0, count]`. -/
theorem lowerBound_passes_range_checks {K : Type} [LinearOrder K] (count : Nat)
    (keys : Nat → K) (k : K) :
    ∃ i, lowerBound count keys k = .index i ∧ i ≤ max count 1 ∧
      (∀ m, m ∈ lowerBoundReads keys k (count + 1) 0 count → m < max count 1) ∧
      (∀ maxEntries, 1 ≤ maxEntries → count ≤ maxEntries →
        ∀ m, m ∈ lowerBoundReads keys k (count + 1) 0 count → m < maxEntries) ∧
      (1 ≤ count → i ≤ count) := by
  obtain ⟨i, e1, e2, e3⟩ := lowerBound_in_range count keys k
  refine ⟨i, e1, e2, e3, ?_, ?_⟩
  · intro maxEntries h1 h2 m hm
    exact lt_of_lt_of_le (e3 m hm) (max_le h2 h1)
  · intro hc
    rw [max_eq_left hc] at e2
    exact e2

/-- Witness of C21: the node with the keys 0, 10, ..., 60 in seven key slots and the key 35. -/
theorem lowerBound_passes_range_checks_witness :
    ∃ i, lowerBound 7 (fun j => 10 * j) 35 = .index i ∧
      (∀ m, m ∈ lowerBoundReads (fun j => 10 * j) 35 (7 + 1) 0 7 → m < 7) ∧ i ≤ 7 :=
  (lowerBound_passes_range_checks 7 (fun j => 10 * j) 35).elim fun i h =>
    ⟨i, h.1, h.2.2.2.1 7 (by decide) (by decide), h.2.2.2.2 (by decide)⟩

/-- C24: in every tree made from `BTree()` by calls of `insert`, all leaves are at the same
depth. Every pass of a further call of `insert` keeps the height, unless it splits the root:
then `makeRoot` builds an inner node with `count = 1` whose children are the two halves, one
level higher. The call returns, splits the root at most once, and the height of the tree it
returns is the former height plus the number of splits of the root. -/
theorem tree_stays_balanced {K V : Type} [LinearOrder K] [Inhabited K] [Inhabited V]
    (cap : Capacity) (hleaf : 2 ≤ cap.leafMax) (hinner : 3 ≤ cap.innerMax) (t : BTree K V)
    (h : Reachable cap t) :
    Node.Balanced t.root (Node.height t.root) ∧
    ∀ (k : K) (v : V),
      (∀ m,
        match insertDescend cap k v (BTree.passes cap k v m t).root with
        | .done n1 =>
          Node.Balanced n1 (Node.height n1) ∧
          Node.height n1 = Node.height (BTree.passes cap k v m t).root
        | .restart n1 =>
          Node.Balanced n1 (Node.height n1) ∧
          Node.height n1 = Node.height (BTree.passes cap k v m t).root
        | .split left sep right =>
          Node.Balanced (makeRoot sep left right) (Node.height (makeRoot sep left right)) ∧
          Node.height (makeRoot sep left right)
            = Node.height (BTree.passes cap k v m t).root + 1 ∧
          ∃ keysN childrenN, makeRoot sep left right = .inner 1 keysN childrenN ∧
            keysN 0 = sep ∧ childrenN 0 = left ∧ childrenN 1 = right
        | .fault => False
        | .unfinished => False) ∧
      ∃ t1 N,
        (∀ fuel, N ≤ fuel → BTree.insert cap fuel t k v = some t1 ∧
          BTree.rootSplits cap fuel t k v = BTree.rootSplits cap N t k v) ∧
        Node.Balanced t1.root (Node.height t1.root) ∧
        BTree.rootSplits cap N t k v ≤ 1 ∧
        Node.height t1.root = Node.height t.root + BTree.rootSplits cap N t k v := by
  have hs := reachable_search cap hleaf hinner t h
  obtain ⟨h0, hb⟩ := reachable_balanced cap hleaf hinner t h
  have hh := balanced_height _ _ hb
  refine ⟨hh ▸ hb, fun k v => ⟨fun m => ?_, ?_⟩⟩
  · have hsm := passes_search cap hleaf hinner k v m t hs
    obtain ⟨hm, hbm⟩ := passes_balanced cap hleaf hinner k v m t hs ⟨h0, hb⟩
    have hhm := balanced_height _ _ hbm
    have h1 := insertDescend_balanced cap hleaf hinner k v _ ⊥ ⊤ hsm (WithBot.bot_lt_coe _)
      le_top hm hbm
    cases hd : insertDescend cap k v (BTree.passes cap k v m t).root with
    | done n1 =>
      rw [hd] at h1
      simp only
      have := balanced_height _ _ h1
      rw [this, hhm]
      exact ⟨h1, rfl⟩
    | restart n1 =>
      rw [hd] at h1
      simp only
      have := balanced_height _ _ h1
      rw [this, hhm]
      exact ⟨h1, rfl⟩
    | split left sep right =>
      rw [hd] at h1
      simp only
      have h2 := makeRoot_balanced sep left right hm h1.1 h1.2
      have := balanced_height _ _ h2
      rw [this, hhm]
      exact ⟨h2, rfl, makeRoot_children sep left right⟩
    | fault => rw [hd] at h1; exact h1
    | unfinished => rw [hd] at h1; exact h1
  · obtain ⟨t1, h1⟩ := insert_returns cap hleaf hinner k v _ t hs (Nat.lt_succ_self _)
    obtain ⟨e1, e2, _, _, _⟩ := insert_counts cap hleaf hinner k v _ t t1 h0 hs hb
      (reachable_counter cap t h) h1
    obtain ⟨b, hp⟩ := roomy_path cap k t.root ⊥ ⊤ h0 hs (WithBot.bot_lt_coe _) le_top
      (reachable_roomy cap hleaf hinner t h) hb
    have hone : (fullPath cap k t.root).count true ≤ 1 := by
      rw [hp]
      exact (restartBound_roomy h0 b).2
    have hh1 := balanced_height _ _ e1
    refine ⟨t1, _, fun fuel hf => ⟨insert_mono cap k v _ t t1 h1 fuel hf,
      (insert_counts_mono cap k v _ t t1 h1 fuel hf).1⟩, ?_, le_trans e2 hone, ?_⟩
    · rw [hh1]
      exact e1
    · rw [hh1, hh]

/-- Witness of C24: the tree after four inserts with two entries per leaf and three per inner
node, and the call `insert(5, 50)`, which splits the root. -/
theorem tree_stays_balanced_witness :
    Reachable { leafMax := 2, innerMax := 3 } grown ∧
    Node.Balanced grown.root (Node.height grown.root) ∧ Node.height grown.root = 2 ∧
    BTree.rootSplits { leafMax := 2, innerMax := 3 } 4 grown 5 50 = 1 ∧
    ∃ t1 N,
      (∀ fuel, N ≤ fuel →
        BTree.insert { leafMax := 2, innerMax := 3 } fuel grown 5 50 = some t1 ∧
        BTree.rootSplits { leafMax := 2, innerMax := 3 } fuel grown 5 50
          = BTree.rootSplits { leafMax := 2, innerMax := 3 } N grown 5 50) ∧
      Node.Balanced t1.root (Node.height t1.root) ∧
      BTree.rootSplits { leafMax := 2, innerMax := 3 } N grown 5 50 ≤ 1 ∧
      Node.height t1.root
        = Node.height grown.root + BTree.rootSplits { leafMax := 2, innerMax := 3 } N grown 5 50 :=
  have hr : Reachable { leafMax := 2, innerMax := 3 } grown :=
    reachable_insertAll _ 4 [(1, 10), (2, 20), (3, 30), (4, 40)] _ _ Reachable.new
      (some_getD_of_isSome _ _ (by decide))
  have h := tree_stays_balanced { leafMax := 2, innerMax := 3 } (by decide) (by decide) grown hr
  ⟨hr, h.1, by decide, by decide, (h.2 5 50).2⟩

/-- C25, as stated, fails: with four entries per leaf and per inner node, the ninth insert
splits the root, an inner node with three keys, and leaves an inner node with `count = 0`
as the first child of the new root. -/
theorem inner_node_without_key_counterexample :
    Reachable { leafMax := 4, innerMax := 4 } nine ∧ firstChildCount nine.root = some 0 ∧
    ¬ Node.Bounded { leafMax := 4, innerMax := 4 } 1 nine.root := by
  have hr : Reachable { leafMax := 4, innerMax := 4 } nine :=
    reachable_insertAll _ 3 _ _ _ Reachable.new (some_getD_of_isSome _ _ (by decide))
  have hc : firstChildCount nine.root = some 0 := by decide
  refine ⟨hr, hc, fun hb => ?_⟩
  generalize nine.root = n at hc hb
  cases n with
  | leaf count keys payloads => simp [firstChildCount] at hc
  | inner count keys children =>
    have h0 := hb.2.2 0 (Nat.zero_le _)
    simp only [firstChildCount] at hc
    generalize children 0 = c at hc h0
    cases c with
    | leaf count1 keys1 payloads1 => simp at hc
    | inner count1 keys1 children1 =>
      simp only [Option.some.injEq] at hc
      have := h0.1
      omega

/-- C25, amended: in every tree made from `BTree()` by calls of `insert`, and after every pass
of a further call, every leaf has `count ≤ maxEntries` and every inner node has
`count ≤ maxEntries - 1`, and `1 ≤ count` when inner nodes have `maxEntries ≥ 5`; every index
at which `BTreeLeaf::insert`, `BTreeLeaf::split`, `BTreeInner::insert`, `BTreeInner::split` and
`lowerBound` read or write an array in a pass is below `maxEntries`. -/
theorem capacity_never_exceeded {K V : Type} [LinearOrder K] [Inhabited K] [Inhabited V]
    (cap : Capacity) (hleaf : 2 ≤ cap.leafMax) (hinner : 3 ≤ cap.innerMax) (t : BTree K V)
    (h : Reachable cap t) :
    Node.Bounded cap 0 t.root ∧ (5 ≤ cap.innerMax → Node.Bounded cap 1 t.root) ∧
    ∀ (k : K) (v : V) (m : Nat),
      Node.Bounded cap 0 (BTree.passes cap k v m t).root ∧
      (5 ≤ cap.innerMax → Node.Bounded cap 1 (BTree.passes cap k v m t).root) ∧
      ∀ x, x ∈ insertDescendSlots cap k v (BTree.passes cap k v m t).root → x.2 < x.1 := by
  have hs := reachable_search cap hleaf hinner t h
  have h0 : 0 + 1 ≤ (cap.innerMax - 1) / 2 := by omega
  have h1 : 5 ≤ cap.innerMax → 1 + 1 ≤ (cap.innerMax - 1) / 2 := fun h5 => by omega
  have hb0 := reachable_bounded cap hleaf hinner 0 (Nat.zero_le _) h0 t h
  refine ⟨hb0, fun h5 => reachable_bounded cap hleaf hinner 1 (le_refl _) (h1 h5) t h,
    fun k v m => ?_⟩
  have hbm := passes_bounded cap hleaf hinner 0 (Nat.zero_le _) h0 k v m t hs hb0
  refine ⟨hbm, fun h5 => ?_, ?_⟩
  · exact passes_bounded cap hleaf hinner 1 (le_refl _) (h1 h5) k v m t hs
      (reachable_bounded cap hleaf hinner 1 (le_refl _) (h1 h5) t h)
  · exact insertDescend_slots cap hleaf hinner k v _ ⊥ ⊤
      (passes_search cap hleaf hinner k v m t hs) (WithBot.bot_lt_coe _) le_top hbm

/-- Witness of C25: the tree after nine inserts with four entries per leaf and five per inner
node, and the first pass of `insert(9, 9)`, which splits a leaf. -/
theorem capacity_never_exceeded_witness :
    Reachable { leafMax := 4, innerMax := 5 } nineWide ∧
    Node.Bounded { leafMax := 4, innerMax := 5 } 1 nineWide.root ∧
    Node.Bounded { leafMax := 4, innerMax := 5 } 1
      (BTree.passes { leafMax := 4, innerMax := 5 } 9 9 1 nineWide).root ∧
    ∀ x, x ∈ insertDescendSlots { leafMax := 4, innerMax := 5 } 9 9 nineWide.root → x.2 < x.1 :=
  have hr : Reachable { leafMax := 4, innerMax := 5 } nineWide :=
    reachable_insertAll _ 3 _ _ _ Reachable.new (some_getD_of_isSome _ _ (by decide))
  have h := capacity_never_exceeded { leafMax := 4, innerMax := 5 } (by decide) (by decide)
    nineWide hr
  ⟨hr, h.2.1 (by decide), (h.2.2 9 9 1).2.1 (by decide), (h.2.2 9 9 0).2.2⟩

/-- C26: on every tree made from `BTree()` by calls of `insert`, a call `insert(k, v)` returns
after `r ≤ height + 2` restarts: each of the first `r` passes calls `split` exactly once,
throws, and leaves a tree that differs from the one it found; pass `r` calls no `split` and
returns; `restarts_counter` has grown by `r`. -/
theorem insert_terminates {K V : Type} [LinearOrder K] [Inhabited K] [Inhabited V]
    (cap : Capacity) (hleaf : 2 ≤ cap.leafMax) (hinner : 3 ≤ cap.innerMax) (t : BTree K V)
    (h : Reachable cap t) (k : K) (v : V) :
    ∃ r t1, r ≤ Node.height t.root + 2 ∧
      (∀ fuel, r < fuel →
        BTree.insert cap fuel t k v = some t1 ∧ BTree.restarts cap fuel t k v = r) ∧
      t1.restarts_counter = (t.restarts_counter + r) % 2 ^ 64 ∧
      (∀ i, i < r →
        insertSplits cap k (BTree.passes cap k v i t).root = 1 ∧
        (∀ n1, insertDescend cap k v (BTree.passes cap k v i t).root ≠ .done n1) ∧
        (BTree.passes cap k v (i + 1) t).root ≠ (BTree.passes cap k v i t).root) ∧
      insertSplits cap k (BTree.passes cap k v r t).root = 0 ∧
      (∃ n1, insertDescend cap k v (BTree.passes cap k v r t).root = .done n1) ∧
      BTree.passes cap k v (r + 1) t = t1 := by
  have hs := reachable_search cap hleaf hinner t h
  obtain ⟨h0, hb⟩ := reachable_balanced cap hleaf hinner t h
  have hh := balanced_height _ _ hb
  obtain ⟨t1, h1⟩ := insert_returns cap hleaf hinner k v _ t hs (Nat.lt_succ_self _)
  obtain ⟨_, _, e3, _, e5⟩ := insert_counts cap hleaf hinner k v _ t t1 h0 hs hb
    (reachable_counter cap t h) h1
  obtain ⟨b, hp⟩ := roomy_path cap k t.root ⊥ ⊤ h0 hs (WithBot.bot_lt_coe _) le_top
    (reachable_roomy cap hleaf hinner t h) hb
  have hex := insert_exact cap k v _ t t1 h1
  obtain ⟨p1, p2, p3, p4⟩ := insert_passes cap hleaf hinner k v _ t t1 hs h1
  refine ⟨_, t1, ?_, fun fuel hf => ⟨insert_mono cap k v _ t t1 hex fuel hf, ?_⟩, e5, p1, p2, p3,
    p4⟩
  · have hbound : restartBound (fullPath cap k t.root) ≤ h0 + 2 := by
      rw [hp]
      exact (restartBound_roomy h0 b).1
    rw [hh]
    exact le_trans e3 hbound
  · have hm := insert_mono cap k v _ t t1 hex fuel hf
    by_cases hle : fuel ≤ restartBound (fullPath cap k t.root) + 1
    · exact ((insert_counts_mono cap k v _ t t1 hm _ hle).2).symm
    · exact (insert_counts_mono cap k v _ t t1 h1 _ (by omega)).2

/-- Witness of C26: the tree after four inserts with two entries per leaf and three per inner
node, whose height is 2, and the call `insert(5, 50)`, which restarts three times. -/
theorem insert_terminates_witness :
    Reachable { leafMax := 2, innerMax := 3 } grown ∧ Node.height grown.root = 2 ∧
    BTree.restarts { leafMax := 2, innerMax := 3 } 4 grown 5 50 = 3 ∧
    ∃ r t1, r ≤ Node.height grown.root + 2 ∧
      (∀ fuel, r < fuel →
        BTree.insert { leafMax := 2, innerMax := 3 } fuel grown 5 50 = some t1 ∧
        BTree.restarts { leafMax := 2, innerMax := 3 } fuel grown 5 50 = r) ∧
      t1.restarts_counter = (grown.restarts_counter + r) % 2 ^ 64 ∧
      (∀ i, i < r →
        insertSplits { leafMax := 2, innerMax := 3 } 5
          (BTree.passes { leafMax := 2, innerMax := 3 } 5 50 i grown).root = 1 ∧
        (∀ n1, insertDescend { leafMax := 2, innerMax := 3 } 5 50
          (BTree.passes { leafMax := 2, innerMax := 3 } 5 50 i grown).root ≠ .done n1) ∧
        (BTree.passes { leafMax := 2, innerMax := 3 } 5 50 (i + 1) grown).root
          ≠ (BTree.passes { leafMax := 2, innerMax := 3 } 5 50 i grown).root) ∧
      insertSplits { leafMax := 2, innerMax := 3 } 5
        (BTree.passes { leafMax := 2, innerMax := 3 } 5 50 r grown).root = 0 ∧
      (∃ n1, insertDescend { leafMax := 2, innerMax := 3 } 5 50
        (BTree.passes { leafMax := 2, innerMax := 3 } 5 50 r grown).root = .done n1) ∧
      BTree.passes { leafMax := 2, innerMax := 3 } 5 50 (r + 1) grown = t1 :=
  have hr : Reachable { leafMax := 2, innerMax := 3 } grown :=
    reachable_insertAll _ 4 [(1, 10), (2, 20), (3, 30), (4, 40)] _ _ Reachable.new
      (some_getD_of_isSome _ _ (by decide))
  ⟨hr, by decide, by decide,
    insert_terminates { leafMax := 2, innerMax := 3 } (by decide) (by decide) grown hr 5 50⟩

end btree

namespace leanstore

/-! ## Buffer manager: consistency of the containers -/

theorem mem_eraseNode {fifo : List (Nat × Nat)} {itr : Nat} {n : Nat × Nat} :
    n ∈ eraseNode fifo itr ↔ n ∈ fifo ∧ n.1 ≠ itr := by
  simp [eraseNode, List.mem_filter]

theorem nodeAt_mem {fifo : List (Nat × Nat)} {itr bf : Nat} (h : nodeAt fifo itr = some bf) :
    (itr, bf) ∈ fifo := by
  unfold nodeAt at h
  cases hf : fifo.find? (fun n => decide (n.1 = itr)) with
  | none => simp [hf] at h
  | some n =>
    simp [hf] at h
    have h1 := List.find?_some hf
    have h2 := List.mem_of_find?_eq_some hf
    simp at h1
    obtain ⟨a, b⟩ := n
    simp at h h1
    subst h h1
    exact h2

theorem eraseNode_sublist (fifo : List (Nat × Nat)) (itr : Nat) :
    (eraseNode fifo itr).Sublist fifo :=
  List.filter_sublist _

theorem eraseNode_of_lt {fifo : List (Nat × Nat)} {itr : Nat}
    (h : ∀ n ∈ fifo, n.1 < itr) : eraseNode fifo itr = fifo := by
  unfold eraseNode
  rw [List.filter_eq_self]
  intro n hn
  have := h n hn
  simp
  omega

theorem eraseNode_append_fresh {fifo : List (Nat × Nat)} {itr bf : Nat}
    (h : ∀ n ∈ fifo, n.1 < itr) : eraseNode (fifo ++ [(itr, bf)]) itr = fifo := by
  have h1 := eraseNode_of_lt h
  unfold eraseNode at h1 ⊢
  rw [List.filter_append, h1]
  simp

theorem nodeAt_append_fresh {fifo : List (Nat × Nat)} {itr bf : Nat}
    (h : ∀ n ∈ fifo, n.1 < itr) : nodeAt (fifo ++ [(itr, bf)]) itr = some bf := by
  unfold nodeAt
  rw [List.find?_append]
  have : fifo.find? (fun n => decide (n.1 = itr)) = none := by
    rw [List.find?_eq_none]
    intro n hn
    have := h n hn
    simp
    omega
  simp [this]

/-- After the node of `bf` is erased, `bf` is in no node of the FIFO. -/
theorem not_mem_eraseNode {fifo : List (Nat × Nat)} {itr bf : Nat}
    (hn : (fifo.map Prod.snd).Nodup) (hm : (itr, bf) ∈ fifo) :
    bf ∉ (eraseNode fifo itr).map Prod.snd := by
  intro h
  rw [List.mem_map] at h
  obtain ⟨n, hn1, hn2⟩ := h
  rw [mem_eraseNode] at hn1
  have := List.inj_on_of_nodup_map hn hn1.1 hm (by simpa using hn2)
  apply hn1.2
  rw [this]

theorem consistent_init (fl : Flags) (disk : Nat → Page) (hfl : fl.inRange) :
    Consistent (BufferManager.init fl disk) where
  free_nodup := List.nodup_range _
  pids_nodup := List.nodup_range _
  fifo_nodup := by simp [BufferManager.init]
  itr_nodup := by simp [BufferManager.init]
  itr_lt := by simp [BufferManager.init]
  disjoint := by simp [BufferManager.init]
  hot_out := by simp [BufferManager.init, BufferFrame.initial]
  counter_lt := by
    have := hfl.1
    simp only [BufferManager.init]
    omega

theorem consistent_allocatePage {s : BufferManager} (h : Consistent s) :
    Consistent (allocatePage s).1 := by
  unfold allocatePage
  split
  · rename_i pid pids bf frees hp hf
    have hfn := h.free_nodup
    have hpn := h.pids_nodup
    rw [hf] at hfn
    rw [hp] at hpn
    rw [List.nodup_cons] at hfn hpn
    refine ⟨hfn.2, hpn.2, h.fifo_nodup, h.itr_nodup, h.itr_lt, ?_, ?_, Nat.mod_lt _ (by norm_num)⟩
    · intro f hfm
      exact h.disjoint f (by rw [hf]; exact List.mem_cons_of_mem _ hfm)
    · intro f hs
      by_cases hfb : f = bf
      · subst hfb
        exact ⟨hfn.1, h.disjoint f (by rw [hf]; exact List.mem_cons_self _ _)⟩
      · simp only [setFrame, if_neg hfb] at hs
        have := h.hot_out f hs
        rw [hf] at this
        exact ⟨fun hm => this.1 (List.mem_cons_of_mem _ hm), this.2⟩
  · exact h

theorem consistent_resolveSwip {s : BufferManager} (h : Consistent s) (guardValid : Bool)
    (swip_value : Swip) : Consistent (resolveSwip s guardValid swip_value).1 := by
  unfold resolveSwip
  split
  · split <;> exact h
  · rename_i pid
    split
    · exact h
    · split
      · exact h
      · rename_i cf hcf
        split
        · -- NOT_LOADED
          dsimp only
          split
          · exact ⟨h.free_nodup, h.pids_nodup, h.fifo_nodup, h.itr_nodup, h.itr_lt, h.disjoint,
              h.hot_out, h.counter_lt⟩
          · rename_i bf frees hf
            have hfn := h.free_nodup
            rw [hf] at hfn
            rw [List.nodup_cons] at hfn
            have hbf : bf ∉ s.cooling_fifo_queue.map Prod.snd :=
              h.disjoint bf (by rw [hf]; exact List.mem_cons_self _ _)
            have hout : ∀ f, (s.bfs f).header.state = .HOT →
                f ∉ frees ∧ f ∉ s.cooling_fifo_queue.map Prod.snd := by
              intro f hs
              have := h.hot_out f hs
              rw [hf] at this
              exact ⟨fun hm => this.1 (List.mem_cons_of_mem _ hm), this.2⟩
            have hdis : ∀ f ∈ frees, f ∉ s.cooling_fifo_queue.map Prod.snd :=
              fun f hfm => h.disjoint f (by rw [hf]; exact List.mem_cons_of_mem _ hfm)
            split
            · exact ⟨hfn.2, h.pids_nodup, h.fifo_nodup, h.itr_nodup, h.itr_lt, hdis, hout,
                h.counter_lt⟩
            · refine ⟨hfn.2, h.pids_nodup, ?_, ?_, ?_, ?_, ?_, h.counter_lt⟩
              · simp only [List.map_append, List.map_cons, List.map_nil]
                rw [List.nodup_append]
                refine ⟨h.fifo_nodup, List.nodup_singleton _, ?_⟩
                intro a ha hb
                simp at hb
                subst hb
                exact hbf ha
              · simp only [List.map_append, List.map_cons, List.map_nil]
                rw [List.nodup_append]
                refine ⟨h.itr_nodup, List.nodup_singleton _, ?_⟩
                intro a ha hb
                rw [List.mem_singleton] at hb
                rw [List.mem_map] at ha
                obtain ⟨n, hn, hna⟩ := ha
                have := h.itr_lt n hn
                omega
              · intro n hn
                rw [List.mem_append] at hn
                rcases hn with hn | hn
                · have := h.itr_lt n hn
                  simp only
                  omega
                · simp at hn
                  subst hn
                  simp
              · intro f hfm
                simp only [List.map_append, List.map_cons, List.map_nil, List.mem_append,
                  List.mem_singleton, not_or]
                refine ⟨hdis f hfm, ?_⟩
                intro he
                subst he
                exact hfn.1 hfm
              · intro f hs
                by_cases hfb : f = bf
                · subst hfb
                  simp only [setFrame, if_pos] at hs
                  have := h.hot_out f hs
                  rw [hf] at this
                  exact absurd (List.mem_cons_self _ _) this.1
                · simp only [setFrame, if_neg hfb] at hs
                  have := hout f hs
                  refine ⟨this.1, ?_⟩
                  simp only [List.map_append, List.map_cons, List.map_nil, List.mem_append,
                    List.mem_singleton, not_or]
                  exact ⟨this.2, hfb⟩
        · exact h
        · -- COOLING
          split
          · exact h
          · rename_i bf hnode
            cases hitr : cf.fifo_itr with
            | none => simp [hitr] at hnode
            | some itr =>
              simp only [hitr, Option.bind_some, Option.getD_some] at hnode ⊢
              have hm := nodeAt_mem hnode
              have hsub := eraseNode_sublist s.cooling_fifo_queue itr
              have hnot := not_mem_eraseNode h.fifo_nodup hm
              refine ⟨h.free_nodup, h.pids_nodup, h.fifo_nodup.sublist (hsub.map _),
                h.itr_nodup.sublist (hsub.map _), ?_, ?_, ?_, h.counter_lt⟩
              · intro n hn
                exact h.itr_lt n (hsub.subset hn)
              · intro f hfm hc
                exact h.disjoint f hfm ((hsub.map _).subset hc)
              · intro f hs
                by_cases hfb : f = bf
                · subst hfb
                  refine ⟨?_, hnot⟩
                  intro hfm
                  exact h.disjoint f hfm (List.mem_map_of_mem Prod.snd hm)
                · simp only [setFrame, if_neg hfb] at hs
                  have := h.hot_out f hs
                  exact ⟨this.1, fun hc => this.2 ((hsub.map _).subset hc)⟩

theorem consistent_drainLoop (rest : List (Nat × Nat)) :
    ∀ (s : BufferManager) (wb : List WriteEntry), Consistent s →
      (∀ n ∈ rest, n ∈ s.cooling_fifo_queue) → (rest.map Prod.fst).Nodup →
      Consistent (drainLoop s wb rest).1 := by
  induction rest with
  | nil => intro s wb h _ _; exact h
  | cons n rest ih =>
    intro s wb h hsub hnd
    obtain ⟨itr, bf⟩ := n
    unfold drainLoop
    simp only [List.map_cons, List.nodup_cons] at hnd
    have hrest : ∀ n ∈ rest, n ∈ s.cooling_fifo_queue :=
      fun n hn => hsub n (List.mem_cons_of_mem _ hn)
    have hm : (itr, bf) ∈ s.cooling_fifo_queue := hsub _ (List.mem_cons_self _ _)
    dsimp only
    split
    · split
      · apply ih _ _ _ _ hnd.2
        · have hsl := eraseNode_sublist s.cooling_fifo_queue itr
          have hbfm : bf ∈ s.cooling_fifo_queue.map Prod.snd := List.mem_map_of_mem Prod.snd hm
          have hbf : bf ∉ s.dram_free_bfs := fun hc => h.disjoint bf hc hbfm
          refine ⟨?_, h.pids_nodup, h.fifo_nodup.sublist (hsl.map _),
            h.itr_nodup.sublist (hsl.map _), ?_, ?_, ?_, Nat.mod_lt _ (by norm_num)⟩
          · rw [List.nodup_append]
            refine ⟨h.free_nodup, List.nodup_singleton _, ?_⟩
            intro a ha hb
            rw [List.mem_singleton] at hb
            subst hb
            exact hbf ha
          · intro n hn
            exact h.itr_lt n (hsl.subset hn)
          · intro f hfm
            rw [List.mem_append, List.mem_singleton] at hfm
            rcases hfm with hfm | hfm
            · exact fun hc => h.disjoint f hfm ((hsl.map _).subset hc)
            · subst hfm
              exact not_mem_eraseNode h.fifo_nodup hm
          · intro f hs
            have := h.hot_out f hs
            refine ⟨?_, fun hc => this.2 ((hsl.map _).subset hc)⟩
            rw [List.mem_append, List.mem_singleton, not_or]
            refine ⟨this.1, ?_⟩
            intro he
            subst he
            exact this.2 hbfm
        · intro n hn
          rw [mem_eraseNode]
          refine ⟨hrest n hn, ?_⟩
          intro he
          apply hnd.1
          rw [← he]
          exact List.mem_map_of_mem Prod.fst hn
      · exact ih _ _ h hrest hnd.2
    · exact ih _ _ h hrest hnd.2

theorem consistent_completionPass {s : BufferManager} (h : Consistent s) (lockTaken : Bool)
    (bf lsn : Nat) : Consistent (completionPass s lockTaken bf lsn) := by
  unfold completionPass
  split
  · refine ⟨h.free_nodup, h.pids_nodup, h.fifo_nodup, h.itr_nodup, h.itr_lt, h.disjoint, ?_,
      h.counter_lt⟩
    intro f hs
    apply h.hot_out f
    by_cases hfb : f = bf
    · subst hfb
      simpa [setFrame] using hs
    · simpa [setFrame, hfb] using hs
  · exact h

theorem consistent_providerStep (fl : Flags) {s : BufferManager} (h : Consistent s)
    (p : Provider) (env : ProviderInput) : Consistent (providerStep fl s p env).1 := by
  unfold providerStep
  split
  · split
    · split
      · exact h
      · dsimp only
        split
        · exact h
        · rename_i hhot
          rw [not_not] at hhot
          have hr := h.hot_out _ hhot
          split
          · exact h
          · exact h
          · split
            · exact h
            · refine ⟨h.free_nodup, h.pids_nodup, ?_, ?_, ?_, ?_, ?_, h.counter_lt⟩
              · simp only [List.map_append, List.map_cons, List.map_nil]
                rw [List.nodup_append]
                refine ⟨h.fifo_nodup, List.nodup_singleton _, ?_⟩
                intro a ha hb
                rw [List.mem_singleton] at hb
                subst hb
                exact hr.2 ha
              · simp only [List.map_append, List.map_cons, List.map_nil]
                rw [List.nodup_append]
                refine ⟨h.itr_nodup, List.nodup_singleton _, ?_⟩
                intro a ha hb
                rw [List.mem_singleton] at hb
                rw [List.mem_map] at ha
                obtain ⟨n, hn, hna⟩ := ha
                have := h.itr_lt n hn
                omega
              · intro n hn
                rw [List.mem_append] at hn
                rcases hn with hn | hn
                · have := h.itr_lt n hn
                  simp only
                  omega
                · simp at hn
                  subst hn
                  simp
              · intro f hfm
                simp only [List.map_append, List.map_cons, List.map_nil, List.mem_append,
                  List.mem_singleton, not_or]
                refine ⟨h.disjoint f hfm, ?_⟩
                intro he
                subst he
                exact hr.1 hfm
              · intro f hs
                by_cases hfb : f = p.r_buffer
                · subst hfb
                  simp [setFrame] at hs
                · simp only [setFrame, if_neg hfb] at hs
                  have := h.hot_out f hs
                  refine ⟨this.1, ?_⟩
                  simp only [List.map_append, List.map_cons, List.map_nil, List.mem_append,
                    List.mem_singleton, not_or]
                  exact ⟨this.2, hfb⟩
    · exact h
  · have hd := consistent_drainLoop s.cooling_fifo_queue s p.async_write_buffer h
      (fun _ hn => hn) h.itr_nodup
    split
    rename_i s1 wb1 heq
    rw [heq] at hd
    split
    · exact consistent_completionPass hd _ _ _
    · exact hd

/-- Every reachable state of the buffer manager is consistent. -/
theorem reachable_consistent {fl : Flags} {s : BufferManager} (h : Reachable fl s) :
    Consistent s := by
  induction h with
  | init disk hfl => exact consistent_init fl disk hfl
  | allocatePage _ ih => exact consistent_allocatePage ih
  | resolveSwip g sw _ ih => exact consistent_resolveSwip ih g sw
  | providerStep p env _ ih => exact consistent_providerStep fl ih p env
  | userWrite bf page _ hhot ih =>
    refine ⟨ih.free_nodup, ih.pids_nodup, ih.fifo_nodup, ih.itr_nodup, ih.itr_lt, ih.disjoint, ?_,
      ih.counter_lt⟩
    intro f hs
    apply ih.hot_out f
    by_cases hfb : f = bf
    · subst hfb
      exact hhot
    · simpa [setFrame, hfb] using hs
  | fileWrite pid page _ ih =>
    exact ⟨ih.free_nodup, ih.pids_nodup, ih.fifo_nodup, ih.itr_nodup, ih.itr_lt, ih.disjoint,
      ih.hot_out, ih.counter_lt⟩

end leanstore

namespace leanstore

/-! ## Buffer manager: `allocatePage` -/

theorem allocatePage_cons {s : BufferManager} {free_pid free_bf : Nat} {pids frees : List Nat}
    (hp : s.ssd_free_pages = free_pid :: pids) (hf : s.dram_free_bfs = free_bf :: frees) :
    allocatePage s =
      ({ s with
          ssd_free_pages := pids
          bfs := setFrame s.bfs free_bf
            { (s.bfs free_bf) with header := { (s.bfs free_bf).header with
                pid := free_pid, lock := 2, state := .HOT,
                lastWrittenLSN := (s.bfs free_bf).page.LSN } }
          dram_free_bfs := frees
          dram_free_bfs_counter := (s.dram_free_bfs_counter + (2 ^ 64 - 1)) % 2 ^ 64 },
        .returned free_bf) := by
  unfold allocatePage
  rw [hp, hf]

theorem allocatePage_stop {s : BufferManager}
    (h : s.ssd_free_pages = [] ∨ s.dram_free_bfs = []) :
    allocatePage s = (s, .stopped .assertion) := by
  unfold allocatePage
  rcases h with h | h
  · rw [h]
  · rw [h]
    split
    · rename_i hh
      cases hh
    · rfl

/-- Successive calls hand out a prefix of the free queue, give the frames a prefix of the
queue of page identifiers, in order, and leave every other frame alone. -/
theorem allocatePages_prefix (n : Nat) :
    ∀ s : BufferManager, s.dram_free_bfs.Nodup →
      (allocatePages n s).2 <+: s.dram_free_bfs ∧
      (allocatePages n s).2.map (fun f => ((allocatePages n s).1.bfs f).header.pid)
        <+: s.ssd_free_pages ∧
      ∀ g, g ∉ (allocatePages n s).2 → (allocatePages n s).1.bfs g = s.bfs g := by
  induction n with
  | zero =>
    intro s _
    simp [allocatePages]
  | succ n ih =>
    intro s hnd
    cases hp : s.ssd_free_pages with
    | nil =>
      simp [allocatePages, allocatePage_stop (Or.inl hp)]
    | cons free_pid pids =>
      cases hf : s.dram_free_bfs with
      | nil =>
        simp [allocatePages, allocatePage_stop (Or.inr hf)]
      | cons free_bf frees =>
        rw [hf, List.nodup_cons] at hnd
        have hstep := allocatePage_cons hp hf
        have e1 : (allocatePage s).1.dram_free_bfs = frees := by rw [hstep]
        have e2 : (allocatePage s).1.ssd_free_pages = pids := by rw [hstep]
        have e3 : ((allocatePage s).1.bfs free_bf).header.pid = free_pid := by
          rw [hstep]; simp [setFrame]
        have e4 : ∀ g, g ≠ free_bf → (allocatePage s).1.bfs g = s.bfs g := by
          intro g hg; rw [hstep]; simp [setFrame, hg]
        have e5 : (allocatePage s).2 = .returned free_bf := by rw [hstep]
        simp only [allocatePages]
        generalize allocatePage s = q at e1 e2 e3 e4 e5 ⊢
        obtain ⟨s1, ex⟩ := q
        simp only at e1 e2 e3 e4 e5
        subst e5
        simp only
        obtain ⟨h1, h2, h3⟩ := ih s1 (by rw [e1]; exact hnd.2)
        rw [e1] at h1
        rw [e2] at h2
        have hnot : free_bf ∉ (allocatePages n s1).2 := fun hc => hnd.1 (h1.subset hc)
        refine ⟨?_, ?_, ?_⟩
        · exact (List.prefix_cons_inj _).2 h1
        · rw [List.map_cons, h3 _ hnot, e3]
          exact (List.prefix_cons_inj _).2 h2
        · intro g hg
          rw [List.mem_cons, not_or] at hg
          rw [h3 g hg.2]
          exact e4 g hg.1

end leanstore

namespace leanstore

/-! ## Buffer manager: `resolveSwip` and the page provider -/

theorem resolveSwip_notLoaded {s : BufferManager} {pid bf : Nat} {frees : List Nat}
    {cf : CIOFrame} {page : Page} (hcf : s.cooling_io_ht pid = some cf)
    (hst : cf.state = .NOT_LOADED) (hf : s.dram_free_bfs = bf :: frees)
    (hpg : s.ssd pid = some page) :
    resolveSwip s true (.unswizzled pid) =
      ({ s with
          dram_free_bfs := frees
          bfs := setFrame s.bfs bf
            { header := { (s.bfs bf).header with lastWrittenLSN := page.LSN }, page := page }
          cooling_fifo_queue := s.cooling_fifo_queue ++ [(s.next_itr, bf)]
          next_itr := s.next_itr + 1
          cooling_io_ht := putCIOFrame (putCIOFrame s.cooling_io_ht pid
              { cf with readers_counter := cf.readers_counter + 1, state := .READING }) pid
            { state := .COOLING, readers_counter := cf.readers_counter + 1,
              fifo_itr := some s.next_itr } },
        .unswizzled pid, .stopped .restart) := by
  unfold resolveSwip
  simp only [Bool.not_true, Bool.false_eq_true, if_false, hcf, hst, hf, hpg]

theorem resolveSwip_cooling (s : BufferManager) (pid bf itr : Nat) (cf : CIOFrame)
    (hcf : s.cooling_io_ht pid = some cf) (hst : cf.state = .COOLING)
    (hit : cf.fifo_itr = some itr) (hnode : nodeAt s.cooling_fifo_queue itr = some bf) :
    resolveSwip s true (.unswizzled pid) =
      ({ s with
          cooling_fifo_queue := eraseNode s.cooling_fifo_queue itr
          cooling_io_ht := putCIOFrame s.cooling_io_ht pid { cf with state := .NOT_LOADED }
          bfs := setFrame s.bfs bf
            { (s.bfs bf) with header := { (s.bfs bf).header with state := .HOT } }
          swizzled_pages_counter := s.swizzled_pages_counter + 1 },
        .swizzled bf, .returned bf) := by
  unfold resolveSwip
  have hb : (some itr).bind (nodeAt s.cooling_fifo_queue) = some bf := by
    exact hnode
  simp only [Bool.not_true, Bool.false_eq_true, if_false, hcf, hst, hit, hb, Option.getD_some]

theorem providerStep_cool (fl : Flags) {s : BufferManager} {p : Provider} {env : ProviderInput}
    (hstage : p.to_cooling_stage = true) (hneed : coolingNeeded fl s = true)
    (hguard : env.guardsValid = true) (hhot : (s.bfs p.r_buffer).header.state = .HOT)
    (hch : ∀ c ∈ env.children, c.isSwizzled = false) (hpar : env.parent = .swizzled p.r_buffer) :
    providerStep fl s p env =
      ({ s with
          cooling_io_ht := putCIOFrame s.cooling_io_ht (s.bfs p.r_buffer).header.pid
            { (cioAt s.cooling_io_ht (s.bfs p.r_buffer).header.pid) with
              state := .COOLING, fifo_itr := some s.next_itr }
          cooling_fifo_queue := s.cooling_fifo_queue ++ [(s.next_itr, p.r_buffer)]
          next_itr := s.next_itr + 1
          bfs := setFrame s.bfs p.r_buffer
            { (s.bfs p.r_buffer) with header := { (s.bfs p.r_buffer).header with state := .COLD } }
          unswizzled_pages_counter := s.unswizzled_pages_counter + 1 },
        { p with r_buffer := env.random, to_cooling_stage := false },
        .unswizzled (s.bfs p.r_buffer).header.pid, .next) := by
  have hfind : env.children.find? Swip.isSwizzled = none := by
    rw [List.find?_eq_none]
    intro c hc
    simp [hch c hc]
  unfold providerStep
  simp only [hstage, hneed, hguard, hhot, hfind, hpar, if_true, Bool.not_true, Bool.false_eq_true,
    if_false, ne_eq, not_true_eq_false]

end leanstore

namespace leanstore

/-! ## The draining loop of the page provider -/

/-- The loop of the completion callback never leaves: whatever the passes do, no pass ends
the call. -/
theorem completionCallback_none (lockTaken : Nat → Bool) (written_bf written_lsn : Nat) :
    ∀ (fuel pass : Nat) (s : BufferManager),
      completionCallback lockTaken written_bf written_lsn fuel pass s = none := by
  intro fuel
  induction fuel with
  | zero => intro pass s; rfl
  | succ fuel ih => intro pass s; exact ih _ _

/-- The size handed to `ftruncate` is the product exactly when `ssd_pages` is below `2^20`. -/
theorem ssd_total_size_exact_iff (fl : Flags) :
    ssd_total_size fl = fl.ssd_pages * PAGE_SIZE ↔ fl.ssd_pages < 2 ^ 20 := by
  unfold ssd_total_size PAGE_SIZE
  constructor
  · intro h
    have := Nat.mod_lt (fl.ssd_pages * 4096) (show 0 < 2 ^ 32 by norm_num)
    omega
  · intro h
    exact Nat.mod_eq_of_lt (by omega)

end leanstore

namespace leanstore

/-! ## Frames of the cooling FIFO hold no swizzled swip -/

end leanstore

namespace leanstore

/-! ## Buffer manager: the claims -/

/-- C4: in a reachable state whose queues of free page identifiers and free frames are both
non-empty, `allocatePage` returns the frame at the front of `dram_free_bfs`, with `header.pid`
the identifier at the front of `ssd_free_pages`, `header.state = HOT` and
`header.lastWrittenLSN = page.LSN`; exactly that identifier and that frame leave their queues,
`dram_free_bfs_counter` is decremented (modulo `2^64`: by exactly one unless it was zero), and no
other frame is modified. Successive calls return pairwise distinct frames carrying pairwise
distinct page identifiers. -/
theorem allocatePage_postcondition (fl : Flags) (s : BufferManager) (hr : Reachable fl s)
    (free_pid : Nat) (pids : List Nat) (free_bf : Nat) (frees : List Nat)
    (hp : s.ssd_free_pages = free_pid :: pids) (hf : s.dram_free_bfs = free_bf :: frees) :
    (allocatePage s).2 = .returned free_bf ∧
    ((allocatePage s).1.bfs free_bf).header.pid = free_pid ∧
    ((allocatePage s).1.bfs free_bf).header.state = .HOT ∧
    ((allocatePage s).1.bfs free_bf).header.lastWrittenLSN
      = ((allocatePage s).1.bfs free_bf).page.LSN ∧
    (allocatePage s).1.ssd_free_pages = pids ∧ free_pid ∉ pids ∧
    (allocatePage s).1.dram_free_bfs = frees ∧ free_bf ∉ frees ∧
    (allocatePage s).1.dram_free_bfs_counter = (s.dram_free_bfs_counter + (2 ^ 64 - 1)) % 2 ^ 64 ∧
    (0 < s.dram_free_bfs_counter →
      (allocatePage s).1.dram_free_bfs_counter + 1 = s.dram_free_bfs_counter) ∧
    (∀ g, g ≠ free_bf → (allocatePage s).1.bfs g = s.bfs g) ∧
    (∀ n, (allocatePages n s).2.Nodup ∧
      ((allocatePages n s).2.map (fun f => ((allocatePages n s).1.bfs f).header.pid)).Nodup) := by
  have hc := reachable_consistent hr
  have hfn := hc.free_nodup
  have hpn := hc.pids_nodup
  have hlt := hc.counter_lt
  rw [allocatePage_cons hp hf]
  rw [hf, List.nodup_cons] at hfn
  rw [hp, List.nodup_cons] at hpn
  refine ⟨rfl, ?_, ?_, ?_, rfl, hpn.1, rfl, hfn.1, rfl, ?_, ?_, ?_⟩
  · simp [setFrame]
  · simp [setFrame]
  · simp [setFrame]
  · intro hpos
    simp only
    omega
  · intro g hg
    simp [setFrame, hg]
  · intro n
    obtain ⟨h1, h2, _⟩ := allocatePages_prefix n s hc.free_nodup
    exact ⟨hc.free_nodup.sublist h1.sublist, hc.pids_nodup.sublist h2.sublist⟩

/-- Witness of C4: the state after construction with two frames and two pages. -/
theorem allocatePage_postcondition_witness :
    Reachable runFlags run0 ∧ run0.ssd_free_pages = 0 :: [1] ∧ run0.dram_free_bfs = 0 :: [1] ∧
    (allocatePage run0).2 = .returned 0 ∧ ((allocatePage run0).1.bfs 0).header.pid = 0 :=
  have hr : Reachable runFlags run0 := Reachable.init zeroDisk (by decide)
  have h := allocatePage_postcondition runFlags run0 hr 0 [1] 0 [1] rfl rfl
  ⟨hr, rfl, rfl, h.1, h.2.1⟩

/-- C5, as stated, fails: in the state of the run in which both frames and both pages are
allocated, `allocatePage` does not come back to its caller with an error; its assertion on
the size of the queue stops the process. -/
theorem allocatePage_failure_counterexample :
    run2.ssd_free_pages = [] ∧ run2.dram_free_bfs = [] ∧
    (allocatePage run2).2 = .stopped .assertion ∧
    (allocatePage run2).2.reachesCaller = false := by
  decide

/-- C5, amended: if `ssd_free_pages` or `dram_free_bfs` is empty, `allocatePage` stops at one of
its two assertions, before it has changed the queues, the counter or any frame. -/
theorem allocatePage_failure (s : BufferManager)
    (h : s.ssd_free_pages = [] ∨ s.dram_free_bfs = []) :
    allocatePage s = (s, .stopped .assertion) :=
  allocatePage_stop h

/-- Witness of C5, amended: a buffer manager constructed without frames and pages. -/
theorem allocatePage_failure_witness :
    ((BufferManager.init emptyFlags zeroDisk).ssd_free_pages = [] ∨
      (BufferManager.init emptyFlags zeroDisk).dram_free_bfs = []) ∧
    (allocatePage (BufferManager.init emptyFlags zeroDisk)).2 = .stopped .assertion :=
  have h : (BufferManager.init emptyFlags zeroDisk).ssd_free_pages = [] ∨
      (BufferManager.init emptyFlags zeroDisk).dram_free_bfs = [] := Or.inl rfl
  ⟨h, by rw [allocatePage_failure _ h]⟩

/-- C6: in a reachable state, for an unswizzled swip holding `pid` whose CIO frame is
`NOT_LOADED`, with a free frame `bf` at the front of `dram_free_bfs`, the file holding `page`
at `pid * PAGE_SIZE` and a guard that stays valid: the first `resolveSwip` restarts, leaves the
swip unswizzled, sets the CIO frame to `COOLING` and puts `bf` at the tail of the cooling FIFO
with `bf.page = page` and `lastWrittenLSN = page.LSN`; the second `resolveSwip` returns `bf`,
with the swip swizzled to `bf`, `bf` hot, the CIO frame `NOT_LOADED` and `bf` out of the FIFO. -/
theorem resolveSwip_load_then_promote (fl : Flags) (s : BufferManager) (hr : Reachable fl s)
    (pid bf : Nat) (frees : List Nat) (cf : CIOFrame) (page : Page)
    (hcf : s.cooling_io_ht pid = some cf) (hst : cf.state = .NOT_LOADED)
    (hf : s.dram_free_bfs = bf :: frees) (hpg : s.ssd pid = some page) :
    ∃ s1 s2 : BufferManager,
      resolveSwip s true (.unswizzled pid) = (s1, .unswizzled pid, .stopped .restart) ∧
      (s1.cooling_io_ht pid).map (fun c => c.state) = some .COOLING ∧
      s1.cooling_fifo_queue = s.cooling_fifo_queue ++ [(s.next_itr, bf)] ∧
      s1.dram_free_bfs = frees ∧
      (s1.bfs bf).page = page ∧ (s1.bfs bf).header.lastWrittenLSN = (s1.bfs bf).page.LSN ∧
      resolveSwip s1 true (.unswizzled pid) = (s2, .swizzled bf, .returned bf) ∧
      (s2.bfs bf).header.state = .HOT ∧
      (s2.cooling_io_ht pid).map (fun c => c.state) = some .NOT_LOADED ∧
      bf ∉ s2.cooling_fifo_queue.map Prod.snd ∧
      s2.cooling_fifo_queue = s.cooling_fifo_queue ∧ (s2.bfs bf).page = page := by
  have hc := reachable_consistent hr
  have h1 := resolveSwip_notLoaded hcf hst hf hpg
  have h2 := resolveSwip_cooling (resolveSwip s true (.unswizzled pid)).1 pid bf s.next_itr
      ⟨.COOLING, cf.readers_counter + 1, some s.next_itr⟩
      (by rw [h1]; simp [putCIOFrame]) rfl rfl (by rw [h1]; exact nodeAt_append_fresh hc.itr_lt)
  refine ⟨(resolveSwip s true (.unswizzled pid)).1,
    (resolveSwip (resolveSwip s true (.unswizzled pid)).1 true (.unswizzled pid)).1, ?_⟩
  rw [h2, h1]
  refine ⟨rfl, ?_, rfl, rfl, ?_, ?_, rfl, ?_, ?_, ?_, ?_, ?_⟩
  · simp [putCIOFrame]
  · simp [setFrame]
  · simp [setFrame]
  · simp [setFrame]
  · simp [putCIOFrame]
  · simp only
    rw [eraseNode_append_fresh hc.itr_lt]
    exact hc.disjoint bf (by rw [hf]; exact List.mem_cons_self _ _)
  · simp only
    exact eraseNode_append_fresh hc.itr_lt
  · simp [setFrame]

/-- Witness of C6: the root swip of the shorter run, after its page was reclaimed. -/
theorem resolveSwip_load_then_promote_witness :
    Reachable runFlags short2 ∧ short2.cooling_io_ht 0 = some ⟨.NOT_LOADED, 0, some 0⟩ ∧
    short2.dram_free_bfs = 1 :: [0] ∧ short2.ssd 0 = some (zeroDisk 0) ∧
    ∃ s1 s2 : BufferManager,
      resolveSwip short2 true (.unswizzled 0) = (s1, .unswizzled 0, .stopped .restart) ∧
      (s1.cooling_io_ht 0).map (fun c => c.state) = some .COOLING ∧
      s1.cooling_fifo_queue = short2.cooling_fifo_queue ++ [(short2.next_itr, 1)] ∧
      s1.dram_free_bfs = [0] ∧
      (s1.bfs 1).page = zeroDisk 0 ∧ (s1.bfs 1).header.lastWrittenLSN = (s1.bfs 1).page.LSN ∧
      resolveSwip s1 true (.unswizzled 0) = (s2, .swizzled 1, .returned 1) ∧
      (s2.bfs 1).header.state = .HOT ∧
      (s2.cooling_io_ht 0).map (fun c => c.state) = some .NOT_LOADED ∧
      1 ∉ s2.cooling_fifo_queue.map Prod.snd ∧
      s2.cooling_fifo_queue = short2.cooling_fifo_queue ∧ (s2.bfs 1).page = zeroDisk 0 :=
  have hr : Reachable runFlags short2 :=
    Reachable.providerStep _ _ (Reachable.providerStep _ _
      (Reachable.allocatePage (Reachable.init zeroDisk (by decide))))
  ⟨hr, by decide, by decide, by decide,
    resolveSwip_load_then_promote runFlags short2 hr 0 1 [0] ⟨.NOT_LOADED, 0, some 0⟩ (zeroDisk 0)
      (by decide) rfl (by decide) (by decide)⟩

/-- C7, evaluated on the run: the root swip held page 0 before `resolveSwip` swizzled it, and
the frame `resolveSwip` returns for it has `header.pid = 1`. -/
theorem resolveSwip_identity_lost :
    Reachable runFlags run7 ∧
    (resolveSwip run6 true (.unswizzled 0)).2 = (.unswizzled 0, .stopped .restart) ∧
    (resolveSwip run7 true (.unswizzled 0)).2 = (.swizzled 1, .returned 1) ∧
    ((resolveSwip run7 true (.unswizzled 0)).1.bfs 1).header.pid = 1 :=
  ⟨Reachable.resolveSwip _ _ (Reachable.providerStep _ _ (Reachable.providerStep _ _
      (Reachable.providerStep _ _ (Reachable.providerStep _ _ (Reachable.allocatePage
        (Reachable.allocatePage (Reachable.init zeroDisk (by decide)))))))),
    by decide, by decide, by decide⟩

/-- C8: in a reachable state, let `r` be a hot frame without swizzled child whose parent swip
is swizzled to `r`. The cooling step of the page provider unswizzles the swip to `r.header.pid`,
makes `r` cold, appends it to the cooling FIFO and sets the CIO frame of the page to `COOLING`;
`resolveSwip` on the swip, with a valid guard, then returns `r`, with the swip swizzled to `r`,
`r` hot, the CIO frame `NOT_LOADED` and the FIFO as before the cooling step. The page of `r` is
the same in the three states. -/
theorem unswizzle_resolve_round_trip (fl : Flags) (s : BufferManager) (hr : Reachable fl s)
    (p : Provider) (env : ProviderInput) (r : Nat) (hrb : p.r_buffer = r)
    (hstage : p.to_cooling_stage = true) (hneed : coolingNeeded fl s = true)
    (hguard : env.guardsValid = true) (hhot : (s.bfs r).header.state = .HOT)
    (hch : ∀ c ∈ env.children, c.isSwizzled = false) (hpar : env.parent = .swizzled r) :
    ∃ (s1 s2 : BufferManager) (p1 : Provider),
      providerStep fl s p env = (s1, p1, .unswizzled (s.bfs r).header.pid, .next) ∧
      (s1.bfs r).header.state = .COLD ∧
      s1.cooling_fifo_queue = s.cooling_fifo_queue ++ [(s.next_itr, r)] ∧
      (s1.cooling_io_ht (s.bfs r).header.pid).map (fun c => c.state) = some .COOLING ∧
      resolveSwip s1 true (.unswizzled (s.bfs r).header.pid) = (s2, .swizzled r, .returned r) ∧
      (s2.bfs r).header.state = .HOT ∧
      (s2.cooling_io_ht (s.bfs r).header.pid).map (fun c => c.state) = some .NOT_LOADED ∧
      s2.cooling_fifo_queue = s.cooling_fifo_queue ∧
      (s1.bfs r).page = (s.bfs r).page ∧ (s2.bfs r).page = (s.bfs r).page := by
  subst hrb
  have hc := reachable_consistent hr
  have h1 := providerStep_cool fl hstage hneed hguard hhot hch hpar
  have h2 := resolveSwip_cooling (providerStep fl s p env).1 (s.bfs p.r_buffer).header.pid
      p.r_buffer s.next_itr
      ⟨.COOLING, (cioAt s.cooling_io_ht (s.bfs p.r_buffer).header.pid).readers_counter,
        some s.next_itr⟩
      (by rw [h1]; simp [putCIOFrame]) rfl rfl (by rw [h1]; exact nodeAt_append_fresh hc.itr_lt)
  refine ⟨(providerStep fl s p env).1,
    (resolveSwip (providerStep fl s p env).1 true
      (.unswizzled (s.bfs p.r_buffer).header.pid)).1, (providerStep fl s p env).2.1, ?_⟩
  rw [h2, h1]
  refine ⟨rfl, ?_, rfl, ?_, rfl, ?_, ?_, ?_, ?_, ?_⟩
  · simp [setFrame]
  · simp [putCIOFrame]
  · simp [setFrame]
  · simp [putCIOFrame]
  · simp only
    exact eraseNode_append_fresh hc.itr_lt
  · simp [setFrame]
  · simp [setFrame]

/-- Witness of C8: frame 1 of the run, whose parent swip is swizzled to it, is cooled by the
page provider and resolved again. -/
theorem unswizzle_resolve_round_trip_witness :
    Reachable runFlags run2 ∧ coolingNeeded runFlags run2 = true ∧
    (run2.bfs 1).header.state = .HOT ∧
    ∃ (s1 s2 : BufferManager) (p1 : Provider),
      providerStep runFlags run2
          { r_buffer := 1, to_cooling_stage := true, async_write_buffer := [] }
          { random := 0, guardsValid := true, children := [], parent := .swizzled 1,
            completed := none }
        = (s1, p1, .unswizzled (run2.bfs 1).header.pid, .next) ∧
      (s1.bfs 1).header.state = .COLD ∧
      s1.cooling_fifo_queue = run2.cooling_fifo_queue ++ [(run2.next_itr, 1)] ∧
      (s1.cooling_io_ht (run2.bfs 1).header.pid).map (fun c => c.state) = some .COOLING ∧
      resolveSwip s1 true (.unswizzled (run2.bfs 1).header.pid) = (s2, .swizzled 1, .returned 1) ∧
      (s2.bfs 1).header.state = .HOT ∧
      (s2.cooling_io_ht (run2.bfs 1).header.pid).map (fun c => c.state) = some .NOT_LOADED ∧
      s2.cooling_fifo_queue = run2.cooling_fifo_queue ∧
      (s1.bfs 1).page = (run2.bfs 1).page ∧ (s2.bfs 1).page = (run2.bfs 1).page :=
  have hr : Reachable runFlags run2 :=
    Reachable.allocatePage (Reachable.allocatePage (Reachable.init zeroDisk (by decide)))
  ⟨hr, by decide, by decide,
    unswizzle_resolve_round_trip runFlags run2 hr _ _ 1 rfl rfl (by decide) rfl (by decide)
      (by simp) rfl⟩

/-- C9, evaluated on the shorter run: after the page provider reclaimed frame 0, the frame is
in `dram_free_bfs` with `header.state = COLD`; after `resolveSwip` loaded page 0 into frame 1,
that frame is in the cooling FIFO with `header.state = FREE`. -/
theorem residency_states_not_maintained :
    Reachable runFlags short3 ∧
    0 ∈ short2.dram_free_bfs ∧ (short2.bfs 0).header.state = .COLD ∧
    (resolveSwip short2 true (.unswizzled 0)).2 = (.unswizzled 0, .stopped .restart) ∧
    1 ∈ short3.cooling_fifo_queue.map Prod.snd ∧ (short3.bfs 1).header.state = .FREE ∧
    0 ∈ short3.dram_free_bfs ∧ (short3.bfs 0).header.state = .COLD :=
  ⟨Reachable.resolveSwip _ _ (Reachable.providerStep _ _ (Reachable.providerStep _ _
      (Reachable.allocatePage (Reachable.init zeroDisk (by decide))))),
    by decide, by decide, by decide, by decide, by decide, by decide, by decide⟩

/-- C10, evaluated on the shorter run: after `resolveSwip` took frame 1 from `dram_free_bfs`
to load page 0, the queue holds one frame and `dram_free_bfs_counter` is 2. -/
theorem free_counter_not_decremented :
    Reachable runFlags short3 ∧
    short2.dram_free_bfs = [1, 0] ∧ short2.dram_free_bfs_counter = 2 ∧
    (resolveSwip short2 true (.unswizzled 0)).2 = (.unswizzled 0, .stopped .restart) ∧
    short3.dram_free_bfs = [0] ∧ short3.dram_free_bfs_counter = 2 :=
  ⟨Reachable.resolveSwip _ _ (Reachable.providerStep _ _ (Reachable.providerStep _ _
      (Reachable.allocatePage (Reachable.init zeroDisk (by decide))))),
    by decide, by decide, by decide, by decide, by decide⟩

end leanstore

namespace leanstore

/-! ## Claims C11 to C15 -/

/-- C11, evaluated on the run with three frames: `resolveSwip` read page 2 into frame 1, whose
`header.pid` is still 1, and put it in the cooling FIFO with the entry of page 2 in state
`COOLING`, iterator 2. The next pass of the draining loop reclaims frame 1 and erases its
node, but resets the entry of page 1: the entry of page 2 is left in state `COOLING` with an
iterator to the erased node, and the retried `resolveSwip` dereferences it. -/
theorem cooling_table_dangling_iterator :
    Reachable triFlags tri10 ∧
    tri8.cooling_fifo_queue = [(2, 1)] ∧ (tri8.bfs 1).header.pid = 1 ∧
    (tri8.cooling_io_ht 2).map (fun c => (c.state, c.fifo_itr)) = some (.COOLING, some 2) ∧
    tri10.cooling_fifo_queue = [] ∧ tri10.dram_free_bfs = [2, 1, 0] ∧
    (tri10.cooling_io_ht 2).map (fun c => (c.state, c.fifo_itr)) = some (.COOLING, some 2) ∧
    nodeAt tri10.cooling_fifo_queue 2 = none ∧
    (resolveSwip tri10 true (.unswizzled 2)).2 = (.unswizzled 2, .stopped .undefined) :=
  ⟨Reachable.providerStep _ _ (Reachable.providerStep _ _ (Reachable.resolveSwip _ _
      (Reachable.providerStep _ _ (Reachable.providerStep _ _ (Reachable.providerStep _ _
        (Reachable.providerStep _ _ (Reachable.allocatePage (Reachable.allocatePage
          (Reachable.allocatePage (Reachable.init zeroDisk (by decide))))))))))),
    by decide, by decide, by decide, by decide, by decide, by decide, by decide, by decide⟩

/-- C12, evaluated on the run with four frames: frame 2, into which `resolveSwip` read page 1,
is in the cooling FIFO with `header.state = FREE`; the pass of the draining loop tests `isWB`
and `isDirty()` only, erases its node and pushes the frame to `dram_free_bfs`. -/
theorem reclaim_of_frame_not_cold :
    Reachable quadFlags quad6 ∧
    quad6.cooling_fifo_queue = [(1, 2), (2, 0)] ∧ quad6.dram_free_bfs = [3, 1] ∧
    (quad6.bfs 2).header.state = .FREE ∧ (quad6.bfs 2).header.isWB = false ∧
    (quad6.bfs 2).isDirty = false ∧
    (drainStep quadFlags quad6 []).cooling_fifo_queue = [] ∧
    (drainStep quadFlags quad6 []).dram_free_bfs = [3, 1, 2, 0] ∧
    ((drainStep quadFlags quad6 []).bfs 2).header.state = .FREE :=
  ⟨Reachable.providerStep _ _ (Reachable.resolveSwip _ _ (Reachable.providerStep _ _
      (Reachable.providerStep _ _ (Reachable.allocatePage (Reachable.allocatePage
        (Reachable.init zeroDisk (by decide))))))),
    by decide, by decide, by decide, by decide, by decide, by decide, by decide, by decide⟩

/-- C13, evaluated on the run with `async_batch_size = 1`: the cooling FIFO holds frame 1
(dirty), then frame 0 (clean). One pass of the draining loop hands frame 1 to the write
buffer and goes on to frame 0, which it erases from the FIFO and pushes to `dram_free_bfs`:
two frames are processed, and the frame behind the first one is not left untouched. -/
theorem drain_pass_ignores_batch_size :
    Reachable batchFlags batch6 ∧ batchFlags.async_batch_size = 1 ∧
    batch6.cooling_fifo_queue = [(0, 1), (1, 0)] ∧ batch6.dram_free_bfs = [] ∧
    (providerStep batchFlags batch6
        { r_buffer := 0, to_cooling_stage := false, async_write_buffer := [] }
        { random := 0, guardsValid := true, children := [], parent := .swizzled 0,
          completed := none }).2.1.async_write_buffer
      = [{ bf := 1, page := { LSN := 1, dt_id := 0, dt := [] }, lsn := 1 }] ∧
    (drainStep batchFlags batch6 []).cooling_fifo_queue = [(0, 1)] ∧
    (drainStep batchFlags batch6 []).dram_free_bfs = [0] :=
  ⟨Reachable.providerStep _ _ (Reachable.providerStep _ _ (Reachable.providerStep _ _
      (Reachable.userWrite 1 _ (Reachable.allocatePage (Reachable.allocatePage
        (Reachable.init zeroDisk (by decide)))) (by decide)))),
    by decide, by decide, by decide, by decide, by decide, by decide⟩

/-- C14, evaluated on the run with `async_batch_size = 1`, for frame 1 and the copied LSN 1,
with every lock acquisition succeeding: the first pass of the loop of the callback sets
`header.lastWrittenLSN` to 1 and clears `header.isWB`, and the call has not returned after
any number of passes. -/
theorem completion_callback_never_returns :
    Reachable batchFlags batch5 ∧
    ((completionPasses (fun _ => true) 1 1 1 batch5).bfs 1).header.lastWrittenLSN = 1 ∧
    ((completionPasses (fun _ => true) 1 1 1 batch5).bfs 1).header.isWB = false ∧
    ∀ fuel : Nat, completionCallback (fun _ => true) 1 1 fuel 0 batch5 = none :=
  ⟨Reachable.providerStep _ _ (Reachable.providerStep _ _
      (Reachable.userWrite 1 _ (Reachable.allocatePage (Reachable.allocatePage
        (Reachable.init zeroDisk (by decide)))) (by decide))),
    by decide, by decide, fun fuel => completionCallback_none _ _ _ fuel 0 batch5⟩

/-- C15, evaluated at `ssd_pages = 2^20`: the product `ssd_pages * PAGE_SIZE` is `2^32`, the
size handed to `ftruncate` is 0, the offset of page 0 is not inside the file, and a
`resolveSwip` of page 0 stops at the `check` of `readPageSync`. -/
theorem ssd_total_size_wraps :
    wideFlags.inRange ∧ wideFlags.ssd_pages * PAGE_SIZE = 4294967296 ∧
    ssd_total_size wideFlags = 0 ∧
    (BufferManager.init wideFlags zeroDisk).ssd 0 = none ∧
    (resolveSwip (BufferManager.init wideFlags zeroDisk) true (.unswizzled 0)).2
      = (.unswizzled 0, .stopped .check) :=
  ⟨by decide, by decide, by decide, by decide, by decide⟩

end leanstore

namespace leanstore

/-! ## Claims C22 and C23 -/

/-- C23, as stated, fails: the lock word of the frame that `allocatePage` returns in the state
after construction is 2; read with the layout "bit 0 = exclusive-held, bits 1..N =
shared-count", the exclusive-held bit is clear and the shared-count is 1. -/
theorem allocatePage_lock_counterexample :
    (allocatePage run0).2 = .returned 0 ∧ (run1.bfs 0).header.lock = 2 ∧
    lockExclusiveHeld (run1.bfs 0).header.lock = false ∧
    lockSharedCount 1 (run1.bfs 0).header.lock = 1 ∧
    lockSharedCount 8 (run1.bfs 0).header.lock = 1 := by
  decide

/-- C23, amended: the lock word of the frame that `allocatePage` returns is 2, that is bit 1
set and every other bit clear; read with the layout "bit 0 = exclusive-held, bits 1..N =
shared-count, bits N+1..63 = version", whatever `N ≥ 1` is, the exclusive-held bit is clear,
the shared-count is 1 and the version is 0. -/
theorem allocatePage_lock_word (s s1 : BufferManager) (bf : Nat)
    (h : allocatePage s = (s1, .returned bf)) :
    (s1.bfs bf).header.lock = 2 ∧ (s1.bfs bf).header.state = .HOT ∧
    lockExclusiveHeld (s1.bfs bf).header.lock = false ∧
    ∀ N, 1 ≤ N →
      lockSharedCount N (s1.bfs bf).header.lock = 1 ∧
      lockVersion N (s1.bfs bf).header.lock = 0 := by
  have hlock : (s1.bfs bf).header.lock = 2 ∧ (s1.bfs bf).header.state = .HOT := by
    unfold allocatePage at h
    split at h
    · simp only [Prod.mk.injEq, Exit.returned.injEq] at h
      obtain ⟨h1, h2⟩ := h
      subst h2
      rw [← h1]
      simp [setFrame]
    · simp at h
  refine ⟨hlock.1, hlock.2, ?_, ?_⟩
  · rw [hlock.1]
    rfl
  · intro N hN
    rw [hlock.1]
    have h2 : 2 ≤ 2 ^ N := by
      calc 2 = 2 ^ 1 := rfl
        _ ≤ 2 ^ N := Nat.pow_le_pow_right (by decide) hN
    have h4 : 2 < 2 ^ (N + 1) := by
      rw [Nat.pow_succ]
      omega
    constructor
    · unfold lockSharedCount
      exact Nat.mod_eq_of_lt (by omega)
    · unfold lockVersion
      rw [Nat.mod_eq_of_lt (by norm_num)]
      exact Nat.div_eq_of_lt h4

/-- Witness of C23: `allocatePage` in the state after construction with two frames and two
pages. -/
theorem allocatePage_lock_word_witness :
    allocatePage run0 = (run1, .returned 0) ∧
    (run1.bfs 0).header.lock = 2 ∧ (run1.bfs 0).header.state = .HOT ∧
    lockExclusiveHeld (run1.bfs 0).header.lock = false ∧
    lockSharedCount 7 (run1.bfs 0).header.lock = 1 ∧
    lockVersion 7 (run1.bfs 0).header.lock = 0 :=
  have h := allocatePage_lock_word run0 run1 0 rfl
  ⟨rfl, h.1, h.2.1, h.2.2.1, (h.2.2.2 7 (by decide)).1, (h.2.2.2 7 (by decide)).2⟩

end leanstore
